import Mathlib

/-!
Shallow embedding of the shared-memory heap allocator
(`global_shared_allocator::driver` and its nested `chunk` type).

The arena is modelled as the address-ordered list of chunks that tile the
segment after the driver header, together with the 64 segregated free
lists (each a list of chunk start offsets, ordered as the `footer.next_`
chain from the dummy head) and the committed segment size `size_`.
Addresses are byte offsets from the start of the segment; machine
arithmetic on `size_t` is `Nat` with explicit `% 2^64` where the source
can overflow.  C++ exceptions become an error result that carries the
memory state at the throw point.
-/

namespace SharedAlloc

/-- Bit width modulus of `size_t` on the 64-bit platform the source
assumes (`sizeof(size_t) == 8`). -/
def U64 : Nat := 2 ^ 64

/-- `data_align_`: payload alignment, 16 bytes. -/
def data_align : Nat := 16

/-- `min_data_size_`: minimal payload size, equal to the alignment. -/
def min_data_size : Nat := data_align

/-- `n_free_list_`: number of free lists, the bit width of `size_t`. -/
def n_free_list : Nat := 64

/-- `sizeof(chunk)`: header (16 bytes, a 16-aligned `size_t` + pointer)
plus footer (16 bytes). -/
def chunk_overhead : Nat := 32

/-- `sizeof(chunk_header)`: the payload of a chunk starts this many bytes
past the chunk start (`data()` returns `&header()[1]`). -/
def header_size : Nat := 16

/-- `min_chunk_size_ = sizeof(chunk) + min_data_size_`. -/
def min_chunk_size : Nat := chunk_overhead + min_data_size

/-- `max_size_ = (size_t)1 << 32` on a 64-bit platform. -/
def max_size : Nat := 2 ^ 32

/-- `min_size_`: one page, 4096 bytes. -/
def min_size : Nat := 4096

/-- `sizeof(driver)` on x86-64 Linux: `sem_t` (32) + `addr_` (8) +
`size_` (8) + 64 free-list dummy chunks (64 * 32 = 2048), the whole
struct aligned to 16; the first real chunk lives at this offset
(`&driver_[1]`). -/
def driver_size : Nat := 2096

/-- One chunk of the tiling: `header_.size_` (payload bytes) and the
allocation status encoded in the footer (`footer_.size_` is `0` when
allocated, a mirror of `header_.size_` when free). -/
structure Chunk where
  size : Nat
  free : Bool
deriving Repr, DecidableEq

/-- Full footprint of a chunk: `size() + sizeof(chunk)`. -/
def Chunk.full_size (c : Chunk) : Nat := c.size + chunk_overhead

/-- The driver state visible to the heap algorithms: committed file size
`size_`, the chunk tiling that starts at `&driver_[1]`, the 64 free
lists (`footer.next_` chains from the dummy heads, as lists of chunk
start offsets), and an instrumentation counter of `sem_wait`
acquisitions of the inter-process mutex. -/
structure Heap where
  committed : Nat
  chunks : List Chunk
  freeLists : List (List Nat)
  locks : Nat
deriving Repr, DecidableEq

/-- Scope entry of the `lock` guard: `sem_wait(&driver_->sem_)`. -/
def lock (h : Heap) : Heap := { h with locks := h.locks + 1 }

/-- Every `throw` site of the source, plus two model-level markers. -/
inductive Err where
  /-- `logic_error("list_index: zero size")` -/
  | listIndexZero
  /-- `logic_error("add_chunk: size unaligned")` -/
  | addChunkUnaligned
  /-- `logic_error("add_chunk: size too small")` -/
  | addChunkTooSmall
  /-- `logic_error("get_chunk: data unaligned")` -/
  | getChunkUnaligned
  /-- `logic_error("allocate: size unaligned")` -/
  | allocUnaligned
  /-- `logic_error("allocate: size too small")` -/
  | allocTooSmall
  /-- `logic_error("deallocate: unexpected footer size")` -/
  | deallocFooter
  /-- `logic_error("split: size too small")` -/
  | splitTooSmall
  /-- `logic_error("split: size unaligned")` -/
  | splitUnaligned
  /-- `std::bad_alloc` thrown by `extend` -/
  | badAlloc
  /-- `system_error("mmap")` -/
  | sysMmap
  /-- `system_error("munmap")` -/
  | sysMunmap
  /-- Model-level: the source would here dereference memory that lies
  outside the modelled chunk tiling / free-list structure (e.g. the null
  `prev_` of an unlisted chunk, or a free-list entry that is not a chunk
  start). -/
  | corrupt
  /-- Model-level: fuel bound for the `add_chunk`/`coalesce` recursion,
  which is unbounded in the source; never reached from the entry points
  used here because every coalescing round shrinks the tiling. -/
  | fuelOut
deriving Repr, DecidableEq

/-- Outcome of a stateful operation: C++ exceptions propagate while the
mapped memory keeps the mutations made before the throw, so both
constructors carry the heap. -/
inductive Result (α : Type) where
  | ok : α → Heap → Result α
  | error : Err → Heap → Result α
deriving Repr, DecidableEq

/-- The chunk record at tiling index `i` (reading the header/footer at
that position; the default is never reached under the well-formedness
hypotheses used below). -/
def getC (h : Heap) (i : Nat) : Chunk := h.chunks.getD i ⟨0, false⟩

/-- Start offset of the chunk at tiling index `i`: the first chunk sits
at `&driver_[1]` and each chunk is followed immediately by the next. -/
def chunkAddr (cs : List Chunk) (i : Nat) : Nat :=
  driver_size + ((cs.take i).map Chunk.full_size).sum

/-- Tiling index of the chunk whose start offset is `a` (pointer-to-index
translation of the model). -/
def idxOfAddr (cs : List Chunk) (a : Nat) : Option Nat :=
  (List.range cs.length).find? (fun i => chunkAddr cs i == a)

/-- `free_list_[j]` contents (`footer.next_` chain from dummy head `j`). -/
def flGet (fls : List (List Nat)) (j : Nat) : List Nat := fls.getD j []

/-- Base-2 logarithm by structural recursion on a fuel bound so that the
kernel can evaluate it; `log2_fuel 64` agrees with `Nat.log2` on every
`size_t` value (below `2^64`). -/
def log2_fuel : Nat → Nat → Nat
  | 0, _ => 0
  | fuel + 1, n => if 2 ≤ n then log2_fuel fuel (n / 2) + 1 else 0

/-- `chunk::list_index`: `63 - __builtin_clzll(s)` after the zero check.
`clzll` on a 64-bit value `s` is `64 - (log2 s + 1)`. -/
def clzll (s : Nat) : Nat := 64 - (log2_fuel 64 s + 1)

/-- `chunk::list_index(size)`: throws on zero, else `63 - clzll(size)`. -/
def list_index (size : Nat) : Except Err Nat :=
  if size = 0 then .error .listIndexZero
  else .ok (63 - clzll size)

/-- Rounding in `driver::allocate`:
`size = (size + data_align_ - 1) & ~(data_align_ - 1)` in `size_t`
arithmetic (wraps modulo 2^64). -/
def round_up (n : Nat) : Nat :=
  ((n + (data_align - 1)) % U64) / data_align * data_align

/-- `chunk::before()`: `NULL` for the first chunk (`this ==
&driver_[1]`), otherwise read the preceding footer; `NULL` if it is in
allocated form, else the previous chunk of the tiling. -/
def chunk_before (h : Heap) (i : Nat) : Option Nat :=
  if i = 0 then none
  else
    match h.chunks[i - 1]? with
    | some c => if c.free then some (i - 1) else none
    | none => none

/-- `chunk::after()`: the address just past the footer; `NULL` if fewer
than `min_chunk_size_` bytes remain before `driver_ + size_` or the
chunk there is allocated. -/
def chunk_after (h : Heap) (i : Nat) : Option Nat :=
  if chunkAddr h.chunks (i + 1) + min_chunk_size > h.committed then none
  else
    match h.chunks[i + 1]? with
    | some c => if c.free then some (i + 1) else none
    | none => none

/-- `chunk::add()`: push this chunk at the head of
`free_list_[list_index(size())]` (insertion right after the dummy
head). -/
def chunk_add (h : Heap) (i : Nat) : Result Unit :=
  match list_index (getC h i).size with
  | .error e => .error e h
  | .ok li =>
    .ok () { h with
      freeLists := h.freeLists.set li (chunkAddr h.chunks i :: flGet h.freeLists li) }

/-- The free list (if any) that currently holds start offset `a`. -/
def findList (fls : List (List Nat)) (a : Nat) : Option Nat :=
  (List.range n_free_list).find? (fun j => (flGet fls j).contains a)

/-- `chunk::remove()`: unlink this chunk from its doubly-linked free
list via `header.prev_` / `footer.next_`.  A chunk that is in no list
has a null `prev_`, which the source would dereference: model-level
`corrupt`. -/
def chunk_remove (h : Heap) (a : Nat) : Result Unit :=
  match findList h.freeLists a with
  | none => .error .corrupt h
  | some j =>
    .ok () { h with freeLists := h.freeLists.set j ((flGet h.freeLists j).erase a) }

/-- `chunk::coalesce()` with explicit fuel for the mutual recursion with
`add_chunk` (the tail call `add_chunk(b, new_size)` is inlined: its two
checks, its header/footer writes over the merged span, then its own
`coalesce`).  Each recursive round merges at least two tiling entries
into one, so `chunks.length + 1` fuel always suffices at the entry
points. -/
def coalesce_fuel : Nat → Heap → Nat → Result Nat
  | 0, h, _ => .error .fuelOut h
  | fuel + 1, h, i =>
    match chunk_before h i, chunk_after h i with
    | none, none =>
      match chunk_add h i with
      | .error e h1 => .error e h1
      | .ok _ h1 => .ok i h1
    | b, a =>
      let rb : Result Unit :=
        match b with
        | some bi => chunk_remove h (chunkAddr h.chunks bi)
        | none => .ok () h
      match rb with
      | .error e h1 => .error e h1
      | .ok _ h1 =>
        let ra : Result Unit :=
          match a with
          | some ai => chunk_remove h1 (chunkAddr h1.chunks ai)
          | none => .ok () h1
        match ra with
        | .error e h2 => .error e h2
        | .ok _ h2 =>
          let new_size := (getC h2 i).full_size +
            (match b with | some bi => (getC h2 bi).full_size | none => 0) +
            (match a with | some ai => (getC h2 ai).full_size | none => 0)
          let b0 := match b with | some bi => bi | none => i
          let a0 := match a with | some ai => ai | none => i
          if new_size % data_align ≠ 0 then .error .addChunkUnaligned h2
          else if new_size < min_chunk_size then .error .addChunkTooSmall h2
          else
            let h3 := { h2 with
              chunks := h2.chunks.take b0 ++
                ⟨new_size - chunk_overhead, true⟩ :: h2.chunks.drop (a0 + 1) }
            coalesce_fuel fuel h3 b0

/-- `chunk::add_chunk(addr, size)`: the two checks, then write header
(`size_ = size - sizeof(chunk)`, `prev_ = NULL`) and footer (mirror
size, `next_ = NULL`) over the span that the tiling entry `i` stands
for, then `coalesce`. -/
def add_chunk (h : Heap) (i : Nat) (size : Nat) : Result Nat :=
  if size % data_align ≠ 0 then .error .addChunkUnaligned h
  else if size < min_chunk_size then .error .addChunkTooSmall h
  else
    let h1 := { h with chunks := h.chunks.set i ⟨size - chunk_overhead, true⟩ }
    coalesce_fuel (h1.chunks.length + 1) h1 i

/-- `chunk::split(remsize)`: shrink the header size by `remsize`, mark
the shrunk front allocated (`footer.size_ = 0`, `next_ = NULL`), then
`add_chunk(&footer()[1], remsize)`; the inserted `⟨0, false⟩` entry is
the raw span that `add_chunk` immediately overwrites. -/
def chunk_split (h : Heap) (i : Nat) (remsize : Nat) : Result Nat :=
  if remsize < min_chunk_size then .error .splitTooSmall h
  else if remsize % data_align ≠ 0 then .error .splitUnaligned h
  else
    let c := getC h i
    let cs1 := h.chunks.set i ⟨c.size - remsize, false⟩
    let cs2 := cs1.take (i + 1) ++ ⟨0, false⟩ :: cs1.drop (i + 1)
    add_chunk { h with chunks := cs2 } (i + 1) remsize

/-- `chunk::allocate(reqsize)`: the two checks, `remove()`, then either
`split` the remainder or mark the whole chunk allocated
(`footer.size_ = 0`). -/
def chunk_allocate (h : Heap) (i : Nat) (reqsize : Nat) : Result Unit :=
  if reqsize % data_align ≠ 0 then .error .allocUnaligned h
  else if (getC h i).size < reqsize then .error .allocTooSmall h
  else
    match chunk_remove h (chunkAddr h.chunks i) with
    | .error e h1 => .error e h1
    | .ok _ h1 =>
      let remsize := (getC h1 i).size - reqsize
      if min_chunk_size ≤ remsize then
        match chunk_split h1 i remsize with
        | .error e h2 => .error e h2
        | .ok _ h2 => .ok () h2
      else
        .ok () { h1 with chunks := h1.chunks.set i ⟨(getC h1 i).size, false⟩ }

/-- `chunk::deallocate()`: reject a footer that is not in allocated form,
else restore `footer.size_` from `header.size_` (marking free) and
`coalesce`. -/
def chunk_deallocate (h : Heap) (i : Nat) : Result Nat :=
  if (getC h i).free then .error .deallocFooter h
  else
    let h1 := { h with chunks := h.chunks.set i ⟨(getC h i).size, true⟩ }
    coalesce_fuel (h1.chunks.length + 1) h1 i

/-- The doubling loop of `driver::extend`:
`while(s < max_size_ && s - size_ < size) s *= 2`.  The source loop is
unbounded; 64 iterations always suffice for `size_ ≥ 1` because `s`
doubles past `max_size_` within that many rounds (for `size_ = 0` the
source would not terminate; that value is unreachable, `size_ ≥
min_size_` always). -/
def extend_loop : Nat → Nat → Nat → Nat → Nat
  | 0, s, _, _ => s
  | fuel + 1, s, size0, need =>
    if s < max_size ∧ s - size0 < need then extend_loop fuel (2 * s) size0 need
    else s

/-- `driver::extend(size)`: double `s` from `size_`, throw `bad_alloc`
if the growth cannot cover `size`, else truncate the file to `s`, lay a
chunk over the `s - size_` new bytes at offset `size_` (the appended
`⟨0, false⟩` entry is that raw span), update `size_`, and `add_chunk`. -/
def driver_extend (h : Heap) (size : Nat) : Result Nat :=
  let s := extend_loop 64 h.committed h.committed size
  if s - h.committed < size then .error .badAlloc h
  else
    let delta := s - h.committed
    let h1 := { h with committed := s, chunks := h.chunks ++ [⟨0, false⟩] }
    add_chunk h1 h.chunks.length delta

/-- The inner list walk of `driver::allocate`:
`while(c) { if(c->size() >= size) ...; c = c->footer()->next_; }`,
returning the tiling index of the first fitting chunk. -/
def walk_list (h : Heap) (req : Nat) : List Nat → Except Err (Option Nat)
  | [] => .ok none
  | a :: rest =>
    match idxOfAddr h.chunks a with
    | none => .error .corrupt
    | some i =>
      if req ≤ (getC h i).size then .ok (some i) else walk_list h req rest

/-- The class loop of `driver::allocate`:
`for(size_t i = chunk::list_index(size); i < n_free_list_; ++i)`. -/
def walk_classes (h : Heap) (req : Nat) (i : Nat) : Except Err (Option Nat) :=
  if _hlt : i < n_free_list then
    match walk_list h req (flGet h.freeLists i) with
    | .error e => .error e
    | .ok (some x) => .ok (some x)
    | .ok none => walk_classes h req (i + 1)
  else .ok none
termination_by n_free_list - i

/-- `driver::allocate(size)`: nil on zero, else round up, take the lock,
walk the free lists first-fit from class `list_index(size)`, and on
success return the payload address `c->data()`; with no fit, extend by
`size + sizeof(chunk)` (in `size_t` arithmetic) and allocate from the
produced chunk. -/
def driver_allocate (h : Heap) (n : Nat) : Result (Option Nat) :=
  if n = 0 then .ok none h
  else
    let size := round_up n
    let h1 := lock h
    match list_index size with
    | .error e => .error e h1
    | .ok i0 =>
      match walk_classes h1 size i0 with
      | .error e => .error e h1
      | .ok (some i) =>
        match chunk_allocate h1 i size with
        | .error e h2 => .error e h2
        | .ok _ h2 => .ok (some (chunkAddr h1.chunks i + header_size)) h2
      | .ok none =>
        match driver_extend h1 ((size + chunk_overhead) % U64) with
        | .error e h2 => .error e h2
        | .ok ci h2 =>
          match chunk_allocate h2 ci size with
          | .error e h3 => .error e h3
          | .ok _ h3 => .ok (some (chunkAddr h2.chunks ci + header_size)) h3

/-- `driver::deallocate(p, n)` (`n` is ignored by the source): no-op on
null, else lock, `get_chunk(p)` (alignment check, then
`(chunk_header*)p - 1`), and `chunk::deallocate`. -/
def driver_deallocate (h : Heap) (p : Option Nat) (_n : Nat) : Result Unit :=
  match p with
  | none => .ok () h
  | some a =>
    let h1 := lock h
    if a % data_align ≠ 0 then .error .getChunkUnaligned h1
    else
      match idxOfAddr h1.chunks (a - header_size) with
      | none => .error .corrupt h1
      | some i =>
        match chunk_deallocate h1 i with
        | .error e h2 => .error e h2
        | .ok _ h2 => .ok () h2

/-- `driver::driver(size)` (the master constructor): record the
committed size, zero the free lists, and lay one initial chunk over the
remainder past the driver header when it is at least `min_chunk_size_`
bytes. -/
def driver_ctor (size : Nat) : Result Unit :=
  let h : Heap :=
    { committed := size, chunks := [], freeLists := List.replicate n_free_list [],
      locks := 0 }
  let rem := size - driver_size
  if min_chunk_size ≤ rem then
    match add_chunk { h with chunks := [⟨0, false⟩] } 0 rem with
    | .error e h1 => .error e h1
    | .ok _ h1 => .ok () h1
  else .ok () h

/-- The arena a master process owns right after `shm_open` with
`O_TRUNC`: the file was truncated to zero, re-truncated to `min_size_`,
and the driver constructed over it (one free chunk of payload 1968 in
class `log2 1968 = 10`). -/
def fresh_heap : Heap :=
  { committed := 4096, chunks := [⟨1968, true⟩],
    freeLists := (List.replicate n_free_list []).set 10 [driver_size],
    locks := 0 }

/-- The mapping decision at the tail of `driver::create` (lines 175–188):
`master` is `oflag_ & O_TRUNC`; `addr` is the base the initial `mmap`
returned; `recorded` is `driver_->addr_` read from the just-mapped
header; the kernel's answers to the attacher's `munmap` and to the
`MAP_FIXED_NOREPLACE` re-`mmap` at `recorded` enter as `munmap_ok` and
`remap_result`.  The returned flag records whether this process ran the
placement `new`, i.e. (re)initialized the arena header. -/
def create_finish (master : Bool) (addr recorded : Nat)
    (munmap_ok : Bool) (remap_result : Nat) : Except Err (Nat × Bool) :=
  if master then .ok (addr, true)
  else if recorded = addr then .ok (addr, false)
  else if ¬munmap_ok then .error .sysMunmap
  else if remap_result ≠ recorded then .error .sysMmap
  else .ok (recorded, false)

/-- Does the chunk that free-list entry `a` points at fit a (rounded)
request `req`?  This is the test `c->size() >= size` of the first-fit
walk, phrased on addresses. -/
def fits (h : Heap) (req a : Nat) : Bool :=
  match idxOfAddr h.chunks a with
  | some i => req ≤ (getC h i).size
  | none => false

/-- The sequence of free-list entries that the class loop of
`driver::allocate` visits when it starts at class `i0`: list `i0`, then
list `i0 + 1`, and so on. -/
def search_order (h : Heap) (i0 : Nat) : List Nat :=
  (h.freeLists.drop i0).flatten

/-- The arena content proper: everything except the instrumentation
counter of mutex acquisitions. -/
def coreEq (h h' : Heap) : Prop :=
  h.committed = h'.committed ∧ h.chunks = h'.chunks ∧ h.freeLists = h'.freeLists

/-- Two operation outcomes agree except possibly in the mutex
acquisition counters of their heaps. -/
def RRel {α : Type} : Result α → Result α → Prop
  | .ok a g, .ok a' g' => a = a' ∧ coreEq g g'
  | .error e g, .error e' g' => e = e' ∧ coreEq g g'
  | _, _ => False

/-- Replace only the instrumentation counter of mutex acquisitions,
keeping the arena content. -/
def setLocks (h : Heap) (l : Nat) : Heap :=
  Heap.mk h.committed h.chunks h.freeLists l

/-- Transport the heap carried by an outcome. -/
def mapHeap {α : Type} (f : Heap → Heap) : Result α → Result α
  | .ok a g => .ok a (f g)
  | .error e g => .error e (f g)

/-- How many free-list entries (over all 64 lists) hold start offset
`a`: the number of `footer.next_` links that reach the chunk at `a`. -/
def listedCount (fls : List (List Nat)) (a : Nat) : Nat :=
  (fls.map (fun L => L.count a)).sum

/-- Structural well-formedness of the arena: 64 free lists; the chunk
tiling fills the committed span exactly; every payload size is 16-byte
aligned and at least 16; no two address-adjacent chunks are both free;
every free chunk appears in exactly one free-list position; and every
free-list entry is the start offset of a free chunk. -/
def Inv (h : Heap) : Prop :=
  h.freeLists.length = n_free_list ∧
  chunkAddr h.chunks h.chunks.length = h.committed ∧
  (∀ i < h.chunks.length,
    (getC h i).size % data_align = 0 ∧ data_align ≤ (getC h i).size) ∧
  (∀ i < h.chunks.length, i + 1 < h.chunks.length →
    (getC h i).free = true → (getC h (i + 1)).free = false) ∧
  (∀ i < h.chunks.length, (getC h i).free = true →
    listedCount h.freeLists (chunkAddr h.chunks i) = 1) ∧
  (∀ j < n_free_list, ∀ a ∈ flGet h.freeLists j,
    ∃ i ∈ List.range h.chunks.length,
      chunkAddr h.chunks i = a ∧ (getC h i).free = true)

/-- Heap states reachable from the fresh master arena by completed
(non-throwing) `driver::allocate` and `driver::deallocate` calls. -/
inductive Reach : Heap → Prop where
  | init : Reach fresh_heap
  | alloc (h : Heap) (n : Nat) (p : Option Nat) (h' : Heap) : Reach h →
      driver_allocate h n = .ok p h' → Reach h'
  | dealloc (h : Heap) (p : Option Nat) (m : Nat) (h' : Heap) : Reach h →
      driver_deallocate h p m = .ok () h' → Reach h'

example : driver_ctor 4096 = .ok () fresh_heap := by decide

/-- `log2_fuel fuel` agrees with `Nat.log2` below `2 ^ fuel`. -/
theorem log2_fuel_eq : ∀ (fuel n : Nat), n < 2 ^ fuel → log2_fuel fuel n = Nat.log2 n
  | 0, n, hn => by
    interval_cases n
    simp [log2_fuel, Nat.log2]
  | fuel + 1, n, hn => by
    rw [log2_fuel, Nat.log2]
    by_cases h2 : 2 ≤ n
    · rw [if_pos h2, if_pos h2, log2_fuel_eq fuel (n / 2)]
      exact Nat.div_lt_of_lt_mul (by rw [pow_succ] at hn; omega)
    · rw [if_neg h2, if_neg h2]

theorem chunkAddr_zero (cs : List Chunk) : chunkAddr cs 0 = driver_size := by
  simp [chunkAddr]

theorem chunkAddr_succ (cs : List Chunk) (i : Nat) (hi : i < cs.length) :
    chunkAddr cs (i + 1) = chunkAddr cs i + (cs.getD i ⟨0, false⟩).full_size := by
  have hmap : i < (cs.map Chunk.full_size).length := by simpa using hi
  rw [chunkAddr, chunkAddr, List.map_take, List.map_take, List.take_succ,
    List.getElem?_eq_getElem hmap, List.getElem_map]
  simp [List.getD_eq_getElem?_getD, List.getElem?_eq_getElem hi]
  omega

theorem full_size_pos (c : Chunk) : 0 < c.full_size := by
  simp [Chunk.full_size, chunk_overhead]

theorem chunkAddr_lt (cs : List Chunk) (i : Nat) (hi : i < cs.length) :
    chunkAddr cs i < chunkAddr cs (i + 1) := by
  rw [chunkAddr_succ cs i hi]
  have := full_size_pos (cs.getD i ⟨0, false⟩)
  omega

theorem chunkAddr_strictMono (cs : List Chunk) :
    ∀ i j : Nat, i < j → j ≤ cs.length → chunkAddr cs i < chunkAddr cs j := by
  intro i j
  induction j with
  | zero => omega
  | succ j ih =>
    intro hij hj
    rcases Nat.lt_succ_iff_lt_or_eq.mp hij with hlt | heq
    · exact (ih hlt (by omega)).trans (chunkAddr_lt cs j (by omega))
    · subst heq
      exact chunkAddr_lt cs i (by omega)

theorem chunkAddr_inj (cs : List Chunk) (i j : Nat) (hi : i ≤ cs.length)
    (hj : j ≤ cs.length) (he : chunkAddr cs i = chunkAddr cs j) : i = j := by
  rcases Nat.lt_trichotomy i j with hlt | heq | hgt
  · exact absurd he (Nat.ne_of_lt (chunkAddr_strictMono cs i j hlt hj))
  · exact heq
  · exact absurd he.symm (Nat.ne_of_lt (chunkAddr_strictMono cs j i hgt hi))

theorem idxOfAddr_eq_some (cs : List Chunk) (a i : Nat)
    (h : idxOfAddr cs a = some i) : i < cs.length ∧ chunkAddr cs i = a := by
  have h1 := List.mem_of_find?_eq_some h
  have h2 := List.find?_some h
  exact ⟨List.mem_range.mp h1, by simpa using h2⟩

theorem idxOfAddr_eq_none (cs : List Chunk) (a : Nat)
    (h : idxOfAddr cs a = none) : ∀ i < cs.length, chunkAddr cs i ≠ a := by
  intro i hi
  have := List.find?_eq_none.mp h i (List.mem_range.mpr hi)
  simpa using this

theorem idxOfAddr_chunkAddr (cs : List Chunk) (i : Nat) (hi : i < cs.length) :
    idxOfAddr cs (chunkAddr cs i) = some i := by
  cases hfind : idxOfAddr cs (chunkAddr cs i) with
  | none => exact absurd rfl (idxOfAddr_eq_none cs _ hfind i hi)
  | some j =>
    obtain ⟨hj, he⟩ := idxOfAddr_eq_some cs _ j hfind
    rw [chunkAddr_inj cs j i (Nat.le_of_lt hj) (Nat.le_of_lt hi) he]

theorem extend_loop_mul : ∀ (fuel s size0 need : Nat),
    ∃ k, extend_loop fuel s size0 need = s * 2 ^ k ∧
      (k = 0 ∨ s * 2 ^ (k - 1) < max_size) ∧
      ∀ j < k, s * 2 ^ j < max_size ∧ s * 2 ^ j - size0 < need
  | 0, s, _, _ => ⟨0, by simp [extend_loop], Or.inl rfl, by omega⟩
  | fuel + 1, s, size0, need => by
    rw [extend_loop]
    by_cases hc : s < max_size ∧ s - size0 < need
    · rw [if_pos hc]
      obtain ⟨k, hk, hstop, hall⟩ := extend_loop_mul fuel (2 * s) size0 need
      refine ⟨k + 1, by rw [hk]; ring, Or.inr ?_, ?_⟩
      · rcases hstop with hk0 | hlt
        · subst hk0
          simpa using hc.1
        · have hle : s * 2 ^ (k + 1 - 1) ≤ 2 * s * 2 ^ (k - 1) := by
            cases k with
            | zero => simp; omega
            | succ k' =>
              have he : s * 2 ^ (k' + 1) = 2 * s * 2 ^ k' := by ring
              simpa using Nat.le_of_eq he
          omega
      · intro j hj
        cases j with
        | zero => simpa using hc
        | succ j' =>
          have := hall j' (by omega)
          have he : 2 * s * 2 ^ j' = s * 2 ^ (j' + 1) := by ring
          rw [he] at this
          exact this
    · rw [if_neg hc]
      exact ⟨0, by simp, Or.inl rfl, by omega⟩

theorem extend_loop_halts : ∀ (fuel s size0 need : Nat),
    max_size ≤ s * 2 ^ fuel →
    max_size ≤ extend_loop fuel s size0 need ∨
      need ≤ extend_loop fuel s size0 need - size0
  | 0, s, _, _, h => Or.inl (by simpa using h)
  | fuel + 1, s, size0, need, h => by
    rw [extend_loop]
    by_cases hc : s < max_size ∧ s - size0 < need
    · rw [if_pos hc]
      exact extend_loop_halts fuel (2 * s) size0 need
        (by rw [pow_succ] at h; calc max_size ≤ s * (2 ^ fuel * 2) := h
              _ = 2 * s * 2 ^ fuel := by ring)
    · rw [if_neg hc]
      omega

theorem extend_loop_ge : ∀ (fuel s size0 need : Nat),
    s ≤ extend_loop fuel s size0 need
  | 0, _, _, _ => Nat.le_refl _
  | fuel + 1, s, size0, need => by
    rw [extend_loop]
    by_cases hc : s < max_size ∧ s - size0 < need
    · rw [if_pos hc]
      exact le_trans (by omega) (extend_loop_ge fuel (2 * s) size0 need)
    · rw [if_neg hc]

theorem walk_list_eq (h : Heap) (req : Nat) : ∀ l : List Nat,
    (∀ a ∈ l, (idxOfAddr h.chunks a).isSome) →
    walk_list h req l = .ok ((l.find? (fits h req)).bind (idxOfAddr h.chunks))
  | [], _ => rfl
  | a :: rest, hres => by
    have ha := hres a (by simp)
    cases hidx : idxOfAddr h.chunks a with
    | none => rw [hidx] at ha; simp at ha
    | some i =>
      rw [walk_list]
      simp only [hidx]
      by_cases hfit : req ≤ (getC h i).size
      · rw [if_pos hfit, List.find?_cons_of_pos _ (by simp [fits, hidx, hfit])]
        simp [hidx]
      · rw [if_neg hfit, List.find?_cons_of_neg _ (by simp [fits, hidx, hfit])]
        exact walk_list_eq h req rest (fun b hb => hres b (by simp [hb]))

theorem walk_classes_eq (h : Heap) (req : Nat)
    (hlen : h.freeLists.length = n_free_list) (i0 : Nat)
    (hres : ∀ a ∈ search_order h i0, (idxOfAddr h.chunks a).isSome) :
    walk_classes h req i0 =
      .ok (((search_order h i0).find? (fits h req)).bind (idxOfAddr h.chunks)) := by
  by_cases hlt : i0 < n_free_list
  · have hdrop : h.freeLists.drop i0 = flGet h.freeLists i0 :: h.freeLists.drop (i0 + 1) := by
      rw [flGet, List.getD_eq_getElem?_getD, List.getElem?_eq_getElem (by omega),
        Option.getD_some]
      exact List.drop_eq_getElem_cons (by omega)
    have hso : search_order h i0 = flGet h.freeLists i0 ++ search_order h (i0 + 1) := by
      rw [search_order, hdrop, List.flatten_cons, search_order]
    have hres1 : ∀ a ∈ flGet h.freeLists i0, (idxOfAddr h.chunks a).isSome := by
      intro a haa
      refine hres a ?_
      rw [hso]
      exact List.mem_append_left _ haa
    have hres2 : ∀ a ∈ search_order h (i0 + 1), (idxOfAddr h.chunks a).isSome := by
      intro a haa
      refine hres a ?_
      rw [hso]
      exact List.mem_append_right _ haa
    rw [walk_classes, dif_pos hlt, walk_list_eq h req _ hres1]
    rw [hso, List.find?_append]
    cases hfind : (flGet h.freeLists i0).find? (fits h req) with
    | some a =>
      have hmem : a ∈ flGet h.freeLists i0 := List.mem_of_find?_eq_some hfind
      cases hidx : idxOfAddr h.chunks a with
      | none =>
        have := hres1 a hmem
        rw [hidx] at this
        simp at this
      | some i => simp [hidx]
    | none =>
      simp only [Option.none_bind, Option.none_or]
      exact walk_classes_eq h req hlen (i0 + 1) hres2
  · have hnil : h.freeLists.drop i0 = [] := List.drop_eq_nil_of_le (by omega)
    rw [walk_classes]
    simp [hlt, search_order, hnil]
termination_by n_free_list - i0

theorem getC_eq_getElem? (h : Heap) (i : Nat) :
    getC h i = (h.chunks[i]?).getD ⟨0, false⟩ := by
  rw [getC, List.getD_eq_getElem?_getD]

theorem getElem?_of_getC (h : Heap) (i : Nat) (hi : i < h.chunks.length) :
    h.chunks[i]? = some (getC h i) := by
  rw [getC_eq_getElem?, List.getElem?_eq_getElem hi]
  rfl

theorem chunk_before_zero (h : Heap) : chunk_before h 0 = none := by
  simp [chunk_before]

theorem chunk_before_none_of (h : Heap) (i : Nat)
    (hfree : 1 ≤ i → i - 1 < h.chunks.length → (getC h (i - 1)).free = false) :
    chunk_before h i = none := by
  rw [chunk_before]
  by_cases h0 : i = 0
  · rw [if_pos h0]
  · rw [if_neg h0]
    cases hc : h.chunks[i - 1]? with
    | none => rfl
    | some c =>
      have hlt : i - 1 < h.chunks.length := by
        by_contra hge
        rw [List.getElem?_eq_none (by omega)] at hc
        exact Option.noConfusion hc
      have hcc : c = getC h (i - 1) := by
        rw [getC_eq_getElem?, hc]
        rfl
      rw [hcc]
      simp [hfree (by omega) hlt]

theorem chunk_before_free (h : Heap) (i : Nat) (h1 : 1 ≤ i)
    (hlt : i - 1 < h.chunks.length) (hfree : (getC h (i - 1)).free = true) :
    chunk_before h i = some (i - 1) := by
  rw [chunk_before, if_neg (by omega), getElem?_of_getC h (i - 1) hlt]
  simp [hfree]

theorem chunk_after_none_of (h : Heap) (i : Nat)
    (hfree : i + 1 < h.chunks.length → (getC h (i + 1)).free = false) :
    chunk_after h i = none := by
  rw [chunk_after]
  by_cases hbd : chunkAddr h.chunks (i + 1) + min_chunk_size > h.committed
  · rw [if_pos hbd]
  · rw [if_neg hbd]
    cases hc : h.chunks[i + 1]? with
    | none => rfl
    | some c =>
      have hlt : i + 1 < h.chunks.length := by
        by_contra hge
        rw [List.getElem?_eq_none (by omega)] at hc
        exact Option.noConfusion hc
      have hcc : c = getC h (i + 1) := by
        rw [getC_eq_getElem?, hc]
        rfl
      rw [hcc]
      simp [hfree hlt]

theorem chunk_after_free (h : Heap) (i : Nat)
    (hbd : chunkAddr h.chunks (i + 1) + min_chunk_size ≤ h.committed)
    (hlt : i + 1 < h.chunks.length) (hfree : (getC h (i + 1)).free = true) :
    chunk_after h i = some (i + 1) := by
  rw [chunk_after, if_neg (by omega), getElem?_of_getC h (i + 1) hlt]
  simp [hfree]

theorem chunk_after_none_elim (h : Heap) (i : Nat) (ha : chunk_after h i = none) :
    h.committed < chunkAddr h.chunks (i + 1) + min_chunk_size ∨
      ∀ c, h.chunks[i + 1]? = some c → c.free = false := by
  rw [chunk_after] at ha
  by_cases hbd : chunkAddr h.chunks (i + 1) + min_chunk_size > h.committed
  · exact Or.inl hbd
  · right
    rw [if_neg hbd] at ha
    intro c hc
    rw [hc] at ha
    by_cases hf : c.free
    · simp [hf] at ha
    · simpa using hf

theorem getElem?_splice_lt (cs : List Chunk) (b0 a0 j : Nat) (x : Chunk)
    (hj : j < b0) (hb0 : b0 ≤ cs.length) :
    (cs.take b0 ++ x :: cs.drop (a0 + 1))[j]? = cs[j]? := by
  rw [List.getElem?_append_left (by rw [List.length_take]; omega), List.getElem?_take,
    if_pos hj]

theorem getElem?_splice_self (cs : List Chunk) (b0 a0 : Nat) (x : Chunk)
    (hb0 : b0 ≤ cs.length) :
    (cs.take b0 ++ x :: cs.drop (a0 + 1))[b0]? = some x := by
  rw [List.getElem?_append_right (by rw [List.length_take]; omega)]
  have h2 : b0 - (cs.take b0).length = 0 := by rw [List.length_take]; omega
  rw [h2]
  simp

theorem getElem?_splice_gt (cs : List Chunk) (b0 a0 j : Nat) (x : Chunk)
    (hj : b0 < j) (hb0 : b0 ≤ cs.length) :
    (cs.take b0 ++ x :: cs.drop (a0 + 1))[j]? = cs[a0 + 1 + (j - b0 - 1)]? := by
  rw [List.getElem?_append_right (by rw [List.length_take]; omega)]
  have h2 : j - (cs.take b0).length = (j - b0 - 1) + 1 := by rw [List.length_take]; omega
  rw [h2, List.getElem?_cons_succ, List.getElem?_drop]

theorem take_splice (cs : List Chunk) (b0 a0 j : Nat) (x : Chunk)
    (hj : j ≤ b0) (hb0 : b0 ≤ cs.length) :
    (cs.take b0 ++ x :: cs.drop (a0 + 1)).take j = cs.take j := by
  rw [List.take_append_of_le_length (by rw [List.length_take]; omega), List.take_take]
  congr 1
  omega

theorem chunkAddr_splice (cs : List Chunk) (b0 a0 j : Nat) (x : Chunk)
    (hj : j ≤ b0) (hb0 : b0 ≤ cs.length) :
    chunkAddr (cs.take b0 ++ x :: cs.drop (a0 + 1)) j = chunkAddr cs j := by
  rw [chunkAddr, chunkAddr, take_splice cs b0 a0 j x hj hb0]

theorem length_splice (cs : List Chunk) (b0 a0 : Nat) (x : Chunk)
    (hb0 : b0 ≤ cs.length) :
    (cs.take b0 ++ x :: cs.drop (a0 + 1)).length = b0 + 1 + (cs.length - (a0 + 1)) := by
  rw [List.length_append, List.length_take, List.length_cons, List.length_drop]
  omega

theorem getC_set_freeLists (h : Heap) (fl : List (List Nat)) (i : Nat) :
    getC { h with freeLists := fl } i = getC h i := rfl

theorem chunkAddr_set_freeLists (h : Heap) (fl : List (List Nat)) :
    ({ h with freeLists := fl } : Heap).chunks = h.chunks := rfl

theorem chunk_before_none_elim (h : Heap) (i : Nat) (hb : chunk_before h i = none) :
    i = 0 ∨ ∀ c, h.chunks[i - 1]? = some c → c.free = false := by
  by_cases h0 : i = 0
  · exact Or.inl h0
  · right
    rw [chunk_before, if_neg h0] at hb
    intro c hc
    rw [hc] at hb
    by_cases hf : c.free
    · simp [hf] at hb
    · simpa using hf

/-- `coalesce` when neither neighbor is free: the chunk is simply pushed
onto the free list of its class. -/
theorem coalesce_none_none (fuel : Nat) (h : Heap) (i li : Nat)
    (hb : chunk_before h i = none) (ha : chunk_after h i = none)
    (hli : list_index (getC h i).size = .ok li) :
    coalesce_fuel (fuel + 1) h i = .ok i
      { h with
        freeLists := h.freeLists.set li (chunkAddr h.chunks i :: flGet h.freeLists li) } := by
  rw [coalesce_fuel]
  simp only [hb, ha, chunk_add, hli]

/-- `coalesce` when only the `before` neighbor is free: remove it from
its list, merge the two spans, and insert the merged chunk (whose own
recursive `coalesce` finds no free neighbor). -/
theorem coalesce_merge_left (fuel : Nat) (h : Heap) (i jb li : Nat)
    (hb : chunk_before h i = some (i - 1)) (ha : chunk_after h i = none)
    (h1i : 1 ≤ i) (hilen : i < h.chunks.length)
    (hfl : findList h.freeLists (chunkAddr h.chunks (i - 1)) = some jb)
    (halign : ((getC h i).full_size + (getC h (i - 1)).full_size) % data_align = 0)
    (hstop : i - 1 = 0 ∨ (getC h (i - 2)).free = false)
    (hli : list_index ((getC h i).size + (getC h (i - 1)).size + chunk_overhead) =
      .ok li) :
    coalesce_fuel (fuel + 2) h i =
      (let fl1 := h.freeLists.set jb
          ((flGet h.freeLists jb).erase (chunkAddr h.chunks (i - 1)))
       let cs1 := h.chunks.take (i - 1) ++
          (⟨(getC h i).size + (getC h (i - 1)).size + chunk_overhead, true⟩ : Chunk) ::
            h.chunks.drop (i + 1)
       .ok (i - 1)
         (Heap.mk h.committed cs1
           (fl1.set li (chunkAddr h.chunks (i - 1) :: flGet fl1 li)) h.locks)) := by
  have hi1len : i - 1 < h.chunks.length := by omega
  have hi1le : i - 1 ≤ h.chunks.length := by omega
  have hsz : (getC h i).full_size + (getC h (i - 1)).full_size - chunk_overhead =
      (getC h i).size + (getC h (i - 1)).size + chunk_overhead := by
    simp only [Chunk.full_size, chunk_overhead]
    omega
  rw [show fuel + 2 = (fuel + 1) + 1 from rfl, coalesce_fuel]
  simp only [hb, ha, chunk_remove, hfl]
  rw [if_neg (by
    simp only [getC_set_freeLists]
    simp [halign]), if_neg (by
    simp only [getC_set_freeLists, min_chunk_size, chunk_overhead, min_data_size,
      data_align, Chunk.full_size]
    omega)]
  simp only [getC_set_freeLists, Nat.add_zero, hsz]
  set fl1 := h.freeLists.set jb
    ((flGet h.freeLists jb).erase (chunkAddr h.chunks (i - 1))) with hfl1
  set x : Chunk := ⟨(getC h i).size + (getC h (i - 1)).size + chunk_overhead, true⟩
    with hx
  set h3 : Heap :=
    Heap.mk h.committed (h.chunks.take (i - 1) ++ x :: h.chunks.drop (i + 1))
      fl1 h.locks with hh3
  have hcs3 : h3.chunks = h.chunks.take (i - 1) ++ x :: h.chunks.drop (i + 1) := rfl
  have hgetx : getC h3 (i - 1) = x := by
    rw [getC_eq_getElem?, hcs3, getElem?_splice_self h.chunks (i - 1) i x hi1le]
    rfl
  have haddr3 : chunkAddr h3.chunks (i - 1) = chunkAddr h.chunks (i - 1) := by
    rw [hcs3]
    exact chunkAddr_splice h.chunks (i - 1) i (i - 1) x (Nat.le_refl _) hi1le
  have hb3 : chunk_before h3 (i - 1) = none := by
    apply chunk_before_none_of
    intro h1 hlt
    have hgc : getC h3 (i - 1 - 1) = getC h (i - 2) := by
      rw [getC_eq_getElem?, getC_eq_getElem?, hcs3,
        getElem?_splice_lt h.chunks (i - 1) i (i - 1 - 1) x (by omega) hi1le,
        show i - 1 - 1 = i - 2 by omega]
    rw [hgc]
    rcases hstop with h0 | hfree
    · omega
    · exact hfree
  have haddrsucc : chunkAddr h3.chunks (i - 1 + 1) = chunkAddr h.chunks (i + 1) := by
    rw [hcs3, chunkAddr_succ _ (i - 1) (by
      rw [length_splice h.chunks (i - 1) i x hi1le]
      omega)]
    have hget' : (h.chunks.take (i - 1) ++ x :: h.chunks.drop (i + 1)).getD (i - 1)
        ⟨0, false⟩ = x := by
      rw [List.getD_eq_getElem?_getD, getElem?_splice_self h.chunks (i - 1) i x hi1le]
      rfl
    rw [hget', chunkAddr_splice h.chunks (i - 1) i (i - 1) x (Nat.le_refl _) hi1le]
    have e1 : chunkAddr h.chunks (i + 1) =
        chunkAddr h.chunks i + (h.chunks.getD i ⟨0, false⟩).full_size :=
      chunkAddr_succ h.chunks i hilen
    have e2 : chunkAddr h.chunks i =
        chunkAddr h.chunks (i - 1) + (h.chunks.getD (i - 1) ⟨0, false⟩).full_size := by
      have := chunkAddr_succ h.chunks (i - 1) hi1len
      rw [show i - 1 + 1 = i by omega] at this
      exact this
    rw [e1, e2]
    show chunkAddr h.chunks (i - 1) + x.full_size = _
    rw [hx]
    simp only [Chunk.full_size, getC]
    omega
  have ha3 : chunk_after h3 (i - 1) = none := by
    rcases chunk_after_none_elim h i ha with hbd | hfoot
    · rw [chunk_after, if_pos (by rw [haddrsucc]; exact hbd)]
    · apply chunk_after_none_of
      intro hlt
      have hget : h3.chunks[i - 1 + 1]? = h.chunks[i + 1]? := by
        rw [hcs3, getElem?_splice_gt h.chunks (i - 1) i (i - 1 + 1) x (by omega) hi1le]
        congr 1
        omega
      cases hc : h.chunks[i + 1]? with
      | none =>
        exfalso
        have hn : h3.chunks[i - 1 + 1]? = none := by rw [hget, hc]
        rw [List.getElem?_eq_none_iff] at hn
        omega
      | some c =>
        have hs : h3.chunks[i - 1 + 1]? = some c := by rw [hget, hc]
        rw [getC_eq_getElem?, hs]
        simpa using hfoot c hc
  have hli3 : list_index (getC h3 (i - 1)).size = .ok li := by
    rw [hgetx]
    exact hli
  rw [coalesce_none_none fuel h3 (i - 1) li hb3 ha3 hli3]
  rw [hh3]
  simp only [haddr3]

/-- `coalesce` when only the `after` neighbor is free: remove it from
its list, merge the two spans, and insert the merged chunk (whose own
recursive `coalesce` finds no free neighbor). -/
theorem coalesce_merge_right (fuel : Nat) (h : Heap) (i ja li : Nat)
    (hb : chunk_before h i = none) (ha : chunk_after h i = some (i + 1))
    (hi1len : i + 1 < h.chunks.length)
    (hfl : findList h.freeLists (chunkAddr h.chunks (i + 1)) = some ja)
    (halign : ((getC h i).full_size + (getC h (i + 1)).full_size) % data_align = 0)
    (hstop : h.committed < chunkAddr h.chunks (i + 2) + min_chunk_size ∨
      ∀ c, h.chunks[i + 2]? = some c → c.free = false)
    (hli : list_index ((getC h i).size + (getC h (i + 1)).size + chunk_overhead) =
      .ok li) :
    coalesce_fuel (fuel + 2) h i =
      (let fl1 := h.freeLists.set ja
          ((flGet h.freeLists ja).erase (chunkAddr h.chunks (i + 1)))
       let cs1 := h.chunks.take i ++
          (⟨(getC h i).size + (getC h (i + 1)).size + chunk_overhead, true⟩ : Chunk) ::
            h.chunks.drop (i + 2)
       .ok i
         (Heap.mk h.committed cs1
           (fl1.set li (chunkAddr h.chunks i :: flGet fl1 li)) h.locks)) := by
  have hilen : i < h.chunks.length := by omega
  have hile : i ≤ h.chunks.length := by omega
  have hsz : (getC h i).full_size + (getC h (i + 1)).full_size - chunk_overhead =
      (getC h i).size + (getC h (i + 1)).size + chunk_overhead := by
    simp only [Chunk.full_size, chunk_overhead]
    omega
  rw [show fuel + 2 = (fuel + 1) + 1 from rfl, coalesce_fuel]
  simp only [hb, ha, chunk_remove, hfl]
  rw [if_neg (by
    simp only [getC_set_freeLists]
    simp [halign]), if_neg (by
    simp only [getC_set_freeLists, min_chunk_size, chunk_overhead, min_data_size,
      data_align, Chunk.full_size]
    omega)]
  simp only [getC_set_freeLists, Nat.zero_add, Nat.add_zero, hsz]
  set fl1 := h.freeLists.set ja
    ((flGet h.freeLists ja).erase (chunkAddr h.chunks (i + 1))) with hfl1
  set x : Chunk := ⟨(getC h i).size + (getC h (i + 1)).size + chunk_overhead, true⟩
    with hx
  set h3 : Heap :=
    Heap.mk h.committed (h.chunks.take i ++ x :: h.chunks.drop (i + 2))
      fl1 h.locks with hh3
  have hcs3 : h3.chunks = h.chunks.take i ++ x :: h.chunks.drop (i + 2) := rfl
  have hgetx : getC h3 i = x := by
    rw [getC_eq_getElem?, hcs3, getElem?_splice_self h.chunks i (i + 1) x hile]
    rfl
  have haddr3 : chunkAddr h3.chunks i = chunkAddr h.chunks i := by
    rw [hcs3]
    exact chunkAddr_splice h.chunks i (i + 1) i x (Nat.le_refl _) hile
  have hb3 : chunk_before h3 i = none := by
    apply chunk_before_none_of
    intro h1 hlt
    have hget : h3.chunks[i - 1]? = h.chunks[i - 1]? := by
      rw [hcs3]
      exact getElem?_splice_lt h.chunks i (i + 1) (i - 1) x (by omega) hile
    rcases chunk_before_none_elim h i hb with h0 | hfoot
    · omega
    · cases hc : h.chunks[i - 1]? with
      | none =>
        exfalso
        have hn : h3.chunks[i - 1]? = none := by rw [hget, hc]
        rw [List.getElem?_eq_none_iff] at hn
        omega
      | some c =>
        have hs : h3.chunks[i - 1]? = some c := by rw [hget, hc]
        rw [getC_eq_getElem?, hs]
        simpa using hfoot c hc
  have haddrsucc : chunkAddr h3.chunks (i + 1) = chunkAddr h.chunks (i + 2) := by
    rw [hcs3, chunkAddr_succ _ i (by
      rw [length_splice h.chunks i (i + 1) x hile]
      omega)]
    have hget' : (h.chunks.take i ++ x :: h.chunks.drop (i + 2)).getD i
        ⟨0, false⟩ = x := by
      rw [List.getD_eq_getElem?_getD, getElem?_splice_self h.chunks i (i + 1) x hile]
      rfl
    rw [hget', chunkAddr_splice h.chunks i (i + 1) i x (Nat.le_refl _) hile]
    have e1 : chunkAddr h.chunks (i + 2) =
        chunkAddr h.chunks (i + 1) + (h.chunks.getD (i + 1) ⟨0, false⟩).full_size :=
      chunkAddr_succ h.chunks (i + 1) hi1len
    have e2 : chunkAddr h.chunks (i + 1) =
        chunkAddr h.chunks i + (h.chunks.getD i ⟨0, false⟩).full_size :=
      chunkAddr_succ h.chunks i hilen
    rw [e1, e2]
    show chunkAddr h.chunks i + x.full_size = _
    rw [hx]
    simp only [Chunk.full_size, getC]
    omega
  have ha3 : chunk_after h3 i = none := by
    rcases hstop with hbd | hfoot
    · rw [chunk_after, if_pos (by rw [haddrsucc]; exact hbd)]
    · apply chunk_after_none_of
      intro hlt
      have hget : h3.chunks[i + 1]? = h.chunks[i + 2]? := by
        rw [hcs3, getElem?_splice_gt h.chunks i (i + 1) (i + 1) x (by omega) hile]
        congr 1
        omega
      cases hc : h.chunks[i + 2]? with
      | none =>
        exfalso
        have hn : h3.chunks[i + 1]? = none := by rw [hget, hc]
        rw [List.getElem?_eq_none_iff] at hn
        omega
      | some c =>
        have hs : h3.chunks[i + 1]? = some c := by rw [hget, hc]
        rw [getC_eq_getElem?, hs]
        simpa using hfoot c hc
  have hli3 : list_index (getC h3 i).size = .ok li := by
    rw [hgetx]
    exact hli
  rw [coalesce_none_none fuel h3 i li hb3 ha3 hli3]
  rw [hh3]
  simp only [haddr3]

/-- `coalesce` when both neighbors are free: remove both from their
lists, merge the three spans, and insert the merged chunk (whose own
recursive `coalesce` finds no free neighbor). -/
theorem coalesce_merge_both (fuel : Nat) (h : Heap) (i jb ja li : Nat)
    (hb : chunk_before h i = some (i - 1)) (ha : chunk_after h i = some (i + 1))
    (h1i : 1 ≤ i) (hi1len : i + 1 < h.chunks.length)
    (hflb : findList h.freeLists (chunkAddr h.chunks (i - 1)) = some jb)
    (hfla : findList (h.freeLists.set jb
        ((flGet h.freeLists jb).erase (chunkAddr h.chunks (i - 1))))
        (chunkAddr h.chunks (i + 1)) = some ja)
    (halign : ((getC h i).full_size + (getC h (i - 1)).full_size +
      (getC h (i + 1)).full_size) % data_align = 0)
    (hstopb : i - 1 = 0 ∨ (getC h (i - 2)).free = false)
    (hstopa : h.committed < chunkAddr h.chunks (i + 2) + min_chunk_size ∨
      ∀ c, h.chunks[i + 2]? = some c → c.free = false)
    (hli : list_index ((getC h i).size + (getC h (i - 1)).size +
      (getC h (i + 1)).size + chunk_overhead + chunk_overhead) = .ok li) :
    coalesce_fuel (fuel + 2) h i =
      (let fl1 := h.freeLists.set jb
          ((flGet h.freeLists jb).erase (chunkAddr h.chunks (i - 1)))
       let fl2 := fl1.set ja ((flGet fl1 ja).erase (chunkAddr h.chunks (i + 1)))
       let cs1 := h.chunks.take (i - 1) ++
          (⟨(getC h i).size + (getC h (i - 1)).size + (getC h (i + 1)).size +
              chunk_overhead + chunk_overhead, true⟩ : Chunk) ::
            h.chunks.drop (i + 2)
       .ok (i - 1)
         (Heap.mk h.committed cs1
           (fl2.set li (chunkAddr h.chunks (i - 1) :: flGet fl2 li)) h.locks)) := by
  have hilen : i < h.chunks.length := by omega
  have hi1len' : i - 1 < h.chunks.length := by omega
  have hi1le : i - 1 ≤ h.chunks.length := by omega
  have hsz : (getC h i).full_size + (getC h (i - 1)).full_size +
      (getC h (i + 1)).full_size - chunk_overhead =
      (getC h i).size + (getC h (i - 1)).size + (getC h (i + 1)).size +
        chunk_overhead + chunk_overhead := by
    simp only [Chunk.full_size, chunk_overhead]
    omega
  rw [show fuel + 2 = (fuel + 1) + 1 from rfl, coalesce_fuel]
  simp only [hb, ha, chunk_remove, hflb]
  simp only [chunkAddr_set_freeLists, hfla]
  rw [if_neg (by
    simp only [getC_set_freeLists]
    simp [halign]), if_neg (by
    simp only [getC_set_freeLists, min_chunk_size, chunk_overhead, min_data_size,
      data_align, Chunk.full_size]
    omega)]
  simp only [getC_set_freeLists, Nat.add_zero, hsz]
  set fl1 := h.freeLists.set jb
    ((flGet h.freeLists jb).erase (chunkAddr h.chunks (i - 1))) with hfl1
  set fl2 := fl1.set ja ((flGet fl1 ja).erase (chunkAddr h.chunks (i + 1))) with hfl2
  set x : Chunk := ⟨(getC h i).size + (getC h (i - 1)).size + (getC h (i + 1)).size +
    chunk_overhead + chunk_overhead, true⟩ with hx
  set h3 : Heap :=
    Heap.mk h.committed (h.chunks.take (i - 1) ++ x :: h.chunks.drop (i + 2))
      fl2 h.locks with hh3
  have hcs3 : h3.chunks = h.chunks.take (i - 1) ++ x :: h.chunks.drop (i + 2) := rfl
  have hgetx : getC h3 (i - 1) = x := by
    rw [getC_eq_getElem?, hcs3, getElem?_splice_self h.chunks (i - 1) (i + 1) x hi1le]
    rfl
  have haddr3 : chunkAddr h3.chunks (i - 1) = chunkAddr h.chunks (i - 1) := by
    rw [hcs3]
    exact chunkAddr_splice h.chunks (i - 1) (i + 1) (i - 1) x (Nat.le_refl _) hi1le
  have hb3 : chunk_before h3 (i - 1) = none := by
    apply chunk_before_none_of
    intro h1 hlt
    have hgc : getC h3 (i - 1 - 1) = getC h (i - 2) := by
      rw [getC_eq_getElem?, getC_eq_getElem?, hcs3,
        getElem?_splice_lt h.chunks (i - 1) (i + 1) (i - 1 - 1) x (by omega) hi1le,
        show i - 1 - 1 = i - 2 by omega]
    rw [hgc]
    rcases hstopb with h0 | hfree
    · omega
    · exact hfree
  have haddrsucc : chunkAddr h3.chunks (i - 1 + 1) = chunkAddr h.chunks (i + 2) := by
    rw [hcs3, chunkAddr_succ _ (i - 1) (by
      rw [length_splice h.chunks (i - 1) (i + 1) x hi1le]
      omega)]
    have hget' : (h.chunks.take (i - 1) ++ x :: h.chunks.drop (i + 2)).getD (i - 1)
        ⟨0, false⟩ = x := by
      rw [List.getD_eq_getElem?_getD,
        getElem?_splice_self h.chunks (i - 1) (i + 1) x hi1le]
      rfl
    rw [hget', chunkAddr_splice h.chunks (i - 1) (i + 1) (i - 1) x (Nat.le_refl _) hi1le]
    have e1 : chunkAddr h.chunks (i + 2) =
        chunkAddr h.chunks (i + 1) + (h.chunks.getD (i + 1) ⟨0, false⟩).full_size :=
      chunkAddr_succ h.chunks (i + 1) hi1len
    have e2 : chunkAddr h.chunks (i + 1) =
        chunkAddr h.chunks i + (h.chunks.getD i ⟨0, false⟩).full_size :=
      chunkAddr_succ h.chunks i hilen
    have e3 : chunkAddr h.chunks i =
        chunkAddr h.chunks (i - 1) + (h.chunks.getD (i - 1) ⟨0, false⟩).full_size := by
      have := chunkAddr_succ h.chunks (i - 1) hi1len'
      rw [show i - 1 + 1 = i by omega] at this
      exact this
    rw [e1, e2, e3]
    show chunkAddr h.chunks (i - 1) + x.full_size = _
    rw [hx]
    simp only [Chunk.full_size, getC]
    omega
  have ha3 : chunk_after h3 (i - 1) = none := by
    rcases hstopa with hbd | hfoot
    · rw [chunk_after, if_pos (by rw [haddrsucc]; exact hbd)]
    · apply chunk_after_none_of
      intro hlt
      have hget : h3.chunks[i - 1 + 1]? = h.chunks[i + 2]? := by
        rw [hcs3,
          getElem?_splice_gt h.chunks (i - 1) (i + 1) (i - 1 + 1) x (by omega) hi1le]
        congr 1
        omega
      cases hc : h.chunks[i + 2]? with
      | none =>
        exfalso
        have hn : h3.chunks[i - 1 + 1]? = none := by rw [hget, hc]
        rw [List.getElem?_eq_none_iff] at hn
        omega
      | some c =>
        have hs : h3.chunks[i - 1 + 1]? = some c := by rw [hget, hc]
        rw [getC_eq_getElem?, hs]
        simpa using hfoot c hc
  have hli3 : list_index (getC h3 (i - 1)).size = .ok li := by
    rw [hgetx]
    exact hli
  rw [coalesce_none_none fuel h3 (i - 1) li hb3 ha3 hli3]
  rw [hh3]
  simp only [haddr3]

theorem list_index_ne_zero (s : Nat) (h : s ≠ 0) :
    list_index s = .ok (63 - clzll s) := by
  rw [list_index, if_neg h]

theorem set_eq_splice (l : List Chunk) (n : Nat) (a : Chunk) (h : n < l.length) :
    l.set n a = l.take n ++ a :: l.drop (n + 1) := by
  rw [List.set_eq_take_append_cons_drop, if_pos h]

theorem getElem?_splice2_lt (cs : List Chunk) (i j : Nat) (v w : Chunk)
    (hj : j < i) (hi : i ≤ cs.length) :
    (cs.take i ++ v :: w :: cs.drop (i + 1))[j]? = cs[j]? := by
  rw [List.getElem?_append_left (by rw [List.length_take]; omega), List.getElem?_take,
    if_pos hj]

theorem getElem?_splice2_fst (cs : List Chunk) (i : Nat) (v w : Chunk)
    (hi : i ≤ cs.length) :
    (cs.take i ++ v :: w :: cs.drop (i + 1))[i]? = some v := by
  rw [List.getElem?_append_right (by rw [List.length_take]; omega)]
  have h2 : i - (cs.take i).length = 0 := by rw [List.length_take]; omega
  rw [h2]
  simp

theorem getElem?_splice2_snd (cs : List Chunk) (i : Nat) (v w : Chunk)
    (hi : i ≤ cs.length) :
    (cs.take i ++ v :: w :: cs.drop (i + 1))[i + 1]? = some w := by
  rw [List.getElem?_append_right (by rw [List.length_take]; omega)]
  have h2 : i + 1 - (cs.take i).length = 1 := by rw [List.length_take]; omega
  rw [h2]
  simp

theorem getElem?_splice2_gt (cs : List Chunk) (i j : Nat) (v w : Chunk)
    (hj : i + 2 ≤ j) (hi : i ≤ cs.length) :
    (cs.take i ++ v :: w :: cs.drop (i + 1))[j]? = cs[j - 1]? := by
  rw [List.getElem?_append_right (by rw [List.length_take]; omega)]
  have h2 : j - (cs.take i).length = (j - i - 2) + 1 + 1 := by
    rw [List.length_take]
    omega
  rw [h2, List.getElem?_cons_succ, List.getElem?_cons_succ, List.getElem?_drop]
  congr 1
  omega

theorem take_splice2 (cs : List Chunk) (i j : Nat) (v w : Chunk)
    (hj : j ≤ i) (hi : i ≤ cs.length) :
    (cs.take i ++ v :: w :: cs.drop (i + 1)).take j = cs.take j := by
  rw [List.take_append_eq_append_take, List.take_take,
    show j ⊓ i = j by omega,
    show j - (cs.take i).length = 0 by rw [List.length_take]; omega]
  simp

theorem chunkAddr_splice2 (cs : List Chunk) (i j : Nat) (v w : Chunk)
    (hj : j ≤ i) (hi : i ≤ cs.length) :
    chunkAddr (cs.take i ++ v :: w :: cs.drop (i + 1)) j = chunkAddr cs j := by
  rw [chunkAddr, chunkAddr, take_splice2 cs i j v w hj hi]

theorem length_splice2 (cs : List Chunk) (i : Nat) (v w : Chunk)
    (hi : i < cs.length) :
    (cs.take i ++ v :: w :: cs.drop (i + 1)).length = cs.length + 1 := by
  rw [List.length_append, List.length_take, Nat.min_eq_left (by omega)]
  simp only [List.length_cons, List.length_drop]
  omega

/-- `chunk::allocate` when the slack is below `min_chunk_size_`: remove
from the free list and mark the whole chunk allocated by zeroing the
footer size. -/
theorem chunk_allocate_nosplit (h : Heap) (i req j : Nat)
    (hreq : req % data_align = 0) (hilen : i < h.chunks.length)
    (hsz : req ≤ (getC h i).size)
    (hrem : (getC h i).size - req < min_chunk_size)
    (hfl : findList h.freeLists (chunkAddr h.chunks i) = some j) :
    chunk_allocate h i req = .ok ()
      (Heap.mk h.committed (h.chunks.set i ⟨(getC h i).size, false⟩)
        (h.freeLists.set j ((flGet h.freeLists j).erase (chunkAddr h.chunks i)))
        h.locks) := by
  rw [chunk_allocate, if_neg (by simp [hreq]), if_neg (by omega)]
  simp only [chunk_remove, hfl]
  rw [if_neg (by simp only [getC_set_freeLists]; omega)]
  simp only [getC_set_freeLists]

/-- `chunk::allocate` when the slack reaches `min_chunk_size_`: remove
from the free list, shrink the front to payload exactly `reqsize` and
mark it allocated, and `split` the trailing slack into a new free chunk
that is inserted into the free list of its class (its `coalesce` finds
no free neighbor: the front is now allocated and the old `after`
neighbor is unchanged). -/
theorem chunk_allocate_split (h : Heap) (i req j : Nat)
    (hreq : req % data_align = 0) (hilen : i < h.chunks.length)
    (hszal : (getC h i).size % data_align = 0)
    (hrem : min_chunk_size ≤ (getC h i).size - req)
    (hfl : findList h.freeLists (chunkAddr h.chunks i) = some j)
    (hafter : i + 1 < h.chunks.length → (getC h (i + 1)).free = false) :
    chunk_allocate h i req = .ok ()
      (let fl1 := h.freeLists.set j
        ((flGet h.freeLists j).erase (chunkAddr h.chunks i))
       let rem := (getC h i).size - req - chunk_overhead
       Heap.mk h.committed
         (h.chunks.take i ++ (⟨req, false⟩ : Chunk) :: (⟨rem, true⟩ : Chunk) ::
           h.chunks.drop (i + 1))
         (fl1.set (63 - clzll rem)
           ((chunkAddr h.chunks i + req + chunk_overhead) ::
             flGet fl1 (63 - clzll rem)))
         h.locks) := by
  have hmin48 : min_chunk_size = 48 := by decide
  have hda : data_align = 16 := rfl
  have hco : chunk_overhead = 32 := rfl
  rw [hmin48] at hrem
  rw [hda] at hreq hszal
  have hsz : req ≤ (getC h i).size := by omega
  rw [chunk_allocate, if_neg (by rw [hda]; omega), if_neg (by omega)]
  simp only [chunk_remove, hfl]
  rw [if_pos (by simp only [getC_set_freeLists]; rw [hmin48]; omega)]
  rw [chunk_split, if_neg (by simp only [getC_set_freeLists]; rw [hmin48]; omega),
    if_neg (by simp only [getC_set_freeLists]; rw [hda]; omega)]
  simp only [getC_set_freeLists, chunkAddr_set_freeLists]
  have hkey : (getC h i).size - ((getC h i).size - req) = req := by omega
  simp only [hkey]
  set fl1 := h.freeLists.set j
    ((flGet h.freeLists j).erase (chunkAddr h.chunks i)) with hfl1
  set remsize : Nat := (getC h i).size - req with hremsize
  set v : Chunk := ⟨req, false⟩ with hv
  set A := h.chunks.take i with hA
  set B := h.chunks.drop (i + 1) with hB
  have hlenA : A.length = i := by
    rw [hA, List.length_take]
    omega
  have hcs1 : h.chunks.set i v = A ++ v :: B := set_eq_splice h.chunks i v hilen
  have hcs2 : (h.chunks.set i v).take (i + 1) ++ (⟨0, false⟩ : Chunk) ::
      (h.chunks.set i v).drop (i + 1) = A ++ v :: (⟨0, false⟩ : Chunk) :: B := by
    rw [hcs1, List.take_append_eq_append_take, List.drop_append_eq_append_drop,
      List.take_of_length_le (by omega), List.drop_eq_nil_of_le (by omega), hlenA,
      show i + 1 - i = 1 by omega]
    simp
  rw [hcs2]
  rw [add_chunk, if_neg (by rw [hda]; omega), if_neg (by rw [hmin48]; omega)]
  have hcs3 : (A ++ v :: (⟨0, false⟩ : Chunk) :: B).set (i + 1)
      ⟨remsize - chunk_overhead, true⟩ =
      A ++ v :: (⟨remsize - chunk_overhead, true⟩ : Chunk) :: B := by
    rw [List.set_append, if_neg (by omega), hlenA, show i + 1 - i = 1 by omega]
    rfl
  simp only [hcs3]
  set w : Chunk := ⟨remsize - chunk_overhead, true⟩ with hw
  set h4 : Heap := Heap.mk h.committed (A ++ v :: w :: B) fl1 h.locks with hh4
  have hcs4 : h4.chunks = A ++ v :: w :: B := rfl
  have hile : i ≤ h.chunks.length := by omega
  have hb4 : chunk_before h4 (i + 1) = none := by
    apply chunk_before_none_of
    intro h1 hlt
    have : getC h4 (i + 1 - 1) = v := by
      rw [getC_eq_getElem?, hcs4, show i + 1 - 1 = i by omega,
        getElem?_splice2_fst h.chunks i v w hile]
      rfl
    rw [this, hv]
  have ha4 : chunk_after h4 (i + 1) = none := by
    apply chunk_after_none_of
    intro hlt
    rw [length_splice2 h.chunks i v w hilen] at hlt
    have hget : h4.chunks[i + 1 + 1]? = h.chunks[i + 1]? := by
      rw [hcs4, getElem?_splice2_gt h.chunks i (i + 1 + 1) v w (by omega) hile]
      simp
    have hcc : h.chunks[i + 1]? = some (getC h (i + 1)) :=
      getElem?_of_getC h (i + 1) (by omega)
    rw [getC_eq_getElem?, hcs4]
    rw [hcs4] at hget
    rw [hget, hcc]
    simpa using hafter (by omega)
  have hli4 : list_index (getC h4 (i + 1)).size =
      .ok (63 - clzll (remsize - chunk_overhead)) := by
    have : getC h4 (i + 1) = w := by
      rw [getC_eq_getElem?, hcs4, getElem?_splice2_snd h.chunks i v w hile]
      rfl
    rw [this, hw]
    refine list_index_ne_zero _ ?_
    show remsize - chunk_overhead ≠ 0
    rw [hco]
    omega
  rw [coalesce_none_none _ h4 (i + 1) _ hb4 ha4 hli4]
  have haddr4 : chunkAddr h4.chunks (i + 1) =
      chunkAddr h.chunks i + req + chunk_overhead := by
    rw [hcs4, chunkAddr_succ _ i (by
      rw [length_splice2 h.chunks i v w hilen]
      omega)]
    have hgv : (A ++ v :: w :: B).getD i ⟨0, false⟩ = v := by
      rw [List.getD_eq_getElem?_getD, getElem?_splice2_fst h.chunks i v w hile]
      rfl
    rw [hgv, chunkAddr_splice2 h.chunks i i v w (Nat.le_refl _) hile, hv]
    simp only [Chunk.full_size]
    omega
  rw [hh4]
  simp only [haddr4]

theorem take_set (cs : List Chunk) (i j : Nat) (v : Chunk) (hj : j ≤ i)
    (hilen : i < cs.length) : (cs.set i v).take j = cs.take j := by
  rw [set_eq_splice cs i v hilen]
  exact take_splice cs i i j v hj (Nat.le_of_lt hilen)

theorem drop_set_succ (cs : List Chunk) (i : Nat) (v : Chunk)
    (hilen : i < cs.length) : (cs.set i v).drop (i + 1) = cs.drop (i + 1) := by
  rw [set_eq_splice cs i v hilen, List.drop_append_eq_append_drop,
    List.drop_eq_nil_of_le (by rw [List.length_take]; omega),
    show i + 1 - (cs.take i).length = 1 by rw [List.length_take]; omega]
  simp

theorem chunkAddr_set_le (cs : List Chunk) (i j : Nat) (v : Chunk) (hj : j ≤ i)
    (hilen : i < cs.length) : chunkAddr (cs.set i v) j = chunkAddr cs j := by
  rw [chunkAddr, chunkAddr, take_set cs i j v hj hilen]

theorem getD_set_self (cs : List Chunk) (i : Nat) (v : Chunk) (hilen : i < cs.length) :
    (cs.set i v).getD i ⟨0, false⟩ = v := by
  rw [List.getD_eq_getElem?_getD, List.getElem?_set_self (by simpa using hilen)]
  rfl

theorem chunkAddr_set_succ (cs : List Chunk) (i : Nat) (v : Chunk)
    (hilen : i < cs.length) :
    chunkAddr (cs.set i v) (i + 1) = chunkAddr cs i + v.full_size := by
  rw [chunkAddr_succ _ i (by simpa using hilen), getD_set_self cs i v hilen,
    chunkAddr_set_le cs i i v (Nat.le_refl _) hilen]

theorem chunkAddr_set_succ2 (cs : List Chunk) (i : Nat) (v : Chunk)
    (hilen : i + 1 < cs.length) (hf : v.full_size = (cs.getD i ⟨0, false⟩).full_size) :
    chunkAddr (cs.set i v) (i + 2) = chunkAddr cs (i + 2) := by
  have h1 : chunkAddr (cs.set i v) (i + 2) =
      chunkAddr (cs.set i v) (i + 1) + ((cs.set i v).getD (i + 1) ⟨0, false⟩).full_size := by
    have := chunkAddr_succ (cs.set i v) (i + 1) (by simpa using hilen)
    simpa using this
  have h2 : (cs.set i v).getD (i + 1) ⟨0, false⟩ = cs.getD (i + 1) ⟨0, false⟩ := by
    rw [List.getD_eq_getElem?_getD, List.getD_eq_getElem?_getD,
      List.getElem?_set_ne (by omega)]
  rw [h1, h2, chunkAddr_set_succ cs i v (by omega), hf,
    ← chunkAddr_succ cs i (by omega), ← chunkAddr_succ cs (i + 1) hilen]

theorem chunk_before_set_self (h : Heap) (i : Nat) (v : Chunk) :
    chunk_before { h with chunks := h.chunks.set i v } i = chunk_before h i := by
  rw [chunk_before, chunk_before]
  by_cases h0 : i = 0
  · rw [if_pos h0, if_pos h0]
  · rw [if_neg h0, if_neg h0]
    show (match (h.chunks.set i v)[i - 1]? with
      | some c => if c.free then some (i - 1) else none
      | none => none) = _
    rw [List.getElem?_set_ne (by omega)]

theorem chunk_after_set_self (h : Heap) (i : Nat) (v : Chunk)
    (hilen : i < h.chunks.length)
    (hf : v.full_size = (getC h i).full_size) :
    chunk_after { h with chunks := h.chunks.set i v } i = chunk_after h i := by
  rw [chunk_after, chunk_after]
  have hb : chunkAddr (h.chunks.set i v) (i + 1) = chunkAddr h.chunks (i + 1) := by
    rw [chunkAddr_set_succ h.chunks i v hilen, hf, getC,
      ← chunkAddr_succ h.chunks i hilen]
  show (if chunkAddr (h.chunks.set i v) (i + 1) + min_chunk_size > h.committed then none
    else match (h.chunks.set i v)[i + 1]? with
      | some c => if c.free then some (i + 1) else none
      | none => none) = _
  rw [hb, List.getElem?_set_ne (by omega)]

theorem chunk_before_some_elim (h : Heap) (i k : Nat)
    (hb : chunk_before h i = some k) :
    k = i - 1 ∧ 1 ≤ i ∧ i - 1 < h.chunks.length ∧ (getC h (i - 1)).free = true := by
  rw [chunk_before] at hb
  by_cases h0 : i = 0
  · rw [if_pos h0] at hb
    exact Option.noConfusion hb
  · rw [if_neg h0] at hb
    cases hc : h.chunks[i - 1]? with
    | none =>
      rw [hc] at hb
      exact Option.noConfusion hb
    | some c =>
      rw [hc] at hb
      have hlt : i - 1 < h.chunks.length := by
        by_contra hge
        rw [List.getElem?_eq_none (by omega)] at hc
        exact Option.noConfusion hc
      have hcc : getC h (i - 1) = c := by
        rw [getC_eq_getElem?, hc]
        rfl
      by_cases hf : c.free
      · refine ⟨?_, by omega, hlt, by rw [hcc]; exact hf⟩
        simp [hf] at hb
        omega
      · simp [hf] at hb

theorem chunk_after_some_elim (h : Heap) (i k : Nat)
    (ha : chunk_after h i = some k) :
    k = i + 1 ∧ i + 1 < h.chunks.length ∧ (getC h (i + 1)).free = true ∧
      chunkAddr h.chunks (i + 1) + min_chunk_size ≤ h.committed := by
  rw [chunk_after] at ha
  by_cases hbd : chunkAddr h.chunks (i + 1) + min_chunk_size > h.committed
  · rw [if_pos hbd] at ha
    exact Option.noConfusion ha
  · rw [if_neg hbd] at ha
    cases hc : h.chunks[i + 1]? with
    | none =>
      rw [hc] at ha
      exact Option.noConfusion ha
    | some c =>
      rw [hc] at ha
      have hlt : i + 1 < h.chunks.length := by
        by_contra hge
        rw [List.getElem?_eq_none (by omega)] at hc
        exact Option.noConfusion hc
      have hcc : getC h (i + 1) = c := by
        rw [getC_eq_getElem?, hc]
        rfl
      by_cases hf : c.free
      · refine ⟨?_, hlt, by rw [hcc]; exact hf, by omega⟩
        simp [hf] at ha
        omega
      · simp [hf] at ha

theorem chunk_before_congr (h h' : Heap) (hc : h.chunks = h'.chunks) (i : Nat) :
    chunk_before h i = chunk_before h' i := by
  rw [chunk_before, chunk_before, hc]

theorem chunk_after_congr (h h' : Heap) (hc : h.chunks = h'.chunks)
    (hcm : h.committed = h'.committed) (i : Nat) :
    chunk_after h i = chunk_after h' i := by
  rw [chunk_after, chunk_after, hc, hcm]

/-- The prefix of `driver::deallocate` on a non-null aligned payload
that resolves to a chunk: lock, `get_chunk`, then `chunk::deallocate`. -/
theorem driver_deallocate_eq (h : Heap) (a n i : Nat)
    (halign : a % data_align = 0)
    (hidx : idxOfAddr h.chunks (a - header_size) = some i) :
    driver_deallocate h (some a) n =
      (match chunk_deallocate (lock h) i with
       | .error e h2 => .error e h2
       | .ok _ h2 => .ok () h2) := by
  rw [driver_deallocate]
  simp only [show (lock h).chunks = h.chunks from rfl, hidx]
  rw [if_neg (by simp [halign])]

/-- `chunk::deallocate` on an allocated chunk: restore the footer size
(marking the chunk free) and `coalesce`. -/
theorem chunk_deallocate_eq (h : Heap) (i : Nat) (hfree : (getC h i).free = false) :
    chunk_deallocate (lock h) i =
      coalesce_fuel (h.chunks.length + 1)
        (Heap.mk h.committed (h.chunks.set i ⟨(getC h i).size, true⟩) h.freeLists
          (h.locks + 1)) i := by
  rw [chunk_deallocate]
  rw [show getC (lock h) i = getC h i from rfl]
  rw [if_neg (by simp [hfree])]
  simp [lock]

theorem chunk_before_lock (h : Heap) (i : Nat) :
    chunk_before (lock h) i = chunk_before h i := rfl

theorem chunk_after_lock (h : Heap) (i : Nat) :
    chunk_after (lock h) i = chunk_after h i := rfl

theorem lock_committed (h : Heap) : (lock h).committed = h.committed := rfl

theorem lock_chunks (h : Heap) : (lock h).chunks = h.chunks := rfl

theorem lock_freeLists (h : Heap) : (lock h).freeLists = h.freeLists := rfl

theorem search_order_lock (h : Heap) (i0 : Nat) :
    search_order (lock h) i0 = search_order h i0 := rfl

theorem fits_lock (h : Heap) (r : Nat) : fits (lock h) r = fits h r := rfl

/-- `list_index` on a positive `size_t` value is the floor base-2
logarithm. -/
theorem list_index_pos (s : Nat) (h0 : 0 < s) (h64 : s < 2 ^ 64) :
    list_index s = .ok (Nat.log2 s) := by
  have hlog : Nat.log2 s < 64 := (Nat.log2_lt (by omega)).mpr h64
  have hfuel : log2_fuel 64 s = Nat.log2 s := log2_fuel_eq 64 s h64
  rw [list_index, if_neg (by omega), clzll, hfuel]
  congr 1
  omega

theorem U64_eq : U64 = 18446744073709551616 := by norm_num [U64]

/-- Bounds on the `allocate` rounding when the addition does not wrap:
it is the least multiple of 16 that is at least `n`. -/
theorem round_up_spec (n : Nat) (hn : n + 15 < U64) :
    n ≤ round_up n ∧ round_up n < n + data_align ∧ round_up n % data_align = 0 := by
  rw [U64_eq] at hn
  rw [round_up, data_align, U64_eq]
  omega

end SharedAlloc

namespace SharedAlloc

/-- C8.  For every size `s > 0` (a `size_t` value, hence below `2^64`),
`list_index s` returns exactly `⌊log₂ s⌋`, which lies in `0 … N−1` for
`N = n_free_list = 64`, and `list_index 0` raises the logic error. -/
theorem C8_list_index (s : Nat) (hs : s < 2 ^ 64) :
    (0 < s → list_index s = .ok (Nat.log2 s) ∧ Nat.log2 s < n_free_list) ∧
      (s = 0 → list_index s = .error .listIndexZero) := by
  constructor
  · intro hpos
    have hlog : Nat.log2 s < 64 := (Nat.log2_lt (by omega)).mpr hs
    have hfuel : log2_fuel 64 s = Nat.log2 s := log2_fuel_eq 64 s hs
    constructor
    · rw [list_index, if_neg (by omega)]
      rw [clzll, hfuel]
      congr 1
      omega
    · simpa [n_free_list] using hlog
  · rintro rfl
    rfl

/-- Witness for C8 at `s = 48` and at `s = 0`. -/
theorem C8_witness :
    (0 < 48 ∧ list_index 48 = .ok (Nat.log2 48)) ∧
      list_index 0 = .error .listIndexZero := by
  refine ⟨⟨by decide, ?_⟩, ?_⟩
  · exact ((C8_list_index 48 (by norm_num)).1 (by decide)).1
  · exact (C8_list_index 0 (by norm_num)).2 rfl

/-- C9.  `allocate(0)` returns nil with the heap — including the lock
acquisition counter — untouched, and `deallocate(NULL, n)` is a no-op
for every `n`, again without taking the mutex. -/
theorem C9_nil_ops (h : Heap) (n : Nat) :
    driver_allocate h 0 = .ok none h ∧ driver_deallocate h none n = .ok () h := by
  constructor
  · rw [driver_allocate, if_pos rfl]
  · rfl

/-- C7.  For an attaching (non-master) process: if the recorded base
equals the current mapping base the mapping is kept; otherwise the
segment is unmapped and re-mapped fixed-no-replace at the recorded base,
aborting with a mapping error when the kernel returns any other address;
and no successful attach ever reinitializes the arena header. -/
theorem C7_attach (addr recorded remap : Nat) (munmap_ok : Bool) :
    (recorded = addr →
      create_finish false addr recorded munmap_ok remap = .ok (addr, false)) ∧
    (recorded ≠ addr → munmap_ok = true → remap = recorded →
      create_finish false addr recorded munmap_ok remap = .ok (recorded, false)) ∧
    (recorded ≠ addr → munmap_ok = true → remap ≠ recorded →
      create_finish false addr recorded munmap_ok remap = .error .sysMmap) ∧
    (∀ a init, create_finish false addr recorded munmap_ok remap = .ok (a, init) →
      init = false) := by
  refine ⟨?_, ?_, ?_, ?_⟩
  · intro he
    simp [create_finish, he]
  · intro hne hmu hre
    simp [create_finish, hne, hmu, hre]
  · intro hne hmu hre
    simp [create_finish, hne, hmu, hre]
  · intro a init h
    by_cases h1 : recorded = addr
    · simp [create_finish, h1] at h
      exact h.2
    · by_cases hm : munmap_ok = true
      · by_cases h2 : remap = recorded
        · simp [create_finish, h1, hm, h2] at h
          exact h.2
        · simp [create_finish, h1, hm, h2] at h
      · simp [create_finish, h1, hm] at h

/-- Witness for C7: a concrete attach where the recorded base differs
from the fresh mapping and the kernel honors the fixed request. -/
theorem C7_witness :
    (100032 : Nat) ≠ 65536 ∧
      create_finish false 65536 100032 true 100032 = .ok (100032, false) := by
  refine ⟨by decide, ?_⟩
  exact (C7_attach 65536 100032 100032 true).2.1 (by decide) rfl rfl

/-- C1, counterexample.  The claim quantifies over every non-zero byte
count, but for `n = 2^64 - 1` the `size_t` rounding `(n + 15) & ~15`
wraps to `0`, which is not a rounding *up*, and `allocate` then throws
the `list_index` logic error under the lock instead of walking the free
lists or extending: no payload is returned even though the fresh arena
serves small requests. -/
theorem C1_counterexample :
    (2 ^ 64 - 1 : Nat) ≠ 0 ∧ round_up (2 ^ 64 - 1) = 0 ∧
      driver_allocate fresh_heap (2 ^ 64 - 1) =
        .error .listIndexZero (lock fresh_heap) := by
  refine ⟨by norm_num, by decide, by decide⟩

/-- C1 (amended to requests whose rounded size and chunk overhead stay
within `size_t`, i.e. `n + 47 < 2^64`).  `allocate` rounds `n` up to the
least multiple of 16, and, holding the mutex, either serves the first
chunk — in class order `⌊log₂ n⌋, …, 63` and list order within a class —
whose payload size is at least the rounded `n`, or, when no list
contains a fit, extends by the rounded `n` plus `sizeof(chunk)` and
allocates from the chunk that extension produced. -/
theorem C1_first_fit (h : Heap) (n : Nat) (hn : 0 < n) (hbound : n + 47 < U64)
    (hlen : h.freeLists.length = n_free_list)
    (hres : ∀ a ∈ search_order h (Nat.log2 (round_up n)),
      (idxOfAddr h.chunks a).isSome) :
    (n ≤ round_up n ∧ round_up n < n + data_align ∧ round_up n % data_align = 0) ∧
    ((∃ a i, (search_order h (Nat.log2 (round_up n))).find? (fits h (round_up n)) = some a ∧
        idxOfAddr h.chunks a = some i ∧ round_up n ≤ (getC h i).size ∧
        driver_allocate h n =
          (match chunk_allocate (lock h) i (round_up n) with
           | .ok _ h2 => .ok (some (chunkAddr h.chunks i + header_size)) h2
           | .error e h2 => .error e h2)) ∨
      ((search_order h (Nat.log2 (round_up n))).find? (fits h (round_up n)) = none ∧
        driver_allocate h n =
          (match driver_extend (lock h) (round_up n + chunk_overhead) with
           | .error e h2 => .error e h2
           | .ok ci h2 =>
             match chunk_allocate h2 ci (round_up n) with
             | .error e h3 => .error e h3
             | .ok _ h3 => .ok (some (chunkAddr h2.chunks ci + header_size)) h3))) := by
  have hr := round_up_spec n (by omega)
  have hr0 : 0 < round_up n := by omega
  have hr64 : round_up n < 2 ^ 64 := by
    have : round_up n < n + 47 := by
      have := hr.2.1
      rw [data_align] at this
      omega
    calc round_up n < n + 47 := this
      _ < U64 := hbound
      _ = 2 ^ 64 := rfl
  have hli : list_index (round_up n) = .ok (Nat.log2 (round_up n)) :=
    list_index_pos _ hr0 hr64
  refine ⟨hr, ?_⟩
  have hwalk := walk_classes_eq (lock h) (round_up n) hlen (Nat.log2 (round_up n)) hres
  simp only [search_order_lock, fits_lock, lock_chunks] at hwalk
  rw [driver_allocate, if_neg (by omega)]
  simp only [hli, hwalk]
  cases hfind : (search_order h (Nat.log2 (round_up n))).find? (fits h (round_up n)) with
  | some a =>
    left
    have hfa : fits h (round_up n) a = true := List.find?_some hfind
    cases hidx : idxOfAddr h.chunks a with
    | none => rw [fits, hidx] at hfa; simp at hfa
    | some i =>
      rw [fits, hidx] at hfa
      refine ⟨a, i, rfl, hidx, by simpa using hfa, ?_⟩
      simp only [hfind, hidx, Option.some_bind]
      cases chunk_allocate (lock h) i (round_up n) with
      | ok u h2 => rfl
      | error e h2 => rfl
  | none =>
    right
    refine ⟨rfl, ?_⟩
    simp only [hfind, Option.none_bind]
    have hmod : (round_up n + chunk_overhead) % U64 = round_up n + chunk_overhead := by
      apply Nat.mod_eq_of_lt
      have h1 := hr.2.1
      rw [data_align] at h1
      rw [U64_eq] at hbound ⊢
      rw [chunk_overhead]
      omega
    rw [hmod]

/-- Witness for C1 at the fresh arena and `n = 20`: the rounding bounds
produced by the amended theorem at a concrete input. -/
theorem C1_witness :
    20 ≤ round_up 20 ∧ round_up 20 < 20 + data_align ∧
      round_up 20 % data_align = 0 :=
  (C1_first_fit fresh_heap 20 (by decide) (by decide) (by decide)
    (by
      rw [← log2_fuel_eq 64 (round_up 20) (by decide)]
      decide)).1

/-- C3.  For a chunk of (aligned) payload size `s ≥ n` selected for the
rounded request `n`, `chunk::allocate` removes the chunk from its free
list; when `s − n ≥ min_chunk_size_` it splits the trailing `s − n`
bytes off as a new free chunk of payload `s − n − sizeof(chunk)`
(inserted at the head of its class list) and marks the front allocated
with payload exactly `n`; otherwise it marks the whole chunk allocated
by zeroing the footer size.  The chunk's payload address is unchanged
(its tiling position and start offset are preserved), which is what
`driver::allocate` then returns. -/
theorem C3_chunk_allocate (h : Heap) (i req j : Nat)
    (hreq : req % data_align = 0) (hilen : i < h.chunks.length)
    (hszal : (getC h i).size % data_align = 0)
    (hsz : req ≤ (getC h i).size)
    (hfl : findList h.freeLists (chunkAddr h.chunks i) = some j)
    (hafter : i + 1 < h.chunks.length → (getC h (i + 1)).free = false) :
    chunk_allocate h i req = .ok ()
      (let fl1 := h.freeLists.set j
        ((flGet h.freeLists j).erase (chunkAddr h.chunks i))
       if min_chunk_size ≤ (getC h i).size - req then
         let rem := (getC h i).size - req - chunk_overhead
         Heap.mk h.committed
           (h.chunks.take i ++ (⟨req, false⟩ : Chunk) :: (⟨rem, true⟩ : Chunk) ::
             h.chunks.drop (i + 1))
           (fl1.set (63 - clzll rem)
             ((chunkAddr h.chunks i + req + chunk_overhead) ::
               flGet fl1 (63 - clzll rem)))
           h.locks
       else
         Heap.mk h.committed (h.chunks.set i ⟨(getC h i).size, false⟩) fl1 h.locks) := by
  by_cases hc : min_chunk_size ≤ (getC h i).size - req
  · rw [if_pos hc]
    exact chunk_allocate_split h i req j hreq hilen hszal hc hfl hafter
  · rw [if_neg hc]
    exact chunk_allocate_nosplit h i req j hreq hilen hsz (by omega) hfl

/-- Witness for C3: the fresh arena's single free chunk (payload 1968,
listed in class 10) serves a rounded request of 32 bytes: it is removed
from list 10, split into an allocated front of exactly 32 bytes and a
free remainder of payload 1904 that is inserted into class 10 under the
remainder's start offset 2160. -/
theorem C3_witness :
    chunk_allocate fresh_heap 0 32 = .ok ()
      (Heap.mk 4096 [⟨32, false⟩, ⟨1904, true⟩]
        ((List.replicate 64 ([] : List Nat)).set 10 [2160]) 0) := by
  have h := C3_chunk_allocate fresh_heap 0 32 10 (by decide) (by decide) (by decide)
    (by decide) (by decide) (fun hlt => absurd hlt (by decide))
  rw [h]
  decide

/-- C4.  `deallocate` on a non-nil payload recovers the chunk via
`get_chunk`; if the footer is not in allocated form it raises the
corruption error under the lock, before mutating any state; otherwise it
restores `footer.size_` from `header.size_` (marking the chunk free) and
coalesces: each free neighbor is removed from its free list, the
combined footprint is the sum of the participating chunks' full sizes,
and the merged chunk — written over the span of the leftmost of
`{before, this}` — is inserted into the free list of its size class. -/
theorem C4_deallocate (h : Heap) (a n i : Nat)
    (halign : a % data_align = 0)
    (hidx : idxOfAddr h.chunks (a - header_size) = some i)
    (hilen : i < h.chunks.length)
    (hsz0 : (getC h i).size ≠ 0) :
    ((getC h i).free = true →
      driver_deallocate h (some a) n = .error .deallocFooter (lock h)) ∧
    ((getC h i).free = false →
      ((chunk_before h i = none → chunk_after h i = none →
        driver_deallocate h (some a) n = .ok ()
          (Heap.mk h.committed (h.chunks.set i ⟨(getC h i).size, true⟩)
            (h.freeLists.set (63 - clzll (getC h i).size)
              (chunkAddr h.chunks i ::
                flGet h.freeLists (63 - clzll (getC h i).size)))
            (h.locks + 1))) ∧
      (∀ jb, chunk_before h i = some (i - 1) → chunk_after h i = none →
        findList h.freeLists (chunkAddr h.chunks (i - 1)) = some jb →
        ((getC h i).size + (getC h (i - 1)).size) % data_align = 0 →
        (i - 1 = 0 ∨ (getC h (i - 2)).free = false) →
        driver_deallocate h (some a) n = .ok ()
          (let fl1 := h.freeLists.set jb
            ((flGet h.freeLists jb).erase (chunkAddr h.chunks (i - 1)))
           let sz := (getC h i).size + (getC h (i - 1)).size + chunk_overhead
           Heap.mk h.committed
             (h.chunks.take (i - 1) ++ (⟨sz, true⟩ : Chunk) :: h.chunks.drop (i + 1))
             (fl1.set (63 - clzll sz)
               (chunkAddr h.chunks (i - 1) :: flGet fl1 (63 - clzll sz)))
             (h.locks + 1))) ∧
      (∀ ja, chunk_before h i = none → chunk_after h i = some (i + 1) →
        findList h.freeLists (chunkAddr h.chunks (i + 1)) = some ja →
        ((getC h i).size + (getC h (i + 1)).size) % data_align = 0 →
        (h.committed < chunkAddr h.chunks (i + 2) + min_chunk_size ∨
          ∀ c, h.chunks[i + 2]? = some c → c.free = false) →
        driver_deallocate h (some a) n = .ok ()
          (let fl1 := h.freeLists.set ja
            ((flGet h.freeLists ja).erase (chunkAddr h.chunks (i + 1)))
           let sz := (getC h i).size + (getC h (i + 1)).size + chunk_overhead
           Heap.mk h.committed
             (h.chunks.take i ++ (⟨sz, true⟩ : Chunk) :: h.chunks.drop (i + 2))
             (fl1.set (63 - clzll sz)
               (chunkAddr h.chunks i :: flGet fl1 (63 - clzll sz)))
             (h.locks + 1))) ∧
      (∀ jb ja, chunk_before h i = some (i - 1) → chunk_after h i = some (i + 1) →
        findList h.freeLists (chunkAddr h.chunks (i - 1)) = some jb →
        findList (h.freeLists.set jb
            ((flGet h.freeLists jb).erase (chunkAddr h.chunks (i - 1))))
          (chunkAddr h.chunks (i + 1)) = some ja →
        ((getC h i).size + (getC h (i - 1)).size + (getC h (i + 1)).size) %
          data_align = 0 →
        (i - 1 = 0 ∨ (getC h (i - 2)).free = false) →
        (h.committed < chunkAddr h.chunks (i + 2) + min_chunk_size ∨
          ∀ c, h.chunks[i + 2]? = some c → c.free = false) →
        driver_deallocate h (some a) n = .ok ()
          (let fl1 := h.freeLists.set jb
            ((flGet h.freeLists jb).erase (chunkAddr h.chunks (i - 1)))
           let fl2 := fl1.set ja ((flGet fl1 ja).erase (chunkAddr h.chunks (i + 1)))
           let sz := (getC h i).size + (getC h (i - 1)).size +
             (getC h (i + 1)).size + chunk_overhead + chunk_overhead
           Heap.mk h.committed
             (h.chunks.take (i - 1) ++ (⟨sz, true⟩ : Chunk) :: h.chunks.drop (i + 2))
             (fl2.set (63 - clzll sz)
               (chunkAddr h.chunks (i - 1) :: flGet fl2 (63 - clzll sz)))
             (h.locks + 1))))) := by
  constructor
  · intro hfree
    rw [driver_deallocate_eq h a n i halign hidx, chunk_deallocate]
    rw [show getC (lock h) i = getC h i from rfl, if_pos (by simp [hfree])]
  · intro hfree
    have hset := chunk_deallocate_eq h i hfree
    set v : Chunk := ⟨(getC h i).size, true⟩ with hv
    set hS : Heap :=
      Heap.mk h.committed (h.chunks.set i v) h.freeLists (h.locks + 1) with hhS
    have hSc : hS.chunks = h.chunks.set i v := rfl
    have hSfl : hS.freeLists = h.freeLists := rfl
    have hScm : hS.committed = h.committed := rfl
    have hlenS : hS.chunks.length = h.chunks.length := by
      rw [hSc, List.length_set]
    have hbS : chunk_before hS i = chunk_before h i := by
      rw [chunk_before_congr hS { h with chunks := h.chunks.set i v } rfl i,
        chunk_before_set_self]
    have haS : chunk_after hS i = chunk_after h i := by
      rw [chunk_after_congr hS { h with chunks := h.chunks.set i v } rfl rfl i,
        chunk_after_set_self h i v hilen rfl]
    have hgS : getC hS i = v := by
      rw [getC_eq_getElem?, hSc, List.getElem?_set_self (by simpa using hilen)]
      rfl
    have haddri : chunkAddr hS.chunks i = chunkAddr h.chunks i := by
      rw [hSc]
      exact chunkAddr_set_le h.chunks i i v (Nat.le_refl _) hilen
    refine ⟨?_, ?_, ?_, ?_⟩
    · intro hbn han
      rw [driver_deallocate_eq h a n i halign hidx, hset,
        coalesce_none_none h.chunks.length hS i (63 - clzll (getC h i).size)
          (by rw [hbS]; exact hbn) (by rw [haS]; exact han)
          (by rw [hgS]; exact list_index_ne_zero _ hsz0)]
      rw [hhS]
      simp only [haddri]
    · intro jb hbsome han hflb halb hstopb
      obtain ⟨_, h1i, hblen, hbfree⟩ := chunk_before_some_elim h i (i - 1) hbsome
      have haddrb : chunkAddr hS.chunks (i - 1) = chunkAddr h.chunks (i - 1) := by
        rw [hSc]
        exact chunkAddr_set_le h.chunks i (i - 1) v (by omega) hilen
      have hgSb : getC hS (i - 1) = getC h (i - 1) := by
        rw [getC_eq_getElem?, getC_eq_getElem?, hSc,
          List.getElem?_set_ne (by omega)]
      have hgSb2 : getC hS (i - 2) = getC h (i - 2) := by
        rw [getC_eq_getElem?, getC_eq_getElem?, hSc,
          List.getElem?_set_ne (by omega)]
      rw [driver_deallocate_eq h a n i halign hidx, hset,
        show h.chunks.length + 1 = h.chunks.length - 1 + 2 by omega,
        coalesce_merge_left (h.chunks.length - 1) hS i jb
          (63 - clzll ((getC h i).size + (getC h (i - 1)).size + chunk_overhead))
          (by rw [hbS]; exact hbsome) (by rw [haS]; exact han) h1i
          (by rw [hlenS]; exact hilen)
          (by rw [hSfl, haddrb]; exact hflb)
          (by
            rw [hgS, hgSb]
            have hda : data_align = 16 := rfl
            have hco : chunk_overhead = 32 := rfl
            simp only [Chunk.full_size, hv, hco, hda]
            rw [hda] at halb
            omega)
          (by rw [hgSb2]; exact hstopb)
          (by
            rw [hgS, hgSb, hv]
            exact list_index_ne_zero _ (by
              have hco : chunk_overhead = 32 := rfl
              omega))]
      rw [hhS]
      simp only [haddrb]
      have ht : (h.chunks.set i v).take (i - 1) = h.chunks.take (i - 1) :=
        take_set h.chunks i (i - 1) v (by omega) hilen
      have hd : (h.chunks.set i v).drop (i + 1) = h.chunks.drop (i + 1) :=
        drop_set_succ h.chunks i v hilen
      simp only [ht, hd, hgS, hgSb, hv]
    · intro ja hbn hasome hfla hala hstopa
      obtain ⟨_, halen, hafree, habd⟩ := chunk_after_some_elim h i (i + 1) hasome
      have haddra : chunkAddr hS.chunks (i + 1) = chunkAddr h.chunks (i + 1) := by
        rw [hSc, chunkAddr_set_succ h.chunks i v hilen,
          show v.full_size = (h.chunks.getD i ⟨0, false⟩).full_size from rfl,
          ← chunkAddr_succ h.chunks i hilen]
      have haddra2 : chunkAddr hS.chunks (i + 2) = chunkAddr h.chunks (i + 2) := by
        rw [hSc]
        exact chunkAddr_set_succ2 h.chunks i v halen rfl
      have hgSa : getC hS (i + 1) = getC h (i + 1) := by
        rw [getC_eq_getElem?, getC_eq_getElem?, hSc,
          List.getElem?_set_ne (by omega)]
      have hgeta2 : hS.chunks[i + 2]? = h.chunks[i + 2]? := by
        rw [hSc, List.getElem?_set_ne (by omega)]
      rw [driver_deallocate_eq h a n i halign hidx, hset,
        show h.chunks.length + 1 = h.chunks.length - 1 + 2 by omega,
        coalesce_merge_right (h.chunks.length - 1) hS i ja
          (63 - clzll ((getC h i).size + (getC h (i + 1)).size + chunk_overhead))
          (by rw [hbS]; exact hbn) (by rw [haS]; exact hasome)
          (by rw [hlenS]; exact halen)
          (by rw [hSfl, haddra]; exact hfla)
          (by
            rw [hgS, hgSa]
            have hda : data_align = 16 := rfl
            have hco : chunk_overhead = 32 := rfl
            simp only [Chunk.full_size, hv, hco, hda]
            rw [hda] at hala
            omega)
          (by
            rw [hScm, haddra2, hgeta2]
            exact hstopa)
          (by
            rw [hgS, hgSa, hv]
            exact list_index_ne_zero _ (by
              have hco : chunk_overhead = 32 := rfl
              omega))]
      rw [hhS]
      simp only [haddra, haddri]
      have ht : (h.chunks.set i v).take i = h.chunks.take i :=
        take_set h.chunks i i v (Nat.le_refl _) hilen
      have hd : (h.chunks.set i v).drop (i + 2) = h.chunks.drop (i + 2) := by
        rw [set_eq_splice h.chunks i v hilen, List.drop_append_eq_append_drop,
          List.drop_eq_nil_of_le (by rw [List.length_take]; omega),
          show i + 2 - (h.chunks.take i).length = 2 by rw [List.length_take]; omega]
        simp
      simp only [ht, hd, hgS, hgSa, hv]
    · intro jb ja hbsome hasome hflb hfla halba hstopb hstopa
      obtain ⟨_, h1i, hblen, hbfree⟩ := chunk_before_some_elim h i (i - 1) hbsome
      obtain ⟨_, halen, hafree, habd⟩ := chunk_after_some_elim h i (i + 1) hasome
      have haddrb : chunkAddr hS.chunks (i - 1) = chunkAddr h.chunks (i - 1) := by
        rw [hSc]
        exact chunkAddr_set_le h.chunks i (i - 1) v (by omega) hilen
      have haddra : chunkAddr hS.chunks (i + 1) = chunkAddr h.chunks (i + 1) := by
        rw [hSc, chunkAddr_set_succ h.chunks i v hilen,
          show v.full_size = (h.chunks.getD i ⟨0, false⟩).full_size from rfl,
          ← chunkAddr_succ h.chunks i hilen]
      have haddra2 : chunkAddr hS.chunks (i + 2) = chunkAddr h.chunks (i + 2) := by
        rw [hSc]
        exact chunkAddr_set_succ2 h.chunks i v halen rfl
      have hgSb : getC hS (i - 1) = getC h (i - 1) := by
        rw [getC_eq_getElem?, getC_eq_getElem?, hSc,
          List.getElem?_set_ne (by omega)]
      have hgSb2 : getC hS (i - 2) = getC h (i - 2) := by
        rw [getC_eq_getElem?, getC_eq_getElem?, hSc,
          List.getElem?_set_ne (by omega)]
      have hgSa : getC hS (i + 1) = getC h (i + 1) := by
        rw [getC_eq_getElem?, getC_eq_getElem?, hSc,
          List.getElem?_set_ne (by omega)]
      have hgeta2 : hS.chunks[i + 2]? = h.chunks[i + 2]? := by
        rw [hSc, List.getElem?_set_ne (by omega)]
      rw [driver_deallocate_eq h a n i halign hidx, hset,
        show h.chunks.length + 1 = h.chunks.length - 1 + 2 by omega,
        coalesce_merge_both (h.chunks.length - 1) hS i jb ja
          (63 - clzll ((getC h i).size + (getC h (i - 1)).size +
            (getC h (i + 1)).size + chunk_overhead + chunk_overhead))
          (by rw [hbS]; exact hbsome) (by rw [haS]; exact hasome) h1i
          (by rw [hlenS]; exact halen)
          (by rw [hSfl, haddrb]; exact hflb)
          (by rw [hSfl, haddrb, haddra]; exact hfla)
          (by
            rw [hgS, hgSb, hgSa]
            have hda : data_align = 16 := rfl
            have hco : chunk_overhead = 32 := rfl
            simp only [Chunk.full_size, hv, hco, hda]
            rw [hda] at halba
            omega)
          (by rw [hgSb2]; exact hstopb)
          (by
            rw [hScm, haddra2, hgeta2]
            exact hstopa)
          (by
            rw [hgS, hgSb, hgSa, hv]
            exact list_index_ne_zero _ (by
              have hco : chunk_overhead = 32 := rfl
              omega))]
      rw [hhS]
      simp only [haddrb, haddra]
      have ht : (h.chunks.set i v).take (i - 1) = h.chunks.take (i - 1) :=
        take_set h.chunks i (i - 1) v (by omega) hilen
      have hd : (h.chunks.set i v).drop (i + 2) = h.chunks.drop (i + 2) := by
        rw [set_eq_splice h.chunks i v hilen, List.drop_append_eq_append_drop,
          List.drop_eq_nil_of_le (by rw [List.length_take]; omega),
          show i + 2 - (h.chunks.take i).length = 2 by rw [List.length_take]; omega]
        simp
      simp only [ht, hd, hgS, hgSb, hgSa, hv]

/-- Witness for C4: deallocating the only allocated chunk of a
two-chunk arena (its free right neighbor is listed in class 4) merges
the two spans back into one free chunk and inserts it into class 10. -/
theorem C4_witness :
    driver_deallocate
      (Heap.mk 4096 [⟨16, false⟩, ⟨1920, true⟩]
        ((List.replicate 64 ([] : List Nat)).set 10 [2144]) 0)
      (some 2112) 7 = .ok ()
      (Heap.mk 4096 [⟨1968, true⟩]
        (((List.replicate 64 ([] : List Nat)).set 10 []).set 10 [2096]) 1) := by
  have h4 := C4_deallocate
    (Heap.mk 4096 [⟨16, false⟩, ⟨1920, true⟩]
      ((List.replicate 64 ([] : List Nat)).set 10 [2144]) 0)
    2112 7 0 (by decide) (by decide) (by decide) (by decide)
  have hres := (h4.2 (by decide)).2.2.1 10 (by decide) (by decide) (by decide)
    (by decide) (by
      right
      intro c hc
      rw [show ((Heap.mk 4096 [(⟨16, false⟩ : Chunk), ⟨1920, true⟩]
        ((List.replicate 64 ([] : List Nat)).set 10 [2144]) 0) : Heap).chunks =
          [(⟨16, false⟩ : Chunk), ⟨1920, true⟩] from rfl] at hc
      simp at hc)
  rw [hres]
  decide

/-- Closed forms of `driver::extend` (helper).  `extend(delta)` (the
request already contains the chunk overhead) doubles a candidate `s`
from the committed size until
`s − current ≥ delta` or `s ≥ max_size_`; when the growth is still short
it throws `bad_alloc` with every field of the driver state unchanged;
otherwise it truncates the file to `s`, lays a single free chunk over
the `s − current` new bytes at offset `current` (the end of the tiling),
updates the committed size to `s`, and inserts the chunk — coalesced
with the previous trailing chunk when that chunk is free — into the free
list of its class. -/
theorem extend_spec (h : Heap) (delta : Nat)
    (hc1 : 1 ≤ h.committed) (hal : h.committed % data_align = 0)
    (htile : chunkAddr h.chunks h.chunks.length = h.committed) :
    (∃ k, extend_loop 64 h.committed h.committed delta = h.committed * 2 ^ k ∧
      (max_size ≤ h.committed * 2 ^ k ∨
        delta ≤ h.committed * 2 ^ k - h.committed) ∧
      ∀ j < k, h.committed * 2 ^ j < max_size ∧
        h.committed * 2 ^ j - h.committed < delta) ∧
    (extend_loop 64 h.committed h.committed delta - h.committed < delta →
      driver_extend h delta = .error .badAlloc h) ∧
    (∀ s, s = extend_loop 64 h.committed h.committed delta →
      delta ≤ s - h.committed →
      min_chunk_size ≤ s - h.committed →
      ((h.chunks = [] ∨ (getC h (h.chunks.length - 1)).free = false →
        driver_extend h delta = .ok h.chunks.length
          (Heap.mk s (h.chunks ++ [⟨s - h.committed - chunk_overhead, true⟩])
            (h.freeLists.set (63 - clzll (s - h.committed - chunk_overhead))
              (h.committed ::
                flGet h.freeLists (63 - clzll (s - h.committed - chunk_overhead))))
            h.locks)) ∧
      (∀ jb, 1 ≤ h.chunks.length →
        (getC h (h.chunks.length - 1)).free = true →
        findList h.freeLists (chunkAddr h.chunks (h.chunks.length - 1)) = some jb →
        (getC h (h.chunks.length - 1)).size % data_align = 0 →
        (h.chunks.length - 1 = 0 ∨ (getC h (h.chunks.length - 2)).free = false) →
        driver_extend h delta = .ok (h.chunks.length - 1)
          (let fl1 := h.freeLists.set jb ((flGet h.freeLists jb).erase
            (chunkAddr h.chunks (h.chunks.length - 1)))
           let sz := (getC h (h.chunks.length - 1)).size + (s - h.committed)
           Heap.mk s (h.chunks.take (h.chunks.length - 1) ++ [⟨sz, true⟩])
             (fl1.set (63 - clzll sz)
               (chunkAddr h.chunks (h.chunks.length - 1) ::
                 flGet fl1 (63 - clzll sz)))
             h.locks)))) := by
  have hda : data_align = 16 := rfl
  have hco : chunk_overhead = 32 := rfl
  have hmin48 : min_chunk_size = 48 := by decide
  obtain ⟨k, hk, hkstop, hkall⟩ :=
    extend_loop_mul 64 h.committed h.committed delta
  have hhalts := extend_loop_halts 64 h.committed h.committed delta (by
    calc max_size ≤ 2 ^ 64 := by norm_num [max_size]
      _ = 1 * 2 ^ 64 := by ring
      _ ≤ h.committed * 2 ^ 64 := Nat.mul_le_mul_right _ hc1)
  have hsal : extend_loop 64 h.committed h.committed delta % data_align = 0 := by
    rw [hk, hda]
    rw [hda] at hal
    obtain ⟨m, hm⟩ := Nat.dvd_of_mod_eq_zero hal
    rw [hm, Nat.mul_assoc]
    exact Nat.mul_mod_right 16 _
  refine ⟨⟨k, hk, by rw [← hk]; exact hhalts, hkall⟩, ?_, ?_⟩
  · intro hshort
    rw [driver_extend, if_pos hshort]
  · intro s hs hlong hd48x
    have hge : h.committed ≤ s := by
      rw [hs]
      exact extend_loop_ge 64 h.committed h.committed delta
    have hsal' : s % data_align = 0 := by rw [hs]; exact hsal
    have hdal : (s - h.committed) % data_align = 0 := by
      rw [hda] at hsal' hal ⊢
      omega
    have hd48 : 48 ≤ s - h.committed := by rw [hmin48] at hd48x; omega
    set L := h.chunks.length with hL
    set w : Chunk := ⟨s - h.committed - chunk_overhead, true⟩ with hw
    have happlen : (h.chunks ++ [w]).length = L + 1 := by
      rw [List.length_append, hL]
      rfl
    have hgetw : ∀ fl lk, getC (Heap.mk s (h.chunks ++ [w]) fl lk) L = w := by
      intro fl lk
      rw [getC_eq_getElem?]
      show ((h.chunks ++ [w])[L]?).getD ⟨0, false⟩ = w
      rw [List.getElem?_append_right (by omega), show L - h.chunks.length = 0 by omega]
      rfl
    have hgetlt : ∀ fl lk j, j < L →
        getC (Heap.mk s (h.chunks ++ [w]) fl lk) j = getC h j := by
      intro fl lk j hj
      rw [getC_eq_getElem?, getC_eq_getElem?]
      show ((h.chunks ++ [w])[j]?).getD _ = _
      rw [List.getElem?_append_left (by omega)]
    have htakeapp : ∀ j, j ≤ L → (h.chunks ++ [w]).take j = h.chunks.take j := by
      intro j hj
      rw [List.take_append_of_le_length (by omega)]
    have haddreq : ∀ j, j ≤ L →
        chunkAddr (h.chunks ++ [w]) j = chunkAddr h.chunks j := by
      intro j hj
      rw [chunkAddr, chunkAddr, htakeapp j hj]
    have hafternone : ∀ fl lk,
        chunk_after (Heap.mk s (h.chunks ++ [w]) fl lk) L = none := by
      intro fl lk
      apply chunk_after_none_of
      intro hlt
      exfalso
      rw [show (Heap.mk s (h.chunks ++ [w]) fl lk : Heap).chunks =
        h.chunks ++ [w] from rfl, happlen] at hlt
      omega
    rw [hs] at hlong
    rw [driver_extend, if_neg (by omega), add_chunk, if_neg (by
      rw [← hs]
      simp [hdal]), if_neg (by
      rw [← hs, hmin48] at *
      omega)]
    rw [← hs] at hlong ⊢
    have hsetapp : (h.chunks ++ [(⟨0, false⟩ : Chunk)]).set L
        ⟨s - h.committed - chunk_overhead, true⟩ = h.chunks ++ [w] := by
      rw [List.set_append, if_neg (by omega), show L - h.chunks.length = 0 by omega]
      rfl
    constructor
    · intro htail
      have hbnone : chunk_before (Heap.mk s (h.chunks ++ [w]) h.freeLists h.locks) L =
          none := by
        apply chunk_before_none_of
        intro h1L hlt
        rw [hgetlt _ _ (L - 1) (by omega)]
        rcases htail with hnil | halloc
        · exfalso
          rw [hL] at h1L
          rw [hnil] at h1L
          simp at h1L
        · exact halloc
      have hli : list_index
          (getC (Heap.mk s (h.chunks ++ [w]) h.freeLists h.locks) L).size =
          .ok (63 - clzll (s - h.committed - chunk_overhead)) := by
        rw [hgetw, hw]
        exact list_index_ne_zero (s - h.committed - chunk_overhead)
          (by rw [hco]; omega)
      dsimp only
      rw [hsetapp, happlen,
        coalesce_none_none (L + 1) (Heap.mk s (h.chunks ++ [w]) h.freeLists h.locks)
          L (63 - clzll (s - h.committed - chunk_overhead)) hbnone
          (hafternone _ _) hli]
      dsimp only
      rw [haddreq L (Nat.le_refl _), htile]
    · intro jb h1L htfree hflb htal hstop
      have hb : chunk_before (Heap.mk s (h.chunks ++ [w]) h.freeLists h.locks) L =
          some (L - 1) := by
        apply chunk_before_free _ _ h1L
        · show L - 1 < (h.chunks ++ [w]).length
          rw [happlen]
          omega
        · rw [hgetlt _ _ (L - 1) (by omega)]
          exact htfree
      have hilen2 : L < (Heap.mk s (h.chunks ++ [w]) h.freeLists h.locks : Heap).chunks.length := by
        show L < (h.chunks ++ [w]).length
        rw [happlen]
        omega
      have hfl2 : findList
          (Heap.mk s (h.chunks ++ [w]) h.freeLists h.locks : Heap).freeLists
          (chunkAddr (Heap.mk s (h.chunks ++ [w]) h.freeLists h.locks : Heap).chunks
            (L - 1)) = some jb := by
        show findList h.freeLists (chunkAddr (h.chunks ++ [w]) (L - 1)) = some jb
        rw [haddreq (L - 1) (by omega)]
        exact hflb
      have halign2 : ((getC (Heap.mk s (h.chunks ++ [w]) h.freeLists h.locks) L).full_size +
          (getC (Heap.mk s (h.chunks ++ [w]) h.freeLists h.locks) (L - 1)).full_size) %
            data_align = 0 := by
        rw [hgetw, hgetlt _ _ (L - 1) (by omega), hw]
        simp only [Chunk.full_size, hco, hda]
        rw [hda] at htal hdal
        omega
      have hstop2 : L - 1 = 0 ∨
          (getC (Heap.mk s (h.chunks ++ [w]) h.freeLists h.locks) (L - 2)).free =
            false := by
        rcases hstop with h0 | halloc
        · exact Or.inl h0
        · right
          rw [hgetlt _ _ (L - 2) (by omega)]
          exact halloc
      have hsum : s - h.committed - chunk_overhead + (getC h (L - 1)).size +
          chunk_overhead = (getC h (L - 1)).size + (s - h.committed) := by
        rw [hco]
        omega
      have hli2 : list_index
          ((getC (Heap.mk s (h.chunks ++ [w]) h.freeLists h.locks) L).size +
            (getC (Heap.mk s (h.chunks ++ [w]) h.freeLists h.locks) (L - 1)).size +
            chunk_overhead) =
          .ok (63 - clzll ((getC h (L - 1)).size + (s - h.committed))) := by
        rw [hgetw, hgetlt _ _ (L - 1) (by omega), hw]
        show list_index (s - h.committed - chunk_overhead + (getC h (L - 1)).size +
          chunk_overhead) = _
        rw [hsum]
        exact list_index_ne_zero _ (by omega)
      dsimp only
      rw [hsetapp, happlen, show L + 1 + 1 = L + 2 from rfl,
        coalesce_merge_left L (Heap.mk s (h.chunks ++ [w]) h.freeLists h.locks) L jb
          (63 - clzll ((getC h (L - 1)).size + (s - h.committed))) hb
          (hafternone _ _) h1L hilen2 hfl2 halign2 hstop2 hli2]
      dsimp only
      rw [hgetw, hgetlt _ _ (L - 1) (by omega), hw]
      show Result.ok (L - 1) _ = Result.ok (L - 1) _
      rw [haddreq (L - 1) (by omega)]
      have htk : (h.chunks ++ [w]).take (L - 1) = h.chunks.take (L - 1) :=
        htakeapp (L - 1) (by omega)
      have hdp : (h.chunks ++ [w]).drop (L + 1) = [] :=
        List.drop_eq_nil_of_le (by rw [happlen])
      rw [htk, hdp]
      show Result.ok (L - 1)
        (Heap.mk s (h.chunks.take (L - 1) ++
          [(⟨s - h.committed - chunk_overhead + (getC h (L - 1)).size + chunk_overhead,
            true⟩ : Chunk)]) _ h.locks) = _
      simp only [hsum]

/-- C6.  `extend(delta)` (the request already contains the chunk
overhead) doubles a candidate `s` from the committed size until
`s − current ≥ delta` or `s ≥ max_size_`; when the growth is still short
it throws `bad_alloc` with every field of the driver state unchanged;
otherwise it truncates the file to `s`, lays a single free chunk over
the `s − current` new bytes at offset `current` (the end of the tiling),
updates the committed size to `s`, and inserts the chunk — coalesced
with the previous trailing chunk when that chunk is free — into the free
list of its class. -/
theorem C6_extend (h : Heap) (delta : Nat)
    (hc1 : 1 ≤ h.committed) (hal : h.committed % data_align = 0)
    (hdmin : min_chunk_size ≤ delta)
    (htile : chunkAddr h.chunks h.chunks.length = h.committed) :
    (∃ k, extend_loop 64 h.committed h.committed delta = h.committed * 2 ^ k ∧
      (max_size ≤ h.committed * 2 ^ k ∨
        delta ≤ h.committed * 2 ^ k - h.committed) ∧
      ∀ j < k, h.committed * 2 ^ j < max_size ∧
        h.committed * 2 ^ j - h.committed < delta) ∧
    (extend_loop 64 h.committed h.committed delta - h.committed < delta →
      driver_extend h delta = .error .badAlloc h) ∧
    (∀ s, s = extend_loop 64 h.committed h.committed delta →
      delta ≤ s - h.committed →
      ((h.chunks = [] ∨ (getC h (h.chunks.length - 1)).free = false →
        driver_extend h delta = .ok h.chunks.length
          (Heap.mk s (h.chunks ++ [⟨s - h.committed - chunk_overhead, true⟩])
            (h.freeLists.set (63 - clzll (s - h.committed - chunk_overhead))
              (h.committed ::
                flGet h.freeLists (63 - clzll (s - h.committed - chunk_overhead))))
            h.locks)) ∧
      (∀ jb, 1 ≤ h.chunks.length →
        (getC h (h.chunks.length - 1)).free = true →
        findList h.freeLists (chunkAddr h.chunks (h.chunks.length - 1)) = some jb →
        (getC h (h.chunks.length - 1)).size % data_align = 0 →
        (h.chunks.length - 1 = 0 ∨ (getC h (h.chunks.length - 2)).free = false) →
        driver_extend h delta = .ok (h.chunks.length - 1)
          (let fl1 := h.freeLists.set jb ((flGet h.freeLists jb).erase
            (chunkAddr h.chunks (h.chunks.length - 1)))
           let sz := (getC h (h.chunks.length - 1)).size + (s - h.committed)
           Heap.mk s (h.chunks.take (h.chunks.length - 1) ++ [⟨sz, true⟩])
             (fl1.set (63 - clzll sz)
               (chunkAddr h.chunks (h.chunks.length - 1) ::
                 flGet fl1 (63 - clzll sz)))
             h.locks)))) := by
  obtain ⟨h1, h2, h3⟩ := extend_spec h delta hc1 hal htile
  exact ⟨h1, h2, fun s hs hlong =>
    h3 s hs hlong (Nat.le_trans hdmin hlong)⟩

/-- Witness for C6: extending the fresh master arena by 4096 bytes doubles
the segment from 4096 to 8192 and coalesces the 2000-byte extension span
with the free tail chunk into a single 6064-byte free chunk. -/
theorem C6_witness :
    1 ≤ fresh_heap.committed ∧ fresh_heap.committed % data_align = 0 ∧
    min_chunk_size ≤ (4096 : Nat) ∧
    chunkAddr fresh_heap.chunks fresh_heap.chunks.length = fresh_heap.committed ∧
    driver_extend fresh_heap 4096 =
      .ok 0 (Heap.mk 8192 [⟨6064, true⟩]
        ((((List.replicate n_free_list ([] : List Nat)).set 10 [driver_size]).set
          10 []).set 12 [driver_size]) 0) := by
  refine ⟨by decide, by decide, by decide, by decide, ?_⟩
  have H := ((C6_extend fresh_heap 4096 (by decide) (by decide) (by decide)
    (by decide)).2.2 8192 (by decide) (by decide)).2 10 (by decide) (by decide)
    (by decide) (by decide) (by decide)
  rw [H]
  decide

theorem setLocks_committed (h : Heap) (l : Nat) :
    (setLocks h l).committed = h.committed := rfl

theorem setLocks_chunks (h : Heap) (l : Nat) : (setLocks h l).chunks = h.chunks := rfl

theorem setLocks_freeLists (h : Heap) (l : Nat) :
    (setLocks h l).freeLists = h.freeLists := rfl

theorem getC_setLocks (h : Heap) (l i : Nat) : getC (setLocks h l) i = getC h i := rfl

theorem chunk_before_setLocks (h : Heap) (l i : Nat) :
    chunk_before (setLocks h l) i = chunk_before h i := rfl

theorem chunk_after_setLocks (h : Heap) (l i : Nat) :
    chunk_after (setLocks h l) i = chunk_after h i := rfl

theorem lock_setLocks (h : Heap) (l : Nat) :
    lock (setLocks h l) = setLocks (lock h) (l + 1) := rfl

/-- `chunk::remove` never reads the lock counter: its outcome on a heap
with a replaced counter is the outcome on the original heap with the
counter replaced. -/
theorem chunk_remove_setLocks (h : Heap) (l a : Nat) :
    chunk_remove (setLocks h l) a =
      mapHeap (fun g => setLocks g l) (chunk_remove h a) := by
  rw [chunk_remove, chunk_remove]
  simp only [setLocks_freeLists]
  cases findList h.freeLists a <;> rfl

/-- `chunk::add` never reads the lock counter. -/
theorem chunk_add_setLocks (h : Heap) (l i : Nat) :
    chunk_add (setLocks h l) i = mapHeap (fun g => setLocks g l) (chunk_add h i) := by
  rw [chunk_add, chunk_add]
  simp only [getC_setLocks, setLocks_chunks, setLocks_freeLists]
  cases list_index (getC h i).size <;> rfl

/-- `chunk::coalesce` (with `add_chunk` inlined) never reads the lock
counter. -/
theorem coalesce_fuel_setLocks : ∀ (fuel : Nat) (h : Heap) (l i : Nat),
    coalesce_fuel fuel (setLocks h l) i =
      mapHeap (fun g => setLocks g l) (coalesce_fuel fuel h i)
  | 0, _, _, _ => rfl
  | fuel + 1, h, l, i => by
    rw [coalesce_fuel, coalesce_fuel]
    simp only [chunk_before_setLocks, chunk_after_setLocks, setLocks_chunks,
      getC_setLocks]
    cases hb : chunk_before h i with
    | none =>
      cases ha : chunk_after h i with
      | none =>
        simp only [chunk_add_setLocks]
        cases chunk_add h i <;> rfl
      | some ai =>
        dsimp only
        simp only [setLocks_chunks, chunk_remove_setLocks]
        cases chunk_remove h (chunkAddr h.chunks ai) with
        | error e h2 => rfl
        | ok u h2 =>
          simp only [mapHeap, getC_setLocks, setLocks_chunks, setLocks_committed]
          by_cases hc1 : ((getC h2 i).full_size + 0 + (getC h2 ai).full_size) %
              data_align ≠ 0
          · simp only [if_pos hc1, mapHeap]
          · simp only [if_neg hc1]
            by_cases hc2 : (getC h2 i).full_size + 0 + (getC h2 ai).full_size <
                min_chunk_size
            · simp only [if_pos hc2, mapHeap]
            · simp only [if_neg hc2]
              generalize (⟨(getC h2 i).full_size + 0 + (getC h2 ai).full_size -
                chunk_overhead, true⟩ : Chunk) = C
              exact coalesce_fuel_setLocks fuel
                (Heap.mk h2.committed
                  (List.take i h2.chunks ++ C :: List.drop (ai + 1) h2.chunks)
                  h2.freeLists h2.locks) l i
    | some bi =>
      cases ha : chunk_after h i with
      | none =>
        dsimp only
        simp only [setLocks_chunks, chunk_remove_setLocks]
        cases chunk_remove h (chunkAddr h.chunks bi) with
        | error e h1 => rfl
        | ok u h1 =>
          simp only [mapHeap, getC_setLocks, setLocks_chunks, setLocks_committed]
          by_cases hc1 : ((getC h1 i).full_size + (getC h1 bi).full_size + 0) %
              data_align ≠ 0
          · simp only [if_pos hc1, mapHeap]
          · simp only [if_neg hc1]
            by_cases hc2 : (getC h1 i).full_size + (getC h1 bi).full_size + 0 <
                min_chunk_size
            · simp only [if_pos hc2, mapHeap]
            · simp only [if_neg hc2]
              generalize (⟨(getC h1 i).full_size + (getC h1 bi).full_size + 0 -
                chunk_overhead, true⟩ : Chunk) = C
              exact coalesce_fuel_setLocks fuel
                (Heap.mk h1.committed
                  (List.take bi h1.chunks ++ C :: List.drop (i + 1) h1.chunks)
                  h1.freeLists h1.locks) l bi
      | some ai =>
        dsimp only
        simp only [setLocks_chunks, chunk_remove_setLocks]
        cases chunk_remove h (chunkAddr h.chunks bi) with
        | error e h1 => rfl
        | ok u h1 =>
          simp only [mapHeap, getC_setLocks, setLocks_chunks, setLocks_committed,
            chunk_remove_setLocks]
          cases chunk_remove h1 (chunkAddr h1.chunks ai) with
          | error e h2 => rfl
          | ok u2 h2 =>
            simp only [mapHeap, getC_setLocks, setLocks_chunks, setLocks_committed]
            by_cases hc1 : ((getC h2 i).full_size + (getC h2 bi).full_size +
                (getC h2 ai).full_size) % data_align ≠ 0
            · simp only [if_pos hc1, mapHeap]
            · simp only [if_neg hc1]
              by_cases hc2 : (getC h2 i).full_size + (getC h2 bi).full_size +
                  (getC h2 ai).full_size < min_chunk_size
              · simp only [if_pos hc2, mapHeap]
              · simp only [if_neg hc2]
                generalize (⟨(getC h2 i).full_size + (getC h2 bi).full_size +
                  (getC h2 ai).full_size - chunk_overhead, true⟩ : Chunk) = C
                exact coalesce_fuel_setLocks fuel
                  (Heap.mk h2.committed
                    (List.take bi h2.chunks ++ C :: List.drop (ai + 1) h2.chunks)
                    h2.freeLists h2.locks) l bi

/-- `chunk::add_chunk` never reads the lock counter. -/
theorem add_chunk_setLocks (h : Heap) (l i size : Nat) :
    add_chunk (setLocks h l) i size =
      mapHeap (fun g => setLocks g l) (add_chunk h i size) := by
  rw [add_chunk, add_chunk]
  by_cases h1 : size % data_align ≠ 0
  · simp only [if_pos h1, mapHeap]
  · simp only [if_neg h1]
    by_cases h2 : size < min_chunk_size
    · simp only [if_pos h2, mapHeap]
    · simp only [if_neg h2, setLocks_chunks]
      exact coalesce_fuel_setLocks _
        (Heap.mk h.committed (h.chunks.set i ⟨size - chunk_overhead, true⟩)
          h.freeLists h.locks) l i

/-- `chunk::split` never reads the lock counter. -/
theorem chunk_split_setLocks (h : Heap) (l i remsize : Nat) :
    chunk_split (setLocks h l) i remsize =
      mapHeap (fun g => setLocks g l) (chunk_split h i remsize) := by
  rw [chunk_split, chunk_split]
  by_cases h1 : remsize < min_chunk_size
  · simp only [if_pos h1, mapHeap]
  · simp only [if_neg h1]
    by_cases h2 : remsize % data_align ≠ 0
    · simp only [if_pos h2, mapHeap]
    · simp only [if_neg h2, setLocks_chunks, getC_setLocks]
      exact add_chunk_setLocks
        (Heap.mk h.committed
          ((h.chunks.set i ⟨(getC h i).size - remsize, false⟩).take (i + 1) ++
            ⟨0, false⟩ :: (h.chunks.set i ⟨(getC h i).size - remsize, false⟩).drop
              (i + 1))
          h.freeLists h.locks) l (i + 1) remsize

/-- `chunk::allocate` never reads the lock counter. -/
theorem chunk_allocate_setLocks (h : Heap) (l i reqsize : Nat) :
    chunk_allocate (setLocks h l) i reqsize =
      mapHeap (fun g => setLocks g l) (chunk_allocate h i reqsize) := by
  rw [chunk_allocate, chunk_allocate]
  by_cases h1 : reqsize % data_align ≠ 0
  · simp only [if_pos h1, mapHeap]
  · simp only [if_neg h1, getC_setLocks, setLocks_chunks]
    by_cases h2 : (getC h i).size < reqsize
    · simp only [if_pos h2, mapHeap]
    · simp only [if_neg h2, chunk_remove_setLocks]
      cases chunk_remove h (chunkAddr h.chunks i) with
      | error e h3 => rfl
      | ok u h3 =>
        simp only [mapHeap, getC_setLocks, setLocks_chunks]
        by_cases h4 : min_chunk_size ≤ (getC h3 i).size - reqsize
        · simp only [if_pos h4, chunk_split_setLocks]
          cases chunk_split h3 i ((getC h3 i).size - reqsize) <;> rfl
        · simp only [if_neg h4, mapHeap]
          rfl

/-- `driver::extend` never reads the lock counter. -/
theorem driver_extend_setLocks (h : Heap) (l size : Nat) :
    driver_extend (setLocks h l) size =
      mapHeap (fun g => setLocks g l) (driver_extend h size) := by
  rw [driver_extend, driver_extend]
  simp only [setLocks_committed, setLocks_chunks]
  by_cases hc : extend_loop 64 h.committed h.committed size - h.committed < size
  · simp only [if_pos hc, mapHeap]
  · simp only [if_neg hc]
    exact add_chunk_setLocks
      (Heap.mk (extend_loop 64 h.committed h.committed size)
        (h.chunks ++ [⟨0, false⟩]) h.freeLists h.locks) l h.chunks.length
      (extend_loop 64 h.committed h.committed size - h.committed)

/-- The free-list walk never reads the lock counter. -/
theorem walk_list_setLocks (h : Heap) (l req : Nat) :
    ∀ as : List Nat, walk_list (setLocks h l) req as = walk_list h req as
  | [] => rfl
  | a :: rest => by
    rw [walk_list, walk_list]
    simp only [setLocks_chunks]
    cases idxOfAddr h.chunks a with
    | none => rfl
    | some i =>
      simp only [getC_setLocks]
      by_cases hf : req ≤ (getC h i).size
      · simp only [if_pos hf]
      · simp only [if_neg hf]
        exact walk_list_setLocks h l req rest

/-- The class loop of `driver::allocate` never reads the lock counter. -/
theorem walk_classes_setLocks (h : Heap) (l req : Nat) :
    ∀ (k i : Nat), n_free_list ≤ i + k →
      walk_classes (setLocks h l) req i = walk_classes h req i
  | 0, i, hk => by
    rw [walk_classes]
    conv_rhs => rw [walk_classes]
    have hni : ¬ i < n_free_list := by omega
    simp only [dif_neg hni]
  | k + 1, i, hk => by
    rw [walk_classes]
    conv_rhs => rw [walk_classes]
    by_cases hi : i < n_free_list
    · simp only [dif_pos hi, setLocks_freeLists, walk_list_setLocks]
      cases walk_list h req (flGet h.freeLists i) with
      | error e => rfl
      | ok o =>
        cases o with
        | some x => rfl
        | none => exact walk_classes_setLocks h l req k (i + 1) (by omega)
    · simp only [dif_neg hi]

/-- `driver::allocate` depends on the arena content only: running it on a
heap whose lock counter was replaced gives the same outcome and the same
arena, up to the lock counters carried along. -/
theorem driver_allocate_setLocks (h : Heap) (l n : Nat) :
    RRel (driver_allocate (setLocks h l) n) (driver_allocate h n) := by
  rw [driver_allocate, driver_allocate]
  by_cases hn : n = 0
  · simp only [if_pos hn]
    exact ⟨rfl, rfl, rfl, rfl⟩
  · simp only [if_neg hn]
    rw [lock_setLocks]
    cases hli : list_index (round_up n) with
    | error e => exact ⟨rfl, rfl, rfl, rfl⟩
    | ok i0 =>
      dsimp only
      rw [walk_classes_setLocks (lock h) (l + 1) (round_up n) n_free_list i0
        (by omega)]
      cases hw : walk_classes (lock h) (round_up n) i0 with
      | error e => exact ⟨rfl, rfl, rfl, rfl⟩
      | ok o =>
        cases o with
        | some i =>
          dsimp only
          rw [chunk_allocate_setLocks, setLocks_chunks]
          cases chunk_allocate (lock h) i (round_up n) with
          | error e h2 => exact ⟨rfl, rfl, rfl, rfl⟩
          | ok u h2 => exact ⟨rfl, rfl, rfl, rfl⟩

        | none =>
          dsimp only
          rw [driver_extend_setLocks]
          cases driver_extend (lock h) ((round_up n + chunk_overhead) % U64) with
          | error e h2 => exact ⟨rfl, rfl, rfl, rfl⟩
          | ok ci h2 =>
            dsimp only
            simp only [mapHeap]
            rw [chunk_allocate_setLocks, setLocks_chunks]
            cases chunk_allocate h2 ci (round_up n) with
            | error e h3 => exact ⟨rfl, rfl, rfl, rfl⟩
            | ok u h3 => exact ⟨rfl, rfl, rfl, rfl⟩

/-- C2, counterexample.  `n = 2^64 - 1` exceeds what any geometric growth
below `max_size_` can satisfy, yet `allocate` does not report an
out-of-memory condition for it: the `size_t` rounding wraps to zero and
the call throws the `list_index` logic error (under the lock) instead of
`bad_alloc`, so the claim's "for every n > 0, including n close to the
maximum value of the size type" fails. -/
theorem C2_counterexample :
    max_size < (2 ^ 64 - 1 : Nat) ∧
    driver_allocate fresh_heap (2 ^ 64 - 1) =
      .error .listIndexZero (lock fresh_heap) ∧
    Err.listIndexZero ≠ Err.badAlloc :=
  ⟨by decide, by decide, by decide⟩

/-- C2 (amended to requests whose rounded size and chunk overhead stay
within `size_t`, i.e. `n + 47 < 2^64`).  When the first-fit walk finds no
chunk and the doubling loop of `extend`, capped at `max_size_`, cannot
cover the rounded request plus the chunk overhead, `allocate` throws
`bad_alloc` with the arena exactly as before the call — same committed
size, same chunk tiling, same free lists; only the mutex was acquired —
and every subsequent `allocate` behaves on that arena exactly as it
would have on the pre-call arena (up to the acquisition counter), so
subsequent smaller allocations still succeed. -/
theorem C2_oom (h : Heap) (n : Nat) (hn : 0 < n) (hbound : n + 47 < U64)
    (hlen : h.freeLists.length = n_free_list)
    (hres : ∀ a ∈ search_order h (Nat.log2 (round_up n)),
      (idxOfAddr h.chunks a).isSome)
    (hnofit : (search_order h (Nat.log2 (round_up n))).find?
      (fits h (round_up n)) = none)
    (hgrow : extend_loop 64 h.committed h.committed
        (round_up n + chunk_overhead) - h.committed <
      round_up n + chunk_overhead) :
    driver_allocate h n = .error .badAlloc (lock h) ∧
    coreEq (lock h) h ∧
    (∀ m, RRel (driver_allocate (lock h) m) (driver_allocate h m)) := by
  have hr := round_up_spec n (by omega)
  have hr0 : 0 < round_up n := by omega
  have hr64 : round_up n < 2 ^ 64 := by
    have h16 : round_up n < n + data_align := hr.2.1
    rw [data_align] at h16
    have : n + 47 < 2 ^ 64 := by rw [U64_eq] at hbound; omega
    omega
  have hli : list_index (round_up n) = .ok (Nat.log2 (round_up n)) :=
    list_index_pos _ hr0 hr64
  refine ⟨?_, ⟨rfl, rfl, rfl⟩, ?_⟩
  · have hwalk := walk_classes_eq (lock h) (round_up n) hlen
      (Nat.log2 (round_up n)) hres
    simp only [search_order_lock, fits_lock, lock_chunks] at hwalk
    rw [driver_allocate, if_neg (by omega)]
    simp only [hli, hwalk, hnofit, Option.none_bind]
    have hmod : (round_up n + chunk_overhead) % U64 =
        round_up n + chunk_overhead := by
      apply Nat.mod_eq_of_lt
      have h1 := hr.2.1
      rw [data_align] at h1
      rw [U64_eq] at hbound ⊢
      rw [chunk_overhead]
      omega
    rw [hmod, driver_extend]
    simp only [lock_committed]
    rw [if_pos hgrow]
  · intro m
    have hl : lock h = setLocks h (h.locks + 1) := rfl
    rw [hl]
    exact driver_allocate_setLocks h (h.locks + 1) m

/-- Witness for C2: requesting `max_size` (`2^32`) bytes from the fresh
arena finds no fit, the doubling stops at `2^32` committed bytes which
cannot cover the request, and `allocate` reports `bad_alloc` leaving the
arena unchanged. -/
theorem C2_witness :
    (0 < (2 ^ 32 : Nat)) ∧ ((2 ^ 32 : Nat) + 47 < U64) ∧
    fresh_heap.freeLists.length = n_free_list ∧
    (extend_loop 64 fresh_heap.committed fresh_heap.committed
        (round_up (2 ^ 32) + chunk_overhead) - fresh_heap.committed <
      round_up (2 ^ 32) + chunk_overhead) ∧
    driver_allocate fresh_heap (2 ^ 32) = .error .badAlloc (lock fresh_heap) := by
  refine ⟨by decide, ?_, by decide, by decide, ?_⟩
  · rw [U64_eq]
    decide
  · have H := C2_oom fresh_heap (2 ^ 32) (by decide) (by rw [U64_eq]; decide)
      (by decide)
      (by
        rw [← log2_fuel_eq 64 (round_up (2 ^ 32)) (by decide)]
        decide)
      (by
        rw [← log2_fuel_eq 64 (round_up (2 ^ 32)) (by decide)]
        decide)
      (by decide)
    exact H.1

theorem Inv_fresh : Inv fresh_heap := by
  refine ⟨by decide, by decide, by decide, by decide, by decide, by decide⟩

theorem Inv_lock (h : Heap) : Inv (lock h) ↔ Inv h := Iff.rfl

theorem listedCount_nil (a : Nat) : listedCount [] a = 0 := rfl

theorem listedCount_cons (L : List Nat) (fls : List (List Nat)) (a : Nat) :
    listedCount (L :: fls) a = L.count a + listedCount fls a := by
  rw [listedCount, listedCount, List.map_cons, List.sum_cons]

theorem listedCount_set : ∀ (fls : List (List Nat)) (j : Nat) (L : List Nat)
    (a : Nat), j < fls.length →
    listedCount (fls.set j L) a + (flGet fls j).count a =
      listedCount fls a + L.count a
  | [], j, L, a, hj => by simp at hj
  | K :: fls, 0, L, a, _ => by
    rw [List.set_cons_zero, listedCount_cons, listedCount_cons]
    show _ + (K.count a) = _
    omega
  | K :: fls, j + 1, L, a, hj => by
    rw [List.set_cons_succ, listedCount_cons, listedCount_cons]
    show _ + (flGet fls j).count a = _
    have := listedCount_set fls j L a (by simpa using hj)
    omega

theorem exists_mem_of_listedCount_pos : ∀ (fls : List (List Nat)) (a : Nat),
    listedCount fls a ≠ 0 → ∃ j < fls.length, a ∈ flGet fls j
  | [], a, hpos => absurd rfl hpos
  | K :: fls, a, hpos => by
    rw [listedCount_cons] at hpos
    by_cases hK : a ∈ K
    · exact ⟨0, by simp, hK⟩
    · have h0 : K.count a = 0 := List.count_eq_zero.mpr hK
      obtain ⟨j, hj, hmem⟩ := exists_mem_of_listedCount_pos fls a (by omega)
      exact ⟨j + 1, by simpa using hj, hmem⟩

theorem listedCount_pos_of_mem : ∀ (fls : List (List Nat)) (j : Nat) (a : Nat),
    j < fls.length → a ∈ flGet fls j → 1 ≤ listedCount fls a
  | [], j, a, hj, _ => by simp at hj
  | K :: fls, 0, a, _, hmem => by
    rw [listedCount_cons]
    have hmK : a ∈ K := hmem
    have hc : 0 < List.count a K := List.count_pos_iff.mpr hmK
    omega
  | K :: fls, j + 1, a, hj, hmem => by
    rw [listedCount_cons]
    have := listedCount_pos_of_mem fls j a (by simpa using hj)
      (by simpa using hmem)
    omega

theorem findList_some_of_mem (fls : List (List Nat)) (j a : Nat)
    (hj : j < n_free_list) (hmem : a ∈ flGet fls j) :
    ∃ j', findList fls a = some j' ∧ j' < n_free_list ∧ a ∈ flGet fls j' := by
  have hex : ∃ x ∈ List.range n_free_list, ((flGet fls x).contains a) = true :=
    ⟨j, List.mem_range.mpr hj, by simpa using hmem⟩
  have hsome : ((List.range n_free_list).find?
      (fun x => (flGet fls x).contains a)).isSome = true :=
    List.find?_isSome.mpr hex
  cases hfind : (List.range n_free_list).find?
      (fun x => (flGet fls x).contains a) with
  | none =>
    rw [hfind] at hsome
    exact absurd hsome (by simp)
  | some x =>
    refine ⟨x, ?_, ?_, ?_⟩
    · rw [findList, hfind]
    · exact List.mem_range.mp (List.mem_of_find?_eq_some hfind)
    · have := List.find?_some hfind
      simpa using this

theorem findList_some_elim (fls : List (List Nat)) (a j : Nat)
    (h : findList fls a = some j) : j < n_free_list ∧ a ∈ flGet fls j := by
  rw [findList] at h
  refine ⟨List.mem_range.mp (List.mem_of_find?_eq_some h), ?_⟩
  have := List.find?_some h
  simpa using this

theorem getD_set_ne (cs : List Chunk) (i k : Nat) (v : Chunk) (hne : k ≠ i) :
    (cs.set i v).getD k ⟨0, false⟩ = cs.getD k ⟨0, false⟩ := by
  rw [List.getD_eq_getElem?_getD, List.getD_eq_getElem?_getD,
    List.getElem?_set_ne (by omega)]

theorem count_le_listedCount : ∀ (fls : List (List Nat)) (j a : Nat),
    j < fls.length → (flGet fls j).count a ≤ listedCount fls a
  | [], j, a, hj => by simp at hj
  | K :: fls, 0, a, _ => by
    rw [listedCount_cons]
    show K.count a ≤ _
    omega
  | K :: fls, j + 1, a, hj => by
    rw [listedCount_cons]
    show (flGet fls j).count a ≤ _
    have := count_le_listedCount fls j a (by simpa using hj)
    omega

theorem count_two_le_listedCount : ∀ (fls : List (List Nat)) (j j' a : Nat),
    j < fls.length → j' < fls.length → j ≠ j' →
    (flGet fls j).count a + (flGet fls j').count a ≤ listedCount fls a
  | [], j, _, a, hj, _, _ => by simp at hj
  | K :: fls, 0, 0, a, _, _, hne => absurd rfl hne
  | K :: fls, 0, j' + 1, a, _, hj', _ => by
    rw [listedCount_cons]
    show K.count a + (flGet fls j').count a ≤ _
    have := count_le_listedCount fls j' a (by simpa using hj')
    omega
  | K :: fls, j + 1, 0, a, hj, _, _ => by
    rw [listedCount_cons]
    show (flGet fls j).count a + K.count a ≤ _
    have := count_le_listedCount fls j a (by simpa using hj)
    omega
  | K :: fls, j + 1, j' + 1, a, hj, hj', hne => by
    rw [listedCount_cons]
    show (flGet fls j).count a + (flGet fls j').count a ≤ _
    have := count_two_le_listedCount fls j j' a (by simpa using hj)
      (by simpa using hj') (by omega)
    omega

theorem sumFull_set : ∀ (cs : List Chunk) (i : Nat) (v : Chunk),
    (i < cs.length → v.full_size = (cs.getD i ⟨0, false⟩).full_size) →
    ((cs.set i v).map Chunk.full_size).sum = (cs.map Chunk.full_size).sum
  | [], _, _, _ => rfl
  | c :: cs, 0, v, hf => by
    rw [List.set_cons_zero, List.map_cons, List.map_cons, List.sum_cons,
      List.sum_cons]
    have hv : v.full_size = c.full_size := hf (by simp)
    omega
  | c :: cs, i + 1, v, hf => by
    rw [List.set_cons_succ, List.map_cons, List.map_cons, List.sum_cons,
      List.sum_cons,
      sumFull_set cs i v (fun hi => hf (by simpa using Nat.succ_lt_succ hi))]

theorem chunkAddr_set_full (cs : List Chunk) (i : Nat) (v : Chunk) (k : Nat)
    (hf : i < cs.length → v.full_size = (cs.getD i ⟨0, false⟩).full_size) :
    chunkAddr (cs.set i v) k = chunkAddr cs k := by
  by_cases hik : i < cs.length
  · by_cases hki : k ≤ i
    · rw [chunkAddr, chunkAddr, take_set cs i k v hki hik]
    · have hgd : cs.getD i ⟨0, false⟩ = cs[i] := by
        rw [List.getD_eq_getElem?_getD, List.getElem?_eq_getElem hik]
        rfl
      have hfull : v.full_size = cs[i].full_size := by rw [hf hik, hgd]
      rw [chunkAddr, chunkAddr, set_eq_splice cs i v hik]
      have h1 : (cs.take i ++ v :: cs.drop (i + 1)).take k =
          cs.take i ++ v :: (cs.drop (i + 1)).take (k - i - 1) := by
        rw [List.take_append_eq_append_take,
          List.take_of_length_le (by rw [List.length_take]; omega),
          List.length_take, Nat.min_eq_left (by omega),
          show k - i = (k - i - 1) + 1 by omega, List.take_succ_cons]
        simp only [Nat.add_sub_cancel]
      have h2 : cs.take k = cs.take i ++ cs[i] ::
          (cs.drop (i + 1)).take (k - i - 1) := by
        conv_lhs => rw [show k = i + (k - i) by omega, List.take_add]
        rw [List.drop_eq_getElem_cons hik,
          show k - i = (k - i - 1) + 1 by omega, List.take_succ_cons]
        simp only [Nat.add_sub_cancel]
      rw [h1, h2]
      simp only [List.map_append, List.map_cons, List.sum_append, List.sum_cons]
      omega
  · rw [List.set_eq_of_length_le (by omega)]

theorem chunkAddr_mono (cs : List Chunk) (i : Nat) : ∀ (j : Nat), i ≤ j →
    j ≤ cs.length → chunkAddr cs i ≤ chunkAddr cs j
  | 0, hij, _ => by
    have : i = 0 := by omega
    rw [this]
  | j + 1, hij, hj => by
    by_cases hi : i = j + 1
    · rw [hi]
    · have h1 := chunkAddr_mono cs i j (by omega) (by omega)
      rw [chunkAddr_succ cs j (by omega)]
      omega

theorem flGet_set_self (fls : List (List Nat)) (j : Nat) (L : List Nat)
    (hj : j < fls.length) : flGet (fls.set j L) j = L := by
  rw [flGet, List.getD_eq_getElem?_getD, List.getElem?_set_self (by omega)]
  rfl

theorem flGet_set_ne (fls : List (List Nat)) (j j' : Nat) (L : List Nat)
    (hne : j' ≠ j) : flGet (fls.set j L) j' = flGet fls j' := by
  rw [flGet, flGet, List.getD_eq_getElem?_getD, List.getD_eq_getElem?_getD,
    List.getElem?_set_ne (by omega)]

theorem listed_unique (fls : List (List Nat)) (a j : Nat)
    (hcount : listedCount fls a = 1)
    (hj : j < fls.length) (hmem : a ∈ flGet fls j) :
    (flGet fls j).count a = 1 ∧
    ∀ j', j' < fls.length → j' ≠ j → a ∉ flGet fls j' := by
  have h1 : 0 < (flGet fls j).count a := List.count_pos_iff.mpr hmem
  have h2 : (flGet fls j).count a ≤ listedCount fls a :=
    count_le_listedCount fls j a hj
  refine ⟨by omega, ?_⟩
  intro j' hj' hne hmem'
  have h3 : 0 < (flGet fls j').count a := List.count_pos_iff.mpr hmem'
  have h4 := count_two_le_listedCount fls j j' a hj hj' (by omega)
  omega

theorem listedCount_erase_self (fls : List (List Nat)) (j a : Nat)
    (hj : j < fls.length) (hmem : a ∈ flGet fls j) :
    listedCount (fls.set j ((flGet fls j).erase a)) a = listedCount fls a - 1 := by
  have h := listedCount_set fls j ((flGet fls j).erase a) a hj
  have hc : ((flGet fls j).erase a).count a = (flGet fls j).count a - 1 :=
    List.count_erase_self a (flGet fls j)
  have h1 : 0 < (flGet fls j).count a := List.count_pos_iff.mpr hmem
  omega

theorem listedCount_erase_ne (fls : List (List Nat)) (j a b : Nat)
    (hj : j < fls.length) (hne : b ≠ a) :
    listedCount (fls.set j ((flGet fls j).erase a)) b = listedCount fls b := by
  have h := listedCount_set fls j ((flGet fls j).erase a) b hj
  have hc : ((flGet fls j).erase a).count b = (flGet fls j).count b :=
    List.count_erase_of_ne hne _
  omega

theorem listedCount_push (fls : List (List Nat)) (li a b : Nat)
    (hli : li < fls.length) :
    listedCount (fls.set li (b :: flGet fls li)) a =
      listedCount fls a + if a = b then 1 else 0 := by
  have h := listedCount_set fls li (b :: flGet fls li) a hli
  have hc : (b :: flGet fls li).count a =
      (flGet fls li).count a + if a = b then 1 else 0 := by
    rw [List.count_cons]
    by_cases hab : a = b
    · simp [hab]
    · simp [hab, Ne.symm hab]
  omega

/-- Allocating the whole of free chunk `i` (the no-split branch of
`chunk::allocate`) preserves the arena invariant. -/
theorem Inv_nosplit (h : Heap) (l i j : Nat) (hInv : Inv h)
    (hilen : i < h.chunks.length) (hfree : (getC h i).free = true)
    (hfl : findList h.freeLists (chunkAddr h.chunks i) = some j) :
    Inv (Heap.mk h.committed (h.chunks.set i ⟨(getC h i).size, false⟩)
      (h.freeLists.set j ((flGet h.freeLists j).erase (chunkAddr h.chunks i)))
      l) := by
  obtain ⟨hlen, htile, hsizes, hadj, hcount, hlisted⟩ := hInv
  obtain ⟨hjlt, hjmem⟩ := findList_some_elim _ _ _ hfl
  have hjlen : j < h.freeLists.length := by omega
  have hcnt1 : listedCount h.freeLists (chunkAddr h.chunks i) = 1 :=
    hcount i hilen hfree
  obtain ⟨hcj, hnotin⟩ := listed_unique h.freeLists (chunkAddr h.chunks i) j
    hcnt1 hjlen hjmem
  set CS := h.chunks.set i (⟨(getC h i).size, false⟩ : Chunk) with hCS
  set FL := h.freeLists.set j
    ((flGet h.freeLists j).erase (chunkAddr h.chunks i)) with hFL
  have hg : ∀ k, getC (Heap.mk h.committed CS FL l) k = CS.getD k ⟨0, false⟩ :=
    fun _ => rfl
  have hflen : ∀ k, chunkAddr CS k = chunkAddr h.chunks k := by
    intro k
    rw [hCS]
    exact chunkAddr_set_full h.chunks i _ k (fun _ => rfl)
  have hlen2 : CS.length = h.chunks.length := by
    rw [hCS]
    exact List.length_set h.chunks ..
  have hgetne : ∀ k, k ≠ i → CS.getD k ⟨0, false⟩ = getC h k := by
    intro k hk
    rw [hCS]
    exact getD_set_ne h.chunks i k _ hk
  have hgeti : CS.getD i ⟨0, false⟩ = ⟨(getC h i).size, false⟩ := by
    rw [hCS]
    exact getD_set_self h.chunks i _ hilen
  have haddr_ne : ∀ k, k < h.chunks.length → k ≠ i →
      chunkAddr h.chunks k ≠ chunkAddr h.chunks i := by
    intro k hk hki heq
    exact hki (chunkAddr_inj h.chunks k i (by omega) (by omega) heq)
  refine ⟨by rw [hFL]; simpa using hlen, ?_, ?_, ?_, ?_, ?_⟩
  · show chunkAddr CS CS.length = h.committed
    rw [hlen2, hflen]
    exact htile
  · intro k hk
    rw [show (Heap.mk h.committed CS FL l : Heap).chunks = CS from rfl,
      hlen2] at hk
    rw [hg k]
    by_cases hki : k = i
    · subst hki
      rw [hgeti]
      exact hsizes k hk
    · rw [hgetne k hki]
      exact hsizes k hk
  · intro k hk hk1 hfk
    rw [show (Heap.mk h.committed CS FL l : Heap).chunks = CS from rfl,
      hlen2] at hk hk1
    rw [hg] at hfk ⊢
    by_cases hk1i : k + 1 = i
    · rw [hk1i, hgeti]
    · rw [hgetne (k + 1) hk1i]
      by_cases hki : k = i
      · exfalso
        rw [hki, hgeti] at hfk
        exact Bool.noConfusion hfk
      · rw [hgetne k hki] at hfk
        exact hadj k hk hk1 hfk
  · intro k hk hfk
    rw [show (Heap.mk h.committed CS FL l : Heap).chunks = CS from rfl,
      hlen2] at hk
    rw [hg] at hfk
    by_cases hki : k = i
    · exfalso
      rw [hki, hgeti] at hfk
      exact Bool.noConfusion hfk
    · rw [hgetne k hki] at hfk
      show listedCount FL (chunkAddr CS k) = 1
      rw [hflen, hFL, listedCount_erase_ne h.freeLists j _ _ hjlen
        (haddr_ne k hk hki)]
      exact hcount k hk hfk
  · intro j' hj' b hbmem
    have hnotmem : chunkAddr h.chunks i ∉
        (flGet h.freeLists j).erase (chunkAddr h.chunks i) := by
      intro hmm
      have h0 : ((flGet h.freeLists j).erase (chunkAddr h.chunks i)).count
          (chunkAddr h.chunks i) =
          (flGet h.freeLists j).count (chunkAddr h.chunks i) - 1 :=
        List.count_erase_self _ _
      have hp : 0 < ((flGet h.freeLists j).erase (chunkAddr h.chunks i)).count
          (chunkAddr h.chunks i) := List.count_pos_iff.mpr hmm
      omega
    have hbold : b ∈ flGet h.freeLists j' ∧ b ≠ chunkAddr h.chunks i := by
      by_cases hjj : j' = j
      · subst hjj
        rw [show flGet (Heap.mk h.committed CS FL l : Heap).freeLists j' =
          flGet FL j' from rfl, hFL, flGet_set_self h.freeLists j' _ hjlen]
          at hbmem
        exact ⟨List.mem_of_mem_erase hbmem, fun hba => hnotmem (hba ▸ hbmem)⟩
      · rw [show flGet (Heap.mk h.committed CS FL l : Heap).freeLists j' =
          flGet FL j' from rfl, hFL, flGet_set_ne h.freeLists j j' _ hjj]
          at hbmem
        refine ⟨hbmem, ?_⟩
        intro hba
        exact hnotin j' (by omega) hjj (hba ▸ hbmem)
    obtain ⟨t, ht, htaddr, htfree⟩ := hlisted j' hj' b hbold.1
    have htlen : t < h.chunks.length := List.mem_range.mp ht
    have hti : t ≠ i := by
      intro hti
      rw [hti] at htaddr
      exact hbold.2 htaddr.symm
    refine ⟨t, ?_, ?_, ?_⟩
    · rw [List.mem_range,
        show (Heap.mk h.committed CS FL l : Heap).chunks = CS from rfl, hlen2]
      exact htlen
    · rw [show (Heap.mk h.committed CS FL l : Heap).chunks = CS from rfl, hflen]
      exact htaddr
    · rw [hg, hgetne t hti]
      exact htfree

theorem chunkAddr_length (cs : List Chunk) :
    chunkAddr cs cs.length = driver_size + ((cs.map Chunk.full_size).sum) := by
  rw [chunkAddr, List.take_length]

theorem chunkAddr_splice2_shift (cs : List Chunk) (i k : Nat) (v w : Chunk)
    (hik : i < cs.length) (hk : i + 2 ≤ k)
    (hfull : v.full_size + w.full_size = (cs.getD i ⟨0, false⟩).full_size) :
    chunkAddr (cs.take i ++ v :: w :: cs.drop (i + 1)) k =
      chunkAddr cs (k - 1) := by
  obtain ⟨t, rfl⟩ : ∃ t, k = i + 2 + t := ⟨k - i - 2, by omega⟩
  have hgd : cs.getD i ⟨0, false⟩ = cs[i] := by
    rw [List.getD_eq_getElem?_getD, List.getElem?_eq_getElem hik]
    rfl
  rw [chunkAddr, chunkAddr]
  have h1 : (cs.take i ++ v :: w :: cs.drop (i + 1)).take (i + 2 + t) =
      cs.take i ++ v :: w :: (cs.drop (i + 1)).take t := by
    rw [List.take_append_eq_append_take,
      List.take_of_length_le (by rw [List.length_take]; omega),
      List.length_take, Nat.min_eq_left (by omega),
      show i + 2 + t - i = t + 1 + 1 by omega, List.take_succ_cons,
      show t + 1 = t + 1 from rfl, List.take_succ_cons]
  have h2 : cs.take (i + 2 + t - 1) = cs.take i ++ cs[i] ::
      (cs.drop (i + 1)).take t := by
    rw [show i + 2 + t - 1 = i + (t + 1) by omega, List.take_add,
      List.drop_eq_getElem_cons hik, List.take_succ_cons]
  rw [h1, h2]
  simp only [List.map_append, List.map_cons, List.sum_append, List.sum_cons]
  rw [hgd] at hfull
  omega

/-- Splitting free chunk `i` for an aligned request `req` (the split
branch of `chunk::allocate`: front shrunk to `req` and allocated,
remainder inserted as a new free chunk) preserves the arena
invariant. -/
theorem Inv_split (h : Heap) (l i j li req : Nat) (hInv : Inv h)
    (hilen : i < h.chunks.length) (hfree : (getC h i).free = true)
    (hfl : findList h.freeLists (chunkAddr h.chunks i) = some j)
    (hreqal : req % data_align = 0) (hreq16 : data_align ≤ req)
    (hslack : min_chunk_size ≤ (getC h i).size - req)
    (hli : li < n_free_list) :
    Inv (Heap.mk h.committed
      (h.chunks.take i ++ (⟨req, false⟩ : Chunk) ::
        (⟨(getC h i).size - req - chunk_overhead, true⟩ : Chunk) ::
        h.chunks.drop (i + 1))
      ((h.freeLists.set j ((flGet h.freeLists j).erase (chunkAddr h.chunks i))).set
        li ((chunkAddr h.chunks i + req + chunk_overhead) ::
          flGet (h.freeLists.set j
            ((flGet h.freeLists j).erase (chunkAddr h.chunks i))) li))
      l) := by
  obtain ⟨hlen, htile, hsizes, hadj, hcount, hlisted⟩ := hInv
  obtain ⟨hjlt, hjmem⟩ := findList_some_elim _ _ _ hfl
  have hjlen : j < h.freeLists.length := by omega
  have hmin48 : min_chunk_size = 48 := by decide
  have hda : data_align = 16 := rfl
  have hco : chunk_overhead = 32 := rfl
  have hszal := (hsizes i hilen).1
  have hsz16 := (hsizes i hilen).2
  rw [hmin48] at hslack
  rw [hda] at hszal hreqal hreq16 hsz16
  have hcnt1 : listedCount h.freeLists (chunkAddr h.chunks i) = 1 :=
    hcount i hilen hfree
  obtain ⟨hcj, hnotin⟩ := listed_unique h.freeLists (chunkAddr h.chunks i) j
    hcnt1 hjlen hjmem
  have hsucc : chunkAddr h.chunks (i + 1) =
      chunkAddr h.chunks i + ((getC h i).size + chunk_overhead) :=
    chunkAddr_succ h.chunks i hilen
  rw [hco] at hsucc
  set rem := (getC h i).size - req - chunk_overhead with hrem
  rw [hco] at hrem
  set v : Chunk := ⟨req, false⟩ with hv
  set w : Chunk := ⟨rem, true⟩ with hw
  set CS := h.chunks.take i ++ v :: w :: h.chunks.drop (i + 1) with hCS
  set fl1 := h.freeLists.set j
    ((flGet h.freeLists j).erase (chunkAddr h.chunks i)) with hfl1
  set FL := fl1.set li ((chunkAddr h.chunks i + req + chunk_overhead) ::
    flGet fl1 li) with hFL
  have hlilen : li < fl1.length := by
    rw [hfl1, List.length_set, hlen]
    omega
  have hgd : h.chunks.getD i ⟨0, false⟩ = getC h i := rfl
  have hfullvw : v.full_size + w.full_size =
      (h.chunks.getD i ⟨0, false⟩).full_size := by
    show req + chunk_overhead + (rem + chunk_overhead) =
      (getC h i).size + chunk_overhead
    rw [hco, hrem]
    omega
  have hg : ∀ k, getC (Heap.mk h.committed CS FL l) k = CS.getD k ⟨0, false⟩ :=
    fun _ => rfl
  have hlen2 : CS.length = h.chunks.length + 1 := by
    rw [hCS]
    exact length_splice2 h.chunks i v w hilen
  have hget_lt : ∀ k, k < i → CS.getD k ⟨0, false⟩ = getC h k := by
    intro k hk
    rw [hCS, List.getD_eq_getElem?_getD,
      getElem?_splice2_lt h.chunks i k v w hk (by omega), getC_eq_getElem?]
  have hget_i : CS.getD i ⟨0, false⟩ = v := by
    rw [hCS, List.getD_eq_getElem?_getD,
      getElem?_splice2_fst h.chunks i v w (by omega)]
    rfl
  have hget_i1 : CS.getD (i + 1) ⟨0, false⟩ = w := by
    rw [hCS, List.getD_eq_getElem?_getD,
      getElem?_splice2_snd h.chunks i v w (by omega)]
    rfl
  have hget_gt : ∀ k, i + 2 ≤ k → CS.getD k ⟨0, false⟩ = getC h (k - 1) := by
    intro k hk
    rw [hCS, List.getD_eq_getElem?_getD,
      getElem?_splice2_gt h.chunks i k v w hk (by omega), getC_eq_getElem?]
  have haddr_le : ∀ k, k ≤ i → chunkAddr CS k = chunkAddr h.chunks k := by
    intro k hk
    rw [hCS]
    exact chunkAddr_splice2 h.chunks i k v w hk (by omega)
  have haddr_gt : ∀ k, i + 2 ≤ k →
      chunkAddr CS k = chunkAddr h.chunks (k - 1) := by
    intro k hk
    rw [hCS]
    exact chunkAddr_splice2_shift h.chunks i k v w hilen hk hfullvw
  have haddr_i1 : chunkAddr CS (i + 1) =
      chunkAddr h.chunks i + req + chunk_overhead := by
    rw [chunkAddr_succ CS i (by omega), haddr_le i (Nat.le_refl _), hget_i]
    show chunkAddr h.chunks i + (req + chunk_overhead) = _
    omega
  have hna_not_old : ∀ t, t < h.chunks.length →
      chunkAddr h.chunks t ≠ chunkAddr h.chunks i + req + chunk_overhead := by
    intro t ht hteq
    rw [hco] at hteq
    by_cases hti : t ≤ i
    · have hm := chunkAddr_mono h.chunks t i hti (by omega)
      omega
    · have hm := chunkAddr_mono h.chunks (i + 1) t (by omega) (by omega)
      omega
  have hfls_na : listedCount h.freeLists
      (chunkAddr h.chunks i + req + chunk_overhead) = 0 := by
    by_contra hnz
    obtain ⟨j2, hj2, hmem2⟩ := exists_mem_of_listedCount_pos h.freeLists _ hnz
    obtain ⟨t, ht, htaddr, _⟩ := hlisted j2 (by omega) _ hmem2
    exact hna_not_old t (List.mem_range.mp ht) htaddr
  have hfl1_push : ∀ b, listedCount FL b =
      listedCount fl1 b +
        if b = chunkAddr h.chunks i + req + chunk_overhead then 1 else 0 := by
    intro b
    rw [hFL]
    exact listedCount_push fl1 li b _ hlilen
  have haddr_ne_a : ∀ k, k < h.chunks.length → k ≠ i →
      chunkAddr h.chunks k ≠ chunkAddr h.chunks i := by
    intro k hk hki heq
    exact hki (chunkAddr_inj h.chunks k i (by omega) (by omega) heq)
  refine ⟨?_, ?_, ?_, ?_, ?_, ?_⟩
  · show FL.length = n_free_list
    rw [hFL, hfl1]
    simpa using hlen
  · show chunkAddr CS CS.length = h.committed
    rw [hlen2, haddr_gt (h.chunks.length + 1) (by omega)]
    simpa using htile
  · intro k hk
    rw [show (Heap.mk h.committed CS FL l : Heap).chunks = CS from rfl,
      hlen2] at hk
    rw [hg k]
    rcases Nat.lt_trichotomy k i with hki | hki | hki
    · rw [hget_lt k hki]
      exact hsizes k (by omega)
    · rw [hki, hget_i, hv]
      show req % data_align = 0 ∧ data_align ≤ req
      rw [hda]
      omega
    · by_cases hk1 : k = i + 1
      · rw [hk1, hget_i1, hw]
        show rem % data_align = 0 ∧ data_align ≤ rem
        rw [hda]
        omega
      · rw [hget_gt k (by omega)]
        exact hsizes (k - 1) (by omega)
  · intro k hk hk1 hfk
    rw [show (Heap.mk h.committed CS FL l : Heap).chunks = CS from rfl,
      hlen2] at hk hk1
    rw [hg] at hfk ⊢
    rcases Nat.lt_trichotomy (k + 1) i with hki | hki | hki
    · rw [hget_lt (k + 1) hki]
      rw [hget_lt k (by omega)] at hfk
      exact hadj k (by omega) (by omega) hfk
    · rw [hki, hget_i, hv]
    · by_cases hk1i1 : k + 1 = i + 1
      · exfalso
        rw [show k = i by omega, hget_i, hv] at hfk
        exact Bool.noConfusion hfk
      · by_cases hk1i2 : k + 1 = i + 2
        · rw [hk1i2, hget_gt (i + 2) (by omega)]
          show (getC h (i + 2 - 1)).free = false
          rw [show i + 2 - 1 = i + 1 by omega]
          exact hadj i hilen (by omega) hfree
        · rw [hget_gt (k + 1) (by omega)]
          rw [hget_gt k (by omega)] at hfk
          show (getC h (k + 1 - 1)).free = false
          have := hadj (k - 1) (by omega) (by omega) hfk
          rw [show k + 1 - 1 = k - 1 + 1 by omega]
          exact this
  · intro k hk hfk
    rw [show (Heap.mk h.committed CS FL l : Heap).chunks = CS from rfl,
      hlen2] at hk
    rw [hg] at hfk
    show listedCount FL (chunkAddr CS k) = 1
    rcases Nat.lt_trichotomy k i with hki | hki | hki
    · rw [hget_lt k hki] at hfk
      rw [haddr_le k (by omega), hfl1_push,
        if_neg (hna_not_old k (by omega)), hfl1,
        listedCount_erase_ne h.freeLists j _ _ hjlen
          (haddr_ne_a k (by omega) (by omega)),
        hcount k (by omega) hfk]
    · exfalso
      rw [hki, hget_i, hv] at hfk
      exact Bool.noConfusion hfk
    · by_cases hk1 : k = i + 1
      · rw [hk1, haddr_i1, hfl1_push, if_pos rfl, hfl1,
          listedCount_erase_ne h.freeLists j _ _ hjlen
            (by
              intro heq
              rw [hco] at heq
              omega),
          hfls_na]
      · rw [hget_gt k (by omega)] at hfk
        rw [haddr_gt k (by omega), hfl1_push,
          if_neg (hna_not_old (k - 1) (by omega)), hfl1,
          listedCount_erase_ne h.freeLists j _ _ hjlen
            (haddr_ne_a (k - 1) (by omega) (by omega)),
          hcount (k - 1) (by omega) hfk]
  · intro j' hj' b hbmem
    by_cases hbna : b = chunkAddr h.chunks i + req + chunk_overhead
    · refine ⟨i + 1, ?_, ?_, ?_⟩
      · rw [List.mem_range,
          show (Heap.mk h.committed CS FL l : Heap).chunks = CS from rfl, hlen2]
        omega
      · rw [show (Heap.mk h.committed CS FL l : Heap).chunks = CS from rfl,
          haddr_i1, hbna]
      · rw [hg, hget_i1, hw]
    · have hbfl1 : b ∈ flGet fl1 j' := by
        by_cases hjli : j' = li
        · rw [show flGet (Heap.mk h.committed CS FL l : Heap).freeLists j' =
            flGet FL j' from rfl, hjli, hFL,
            flGet_set_self fl1 li _ hlilen] at hbmem
          cases hbmem with
          | head => exact absurd rfl hbna
          | tail _ hmem => exact hjli ▸ hmem
        · rw [show flGet (Heap.mk h.committed CS FL l : Heap).freeLists j' =
            flGet FL j' from rfl, hFL,
            flGet_set_ne fl1 li j' _ hjli] at hbmem
          exact hbmem
      have hnotmem_a : chunkAddr h.chunks i ∉
          (flGet h.freeLists j).erase (chunkAddr h.chunks i) := by
        intro hmm
        have h0 : ((flGet h.freeLists j).erase (chunkAddr h.chunks i)).count
            (chunkAddr h.chunks i) =
            (flGet h.freeLists j).count (chunkAddr h.chunks i) - 1 :=
          List.count_erase_self _ _
        have hp : 0 < ((flGet h.freeLists j).erase
            (chunkAddr h.chunks i)).count (chunkAddr h.chunks i) :=
          List.count_pos_iff.mpr hmm
        omega
      have hbold : b ∈ flGet h.freeLists j' ∧ b ≠ chunkAddr h.chunks i := by
        by_cases hjj : j' = j
        · rw [hjj, hfl1, flGet_set_self h.freeLists j _ hjlen] at hbfl1
          exact ⟨hjj ▸ List.mem_of_mem_erase hbfl1,
            fun hba => hnotmem_a (hba ▸ hbfl1)⟩
        · rw [hfl1, flGet_set_ne h.freeLists j j' _ hjj] at hbfl1
          refine ⟨hbfl1, ?_⟩
          intro hba
          exact hnotin j' (by omega) hjj (hba ▸ hbfl1)
      obtain ⟨t, ht, htaddr, htfree⟩ := hlisted j' hj' b hbold.1
      have htlen : t < h.chunks.length := List.mem_range.mp ht
      have hti : t ≠ i := by
        intro hti
        rw [hti] at htaddr
        exact hbold.2 htaddr.symm
      by_cases htlt : t < i
      · refine ⟨t, ?_, ?_, ?_⟩
        · rw [List.mem_range,
            show (Heap.mk h.committed CS FL l : Heap).chunks = CS from rfl,
            hlen2]
          omega
        · rw [show (Heap.mk h.committed CS FL l : Heap).chunks = CS from rfl,
            haddr_le t (by omega)]
          exact htaddr
        · rw [hg, hget_lt t htlt]
          exact htfree
      · refine ⟨t + 1, ?_, ?_, ?_⟩
        · rw [List.mem_range,
            show (Heap.mk h.committed CS FL l : Heap).chunks = CS from rfl,
            hlen2]
          omega
        · rw [show (Heap.mk h.committed CS FL l : Heap).chunks = CS from rfl,
            haddr_gt (t + 1) (by omega)]
          simpa using htaddr
        · rw [hg, hget_gt (t + 1) (by omega)]
          simpa using htfree

theorem chunkAddr_align (cs : List Chunk)
    (hsz : ∀ t, t < cs.length → (cs.getD t ⟨0, false⟩).size % data_align = 0) :
    ∀ k, k ≤ cs.length → chunkAddr cs k % data_align = 0
  | 0, _ => by
    rw [chunkAddr_zero]
    decide
  | k + 1, hk => by
    rw [chunkAddr_succ cs k (by omega)]
    have h1 := chunkAddr_align cs hsz k (by omega)
    have h2 := hsz k (by omega)
    show (chunkAddr cs k + ((cs.getD k ⟨0, false⟩).size + chunk_overhead)) %
      data_align = 0
    rw [show data_align = 16 from rfl] at h1 h2 ⊢
    rw [show chunk_overhead = 32 from rfl]
    omega

theorem chunkAddr_ge_driver (cs : List Chunk) (k : Nat) (hk : k ≤ cs.length) :
    driver_size ≤ chunkAddr cs k := by
  have := chunkAddr_mono cs 0 k (by omega) hk
  rw [chunkAddr_zero] at this
  exact this

theorem chunkAddr_append_le (cs : List Chunk) (w : Chunk) (k : Nat)
    (hk : k ≤ cs.length) : chunkAddr (cs ++ [w]) k = chunkAddr cs k := by
  rw [chunkAddr, chunkAddr, List.take_append_of_le_length hk]

theorem getD_append_lt (cs : List Chunk) (w : Chunk) (k : Nat)
    (hk : k < cs.length) : (cs ++ [w]).getD k ⟨0, false⟩ = cs.getD k ⟨0, false⟩ := by
  rw [List.getD_eq_getElem?_getD, List.getD_eq_getElem?_getD,
    List.getElem?_append_left hk]

theorem getD_append_self (cs : List Chunk) (w : Chunk) :
    (cs ++ [w]).getD cs.length ⟨0, false⟩ = w := by
  rw [List.getD_eq_getElem?_getD,
    List.getElem?_append_right (Nat.le_refl _), Nat.sub_self]
  rfl

theorem chunk_after_none_inv (h : Heap) (i : Nat)
    (htile : chunkAddr h.chunks h.chunks.length = h.committed)
    (hsz16 : ∀ t, t < h.chunks.length → data_align ≤ (getC h t).size)
    (ha : chunk_after h i = none)
    (hi1 : i + 1 < h.chunks.length) : (getC h (i + 1)).free = false := by
  rcases chunk_after_none_elim h i ha with hbd | hall
  · exfalso
    have h1 : chunkAddr h.chunks (i + 1) + (getC h (i + 1)).size + chunk_overhead =
        chunkAddr h.chunks (i + 2) := by
      rw [chunkAddr_succ h.chunks (i + 1) hi1]
      show _ = chunkAddr h.chunks (i + 1) + ((getC h (i + 1)).size + chunk_overhead)
      omega
    have h2 := chunkAddr_mono h.chunks (i + 2) h.chunks.length (by omega)
      (Nat.le_refl _)
    have h3 := hsz16 (i + 1) hi1
    rw [htile] at h2
    rw [show data_align = 16 from rfl] at h3
    rw [show min_chunk_size = 48 from rfl] at hbd
    rw [show chunk_overhead = 32 from rfl] at h1
    omega
  · exact hall _ (getElem?_of_getC h (i + 1) hi1)

theorem chunk_after_some_inv (h : Heap) (i : Nat)
    (htile : chunkAddr h.chunks h.chunks.length = h.committed)
    (hsz16 : ∀ t, t < h.chunks.length → data_align ≤ (getC h t).size)
    (hi1 : i + 1 < h.chunks.length) (hfree : (getC h (i + 1)).free = true) :
    chunk_after h i = some (i + 1) := by
  apply chunk_after_free h i ?_ hi1 hfree
  have h1 : chunkAddr h.chunks (i + 1) + (getC h (i + 1)).size + chunk_overhead =
      chunkAddr h.chunks (i + 2) := by
    rw [chunkAddr_succ h.chunks (i + 1) hi1]
    show _ = chunkAddr h.chunks (i + 1) + ((getC h (i + 1)).size + chunk_overhead)
    omega
  have h2 := chunkAddr_mono h.chunks (i + 2) h.chunks.length (by omega)
    (Nat.le_refl _)
  have h3 := hsz16 (i + 1) hi1
  rw [htile] at h2
  rw [show data_align = 16 from rfl] at h3
  rw [show min_chunk_size = 48 from rfl]
  rw [show chunk_overhead = 32 from rfl] at h1
  omega

theorem chunkAddr_splice_shift (cs : List Chunk) (b0 a0 k : Nat) (x : Chunk)
    (hba : b0 ≤ a0) (ha0 : a0 < cs.length) (hk : b0 + 1 ≤ k)
    (hx : chunkAddr cs b0 + x.full_size = chunkAddr cs (a0 + 1)) :
    chunkAddr (cs.take b0 ++ x :: cs.drop (a0 + 1)) k =
      chunkAddr cs (a0 + 1 + (k - b0 - 1)) := by
  obtain ⟨t, rfl⟩ : ∃ t, k = b0 + 1 + t := ⟨k - b0 - 1, by omega⟩
  rw [show b0 + 1 + t - b0 - 1 = t by omega]
  have h1 : (cs.take b0 ++ x :: cs.drop (a0 + 1)).take (b0 + 1 + t) =
      cs.take b0 ++ x :: (cs.drop (a0 + 1)).take t := by
    rw [List.take_append_eq_append_take,
      List.take_of_length_le (by rw [List.length_take]; omega),
      List.length_take, Nat.min_eq_left (by omega),
      show b0 + 1 + t - b0 = t + 1 by omega, List.take_succ_cons]
  have h2 : cs.take (a0 + 1 + t) = cs.take (a0 + 1) ++
      (cs.drop (a0 + 1)).take t := List.take_add cs (a0 + 1) t
  have hb0 : chunkAddr cs b0 = driver_size +
      ((cs.take b0).map Chunk.full_size).sum := rfl
  have ha1 : chunkAddr cs (a0 + 1) = driver_size +
      ((cs.take (a0 + 1)).map Chunk.full_size).sum := rfl
  rw [chunkAddr, chunkAddr, h1, h2]
  simp only [List.map_append, List.map_cons, List.sum_append, List.sum_cons]
  rw [hb0, ha1] at hx
  omega

/-- Appending the extension span as a fresh free chunk at the end of the
tiling (the `extend` case where the old tail is allocated or the tiling
is empty) preserves the arena invariant, with the committed size grown
to `s`. -/
theorem Inv_extend_append (h : Heap) (l li s : Nat) (hInv : Inv h)
    (hcs : h.committed ≤ s) (hsal : s % data_align = 0)
    (hd48 : min_chunk_size ≤ s - h.committed)
    (htail : h.chunks = [] ∨ (getC h (h.chunks.length - 1)).free = false)
    (hli : li < n_free_list) :
    Inv (Heap.mk s (h.chunks ++ [⟨s - h.committed - chunk_overhead, true⟩])
      (h.freeLists.set li (h.committed :: flGet h.freeLists li)) l) := by
  obtain ⟨hlen, htile, hsizes, hadj, hcount, hlisted⟩ := hInv
  have hmin48 : min_chunk_size = 48 := by decide
  have hda : data_align = 16 := rfl
  have hco : chunk_overhead = 32 := rfl
  rw [hmin48] at hd48
  rw [hda] at hsal
  have hcal : h.committed % 16 = 0 := by
    rw [← htile]
    have := chunkAddr_align h.chunks (fun t ht => (hsizes t ht).1)
      h.chunks.length (Nat.le_refl _)
    rw [hda] at this
    exact this
  set w : Chunk := ⟨s - h.committed - chunk_overhead, true⟩ with hw
  have hlilen : li < h.freeLists.length := by omega
  have hlen2 : (h.chunks ++ [w]).length = h.chunks.length + 1 := by
    rw [List.length_append]
    rfl
  have haddr_lt_c : ∀ t, t < h.chunks.length →
      chunkAddr h.chunks t < h.committed := by
    intro t ht
    have h1 : chunkAddr h.chunks (t + 1) =
        chunkAddr h.chunks t + ((getC h t).size + chunk_overhead) :=
      chunkAddr_succ h.chunks t ht
    have h2 := chunkAddr_mono h.chunks (t + 1) h.chunks.length (by omega)
      (Nat.le_refl _)
    have h3 := (hsizes t ht).2
    rw [htile] at h2
    rw [hco] at h1
    rw [hda] at h3
    omega
  have hc_not_old : ∀ t, t < h.chunks.length →
      chunkAddr h.chunks t ≠ h.committed := by
    intro t ht
    exact Nat.ne_of_lt (haddr_lt_c t ht)
  have hfls_c : listedCount h.freeLists h.committed = 0 := by
    by_contra hnz
    obtain ⟨j2, hj2, hmem2⟩ := exists_mem_of_listedCount_pos h.freeLists _ hnz
    obtain ⟨t, ht, htaddr, _⟩ := hlisted j2 (by omega) _ hmem2
    exact hc_not_old t (List.mem_range.mp ht) htaddr
  have hpush : ∀ b, listedCount
      (h.freeLists.set li (h.committed :: flGet h.freeLists li)) b =
      listedCount h.freeLists b + if b = h.committed then 1 else 0 := by
    intro b
    exact listedCount_push h.freeLists li b h.committed hlilen
  refine ⟨?_, ?_, ?_, ?_, ?_, ?_⟩
  · show (h.freeLists.set li _).length = n_free_list
    simpa using hlen
  · show chunkAddr (h.chunks ++ [w]) (h.chunks ++ [w]).length = s
    rw [hlen2, chunkAddr_succ (h.chunks ++ [w]) h.chunks.length (by omega),
      chunkAddr_append_le h.chunks w _ (Nat.le_refl _), htile,
      getD_append_self h.chunks w, hw]
    show h.committed + (s - h.committed - chunk_overhead + chunk_overhead) = s
    rw [hco]
    omega
  · intro k hk
    rw [show (Heap.mk s (h.chunks ++ [w]) _ l : Heap).chunks =
      h.chunks ++ [w] from rfl, hlen2] at hk
    show ((h.chunks ++ [w]).getD k ⟨0, false⟩).size % data_align = 0 ∧
      data_align ≤ ((h.chunks ++ [w]).getD k ⟨0, false⟩).size
    by_cases hkL : k = h.chunks.length
    · rw [hkL, getD_append_self h.chunks w, hw]
      show (s - h.committed - chunk_overhead) % data_align = 0 ∧
        data_align ≤ s - h.committed - chunk_overhead
      rw [hda, hco]
      omega
    · rw [getD_append_lt h.chunks w k (by omega)]
      exact hsizes k (by omega)
  · intro k hk hk1 hfk
    rw [show (Heap.mk s (h.chunks ++ [w]) _ l : Heap).chunks =
      h.chunks ++ [w] from rfl, hlen2] at hk hk1
    show ((h.chunks ++ [w]).getD (k + 1) ⟨0, false⟩).free = false
    rw [show getC (Heap.mk s (h.chunks ++ [w]) _ l) k =
      (h.chunks ++ [w]).getD k ⟨0, false⟩ from rfl] at hfk
    by_cases hk1L : k + 1 = h.chunks.length
    · exfalso
      rw [getD_append_lt h.chunks w k (by omega)] at hfk
      rcases htail with hnil | hlast
      · rw [hnil] at hk1L
        exact absurd hk1L (by simp)
      · rw [show k = h.chunks.length - 1 by omega] at hfk
        have hfk2 : (getC h (h.chunks.length - 1)).free = true := hfk
        rw [hlast] at hfk2
        exact Bool.noConfusion hfk2
    · rw [getD_append_lt h.chunks w (k + 1) (by omega)]
      rw [getD_append_lt h.chunks w k (by omega)] at hfk
      exact hadj k (by omega) (by omega) hfk
  · intro k hk hfk
    rw [show (Heap.mk s (h.chunks ++ [w]) _ l : Heap).chunks =
      h.chunks ++ [w] from rfl, hlen2] at hk
    rw [show getC (Heap.mk s (h.chunks ++ [w]) _ l) k =
      (h.chunks ++ [w]).getD k ⟨0, false⟩ from rfl] at hfk
    show listedCount _ (chunkAddr (h.chunks ++ [w]) k) = 1
    by_cases hkL : k = h.chunks.length
    · rw [hkL, chunkAddr_append_le h.chunks w _ (Nat.le_refl _), htile, hpush,
        if_pos rfl, hfls_c]
    · rw [getD_append_lt h.chunks w k (by omega)] at hfk
      rw [chunkAddr_append_le h.chunks w k (by omega), hpush,
        if_neg (hc_not_old k (by omega)), hcount k (by omega) hfk]
  · intro j' hj' b hbmem
    by_cases hbc : b = h.committed
    · refine ⟨h.chunks.length, ?_, ?_, ?_⟩
      · rw [List.mem_range,
          show (Heap.mk s (h.chunks ++ [w]) _ l : Heap).chunks =
            h.chunks ++ [w] from rfl, hlen2]
        omega
      · rw [show (Heap.mk s (h.chunks ++ [w]) _ l : Heap).chunks =
          h.chunks ++ [w] from rfl,
          chunkAddr_append_le h.chunks w _ (Nat.le_refl _), htile, hbc]
      · rw [show getC (Heap.mk s (h.chunks ++ [w]) _ l) h.chunks.length =
          (h.chunks ++ [w]).getD h.chunks.length ⟨0, false⟩ from rfl,
          getD_append_self h.chunks w, hw]
    · have hbold : b ∈ flGet h.freeLists j' := by
        by_cases hjli : j' = li
        · rw [show flGet (Heap.mk s (h.chunks ++ [w])
            (h.freeLists.set li (h.committed :: flGet h.freeLists li)) l :
              Heap).freeLists j' = flGet (h.freeLists.set li
              (h.committed :: flGet h.freeLists li)) j' from rfl, hjli,
            flGet_set_self h.freeLists li _ hlilen] at hbmem
          cases hbmem with
          | head => exact absurd rfl hbc
          | tail _ hmem => exact hjli ▸ hmem
        · rw [show flGet (Heap.mk s (h.chunks ++ [w])
            (h.freeLists.set li (h.committed :: flGet h.freeLists li)) l :
              Heap).freeLists j' = flGet (h.freeLists.set li
              (h.committed :: flGet h.freeLists li)) j' from rfl,
            flGet_set_ne h.freeLists li j' _ hjli] at hbmem
          exact hbmem
      obtain ⟨t, ht, htaddr, htfree⟩ := hlisted j' hj' b hbold
      have htlen : t < h.chunks.length := List.mem_range.mp ht
      refine ⟨t, ?_, ?_, ?_⟩
      · rw [List.mem_range,
          show (Heap.mk s (h.chunks ++ [w]) _ l : Heap).chunks =
            h.chunks ++ [w] from rfl, hlen2]
        omega
      · rw [show (Heap.mk s (h.chunks ++ [w]) _ l : Heap).chunks =
          h.chunks ++ [w] from rfl, chunkAddr_append_le h.chunks w t (by omega)]
        exact htaddr
      · rw [show getC (Heap.mk s (h.chunks ++ [w]) _ l) t =
          (h.chunks ++ [w]).getD t ⟨0, false⟩ from rfl,
          getD_append_lt h.chunks w t htlen]
        exact htfree

/-- Merging the extension span into a free tail chunk (the `extend` case
where the old last chunk is free: it is removed from its list, widened
by the new span, and re-inserted) preserves the arena invariant, with
the committed size grown to `s`. -/
theorem Inv_extend_merge (h : Heap) (l li jb s : Nat) (hInv : Inv h)
    (hL1 : 1 ≤ h.chunks.length)
    (hcs : h.committed ≤ s) (hsal : s % data_align = 0)
    (hd48 : min_chunk_size ≤ s - h.committed)
    (htfree : (getC h (h.chunks.length - 1)).free = true)
    (hfl : findList h.freeLists
      (chunkAddr h.chunks (h.chunks.length - 1)) = some jb)
    (hli : li < n_free_list) :
    Inv (Heap.mk s
      (h.chunks.take (h.chunks.length - 1) ++
        [⟨(getC h (h.chunks.length - 1)).size + (s - h.committed), true⟩])
      ((h.freeLists.set jb ((flGet h.freeLists jb).erase
          (chunkAddr h.chunks (h.chunks.length - 1)))).set li
        (chunkAddr h.chunks (h.chunks.length - 1) ::
          flGet (h.freeLists.set jb ((flGet h.freeLists jb).erase
            (chunkAddr h.chunks (h.chunks.length - 1)))) li))
      l) := by
  obtain ⟨hlen, htile, hsizes, hadj, hcount, hlisted⟩ := hInv
  obtain ⟨hjlt, hjmem⟩ := findList_some_elim _ _ _ hfl
  have hjlen : jb < h.freeLists.length := by omega
  have hmin48 : min_chunk_size = 48 := by decide
  have hda : data_align = 16 := rfl
  have hco : chunk_overhead = 32 := rfl
  rw [hmin48] at hd48
  rw [hda] at hsal
  have hcal : h.committed % 16 = 0 := by
    rw [← htile]
    have := chunkAddr_align h.chunks (fun t ht => (hsizes t ht).1)
      h.chunks.length (Nat.le_refl _)
    rw [hda] at this
    exact this
  set K := h.chunks.length - 1 with hK
  have hKlt : K < h.chunks.length := by omega
  have hcnt1 : listedCount h.freeLists (chunkAddr h.chunks K) = 1 :=
    hcount K hKlt htfree
  obtain ⟨hcj, hnotin⟩ := listed_unique h.freeLists (chunkAddr h.chunks K) jb
    hcnt1 hjlen hjmem
  have hszKal := (hsizes K hKlt).1
  have hszK16 := (hsizes K hKlt).2
  rw [hda] at hszKal hszK16
  set x : Chunk := ⟨(getC h K).size + (s - h.committed), true⟩ with hx
  set fl1 := h.freeLists.set jb
    ((flGet h.freeLists jb).erase (chunkAddr h.chunks K)) with hfl1
  set FL := fl1.set li (chunkAddr h.chunks K :: flGet fl1 li) with hFL
  have hlilen : li < fl1.length := by
    rw [hfl1, List.length_set, hlen]
    omega
  have hsuccK : chunkAddr h.chunks (K + 1) =
      chunkAddr h.chunks K + ((getC h K).size + chunk_overhead) :=
    chunkAddr_succ h.chunks K hKlt
  have hK1L : K + 1 = h.chunks.length := by omega
  have haddrK1 : chunkAddr h.chunks K + ((getC h K).size + chunk_overhead) =
      h.committed := by
    rw [← hsuccK, hK1L, htile]
  rw [hco] at haddrK1
  have hlen2 : (h.chunks.take K ++ [x]).length = K + 1 := by
    rw [List.length_append, List.length_take]
    simp
    omega
  have hget_lt : ∀ k, k < K →
      (h.chunks.take K ++ [x]).getD k ⟨0, false⟩ = getC h k := by
    intro k hk
    rw [List.getD_eq_getElem?_getD,
      List.getElem?_append_left (by rw [List.length_take]; omega),
      List.getElem?_take, if_pos hk, getC_eq_getElem?]
  have hget_K : (h.chunks.take K ++ [x]).getD K ⟨0, false⟩ = x := by
    rw [List.getD_eq_getElem?_getD,
      List.getElem?_append_right (by rw [List.length_take]; omega),
      List.length_take, Nat.min_eq_left (by omega), Nat.sub_self]
    rfl
  have haddr_le : ∀ k, k ≤ K →
      chunkAddr (h.chunks.take K ++ [x]) k = chunkAddr h.chunks k := by
    intro k hk
    rw [chunkAddr, chunkAddr,
      List.take_append_of_le_length (by rw [List.length_take]; omega),
      List.take_take, Nat.min_eq_left hk]
  have haddr_ne_K : ∀ k, k < h.chunks.length → k ≠ K →
      chunkAddr h.chunks k ≠ chunkAddr h.chunks K := by
    intro k hk hki heq
    exact hki (chunkAddr_inj h.chunks k K (by omega) (by omega) heq)
  have hpush : ∀ b, listedCount FL b =
      listedCount fl1 b + if b = chunkAddr h.chunks K then 1 else 0 := by
    intro b
    rw [hFL]
    exact listedCount_push fl1 li b _ hlilen
  refine ⟨?_, ?_, ?_, ?_, ?_, ?_⟩
  · show FL.length = n_free_list
    rw [hFL, hfl1]
    simpa using hlen
  · show chunkAddr (h.chunks.take K ++ [x]) (h.chunks.take K ++ [x]).length = s
    rw [hlen2, chunkAddr_succ (h.chunks.take K ++ [x]) K (by omega),
      haddr_le K (Nat.le_refl _), hget_K, hx]
    show chunkAddr h.chunks K +
      ((getC h K).size + (s - h.committed) + chunk_overhead) = s
    rw [hco]
    omega
  · intro k hk
    rw [show (Heap.mk s (h.chunks.take K ++ [x]) FL l : Heap).chunks =
      h.chunks.take K ++ [x] from rfl, hlen2] at hk
    show ((h.chunks.take K ++ [x]).getD k ⟨0, false⟩).size % data_align = 0 ∧
      data_align ≤ ((h.chunks.take K ++ [x]).getD k ⟨0, false⟩).size
    by_cases hkK : k = K
    · rw [hkK, hget_K, hx]
      show ((getC h K).size + (s - h.committed)) % data_align = 0 ∧
        data_align ≤ (getC h K).size + (s - h.committed)
      rw [hda]
      omega
    · rw [hget_lt k (by omega)]
      exact hsizes k (by omega)
  · intro k hk hk1 hfk
    rw [show (Heap.mk s (h.chunks.take K ++ [x]) FL l : Heap).chunks =
      h.chunks.take K ++ [x] from rfl, hlen2] at hk hk1
    rw [show getC (Heap.mk s (h.chunks.take K ++ [x]) FL l) k =
      (h.chunks.take K ++ [x]).getD k ⟨0, false⟩ from rfl] at hfk
    show ((h.chunks.take K ++ [x]).getD (k + 1) ⟨0, false⟩).free = false
    by_cases hk1K : k + 1 = K
    · exfalso
      rw [hget_lt k (by omega)] at hfk
      have h2 := hadj k (by omega) (by omega) hfk
      rw [hk1K] at h2
      rw [h2] at htfree
      exact Bool.noConfusion htfree
    · rw [hget_lt (k + 1) (by omega)]
      rw [hget_lt k (by omega)] at hfk
      exact hadj k (by omega) (by omega) hfk
  · intro k hk hfk
    rw [show (Heap.mk s (h.chunks.take K ++ [x]) FL l : Heap).chunks =
      h.chunks.take K ++ [x] from rfl, hlen2] at hk
    rw [show getC (Heap.mk s (h.chunks.take K ++ [x]) FL l) k =
      (h.chunks.take K ++ [x]).getD k ⟨0, false⟩ from rfl] at hfk
    show listedCount FL (chunkAddr (h.chunks.take K ++ [x]) k) = 1
    by_cases hkK : k = K
    · rw [hkK, haddr_le K (Nat.le_refl _), hpush, if_pos rfl, hfl1,
        listedCount_erase_self h.freeLists jb _ hjlen hjmem, hcnt1]
    · rw [hget_lt k (by omega)] at hfk
      rw [haddr_le k (by omega), hpush,
        if_neg (haddr_ne_K k (by omega) hkK), hfl1,
        listedCount_erase_ne h.freeLists jb _ _ hjlen
          (haddr_ne_K k (by omega) hkK),
        hcount k (by omega) hfk]
  · intro j' hj' b hbmem
    by_cases hbK : b = chunkAddr h.chunks K
    · refine ⟨K, ?_, ?_, ?_⟩
      · rw [List.mem_range,
          show (Heap.mk s (h.chunks.take K ++ [x]) FL l : Heap).chunks =
            h.chunks.take K ++ [x] from rfl, hlen2]
        omega
      · rw [show (Heap.mk s (h.chunks.take K ++ [x]) FL l : Heap).chunks =
          h.chunks.take K ++ [x] from rfl, haddr_le K (Nat.le_refl _), hbK]
      · rw [show getC (Heap.mk s (h.chunks.take K ++ [x]) FL l) K =
          (h.chunks.take K ++ [x]).getD K ⟨0, false⟩ from rfl, hget_K, hx]
    · have hbfl1 : b ∈ flGet fl1 j' := by
        by_cases hjli : j' = li
        · rw [show flGet (Heap.mk s (h.chunks.take K ++ [x]) FL l :
            Heap).freeLists j' = flGet FL j' from rfl, hjli, hFL,
            flGet_set_self fl1 li _ hlilen] at hbmem
          cases hbmem with
          | head => exact absurd rfl hbK
          | tail _ hmem => exact hjli ▸ hmem
        · rw [show flGet (Heap.mk s (h.chunks.take K ++ [x]) FL l :
            Heap).freeLists j' = flGet FL j' from rfl, hFL,
            flGet_set_ne fl1 li j' _ hjli] at hbmem
          exact hbmem
      have hbold : b ∈ flGet h.freeLists j' := by
        by_cases hjj : j' = jb
        · rw [hjj, hfl1, flGet_set_self h.freeLists jb _ hjlen] at hbfl1
          exact hjj ▸ List.mem_of_mem_erase hbfl1
        · rw [hfl1, flGet_set_ne h.freeLists jb j' _ hjj] at hbfl1
          exact hbfl1
      obtain ⟨t, ht, htaddr, htfree2⟩ := hlisted j' hj' b hbold
      have htlen : t < h.chunks.length := List.mem_range.mp ht
      have htK : t ≠ K := by
        intro hteq
        rw [hteq] at htaddr
        exact hbK htaddr.symm
      refine ⟨t, ?_, ?_, ?_⟩
      · rw [List.mem_range,
          show (Heap.mk s (h.chunks.take K ++ [x]) FL l : Heap).chunks =
            h.chunks.take K ++ [x] from rfl, hlen2]
        omega
      · rw [show (Heap.mk s (h.chunks.take K ++ [x]) FL l : Heap).chunks =
          h.chunks.take K ++ [x] from rfl, haddr_le t (by omega)]
        exact htaddr
      · rw [show getC (Heap.mk s (h.chunks.take K ++ [x]) FL l) t =
          (h.chunks.take K ++ [x]).getD t ⟨0, false⟩ from rfl,
          hget_lt t (by omega)]
        exact htfree2

/-- The start offset of an allocated chunk appears in no free list. -/
theorem listedCount_zero_of_alloc (h : Heap) (i : Nat) (hInv : Inv h)
    (hilen : i < h.chunks.length) (halloc : (getC h i).free = false) :
    listedCount h.freeLists (chunkAddr h.chunks i) = 0 := by
  obtain ⟨hlen, _, _, _, _, hlisted⟩ := hInv
  by_contra hnz
  obtain ⟨j2, hj2, hmem2⟩ := exists_mem_of_listedCount_pos h.freeLists _ hnz
  obtain ⟨t, ht, htaddr, htfree⟩ := hlisted j2 (by omega) _ hmem2
  have htlen : t < h.chunks.length := List.mem_range.mp ht
  have : t = i := chunkAddr_inj h.chunks t i (by omega) (by omega) htaddr
  rw [this, halloc] at htfree
  exact Bool.noConfusion htfree

/-- Freeing chunk `i` when neither neighbor is free (the plain-insert
case of `chunk::deallocate`: footer restored, chunk pushed on a list)
preserves the arena invariant. -/
theorem Inv_dealloc_nn (h : Heap) (l li i : Nat) (hInv : Inv h)
    (hilen : i < h.chunks.length) (halloc : (getC h i).free = false)
    (hbefore : i = 0 ∨ (getC h (i - 1)).free = false)
    (hafter : i + 1 = h.chunks.length ∨ (getC h (i + 1)).free = false)
    (hli : li < n_free_list) :
    Inv (Heap.mk h.committed (h.chunks.set i ⟨(getC h i).size, true⟩)
      (h.freeLists.set li (chunkAddr h.chunks i :: flGet h.freeLists li))
      l) := by
  have hzero := listedCount_zero_of_alloc h i hInv hilen halloc
  obtain ⟨hlen, htile, hsizes, hadj, hcount, hlisted⟩ := hInv
  have hlilen : li < h.freeLists.length := by omega
  set CS := h.chunks.set i (⟨(getC h i).size, true⟩ : Chunk) with hCS
  set FL := h.freeLists.set li
    (chunkAddr h.chunks i :: flGet h.freeLists li) with hFL
  have hg : ∀ k, getC (Heap.mk h.committed CS FL l) k = CS.getD k ⟨0, false⟩ :=
    fun _ => rfl
  have hflen : ∀ k, chunkAddr CS k = chunkAddr h.chunks k := by
    intro k
    rw [hCS]
    exact chunkAddr_set_full h.chunks i _ k (fun _ => rfl)
  have hlen2 : CS.length = h.chunks.length := by
    rw [hCS]
    exact List.length_set h.chunks ..
  have hgetne : ∀ k, k ≠ i → CS.getD k ⟨0, false⟩ = getC h k := by
    intro k hk
    rw [hCS]
    exact getD_set_ne h.chunks i k _ hk
  have hgeti : CS.getD i ⟨0, false⟩ = ⟨(getC h i).size, true⟩ := by
    rw [hCS]
    exact getD_set_self h.chunks i _ hilen
  have haddr_ne : ∀ k, k < h.chunks.length → k ≠ i →
      chunkAddr h.chunks k ≠ chunkAddr h.chunks i := by
    intro k hk hki heq
    exact hki (chunkAddr_inj h.chunks k i (by omega) (by omega) heq)
  have hpush : ∀ b, listedCount FL b =
      listedCount h.freeLists b + if b = chunkAddr h.chunks i then 1 else 0 := by
    intro b
    rw [hFL]
    exact listedCount_push h.freeLists li b _ hlilen
  refine ⟨by rw [hFL]; simpa using hlen, ?_, ?_, ?_, ?_, ?_⟩
  · show chunkAddr CS CS.length = h.committed
    rw [hlen2, hflen]
    exact htile
  · intro k hk
    rw [show (Heap.mk h.committed CS FL l : Heap).chunks = CS from rfl,
      hlen2] at hk
    rw [hg k]
    by_cases hki : k = i
    · rw [hki, hgeti]
      exact hsizes i hilen
    · rw [hgetne k hki]
      exact hsizes k (by omega)
  · intro k hk hk1 hfk
    rw [show (Heap.mk h.committed CS FL l : Heap).chunks = CS from rfl,
      hlen2] at hk hk1
    rw [hg] at hfk ⊢
    by_cases hk1i : k + 1 = i
    · exfalso
      rw [hgetne k (by omega)] at hfk
      rcases hbefore with h0 | hbf
      · omega
      · rw [show k = i - 1 by omega, hbf] at hfk
        exact Bool.noConfusion hfk
    · rw [hgetne (k + 1) hk1i]
      by_cases hki : k = i
      · rcases hafter with hL | haf
        · omega
        · rw [show k + 1 = i + 1 by omega]
          exact haf
      · rw [hgetne k hki] at hfk
        exact hadj k hk hk1 hfk
  · intro k hk hfk
    rw [show (Heap.mk h.committed CS FL l : Heap).chunks = CS from rfl,
      hlen2] at hk
    rw [hg] at hfk
    show listedCount FL (chunkAddr CS k) = 1
    by_cases hki : k = i
    · rw [hki, hflen, hpush, if_pos rfl, hzero]
    · rw [hgetne k hki] at hfk
      rw [hflen, hpush, if_neg (haddr_ne k hk hki), hcount k hk hfk]
  · intro j' hj' b hbmem
    by_cases hba : b = chunkAddr h.chunks i
    · refine ⟨i, ?_, ?_, ?_⟩
      · rw [List.mem_range,
          show (Heap.mk h.committed CS FL l : Heap).chunks = CS from rfl, hlen2]
        exact hilen
      · rw [show (Heap.mk h.committed CS FL l : Heap).chunks = CS from rfl,
          hflen, hba]
      · rw [hg, hgeti]
    · have hbold : b ∈ flGet h.freeLists j' := by
        by_cases hjli : j' = li
        · rw [show flGet (Heap.mk h.committed CS FL l : Heap).freeLists j' =
            flGet FL j' from rfl, hjli, hFL,
            flGet_set_self h.freeLists li _ hlilen] at hbmem
          cases hbmem with
          | head => exact absurd rfl hba
          | tail _ hmem => exact hjli ▸ hmem
        · rw [show flGet (Heap.mk h.committed CS FL l : Heap).freeLists j' =
            flGet FL j' from rfl, hFL,
            flGet_set_ne h.freeLists li j' _ hjli] at hbmem
          exact hbmem
      obtain ⟨t, ht, htaddr, htfree⟩ := hlisted j' hj' b hbold
      have htlen : t < h.chunks.length := List.mem_range.mp ht
      have hti : t ≠ i := by
        intro hti
        rw [hti] at htaddr
        exact hba htaddr.symm
      refine ⟨t, ?_, ?_, ?_⟩
      · rw [List.mem_range,
          show (Heap.mk h.committed CS FL l : Heap).chunks = CS from rfl, hlen2]
        exact htlen
      · rw [show (Heap.mk h.committed CS FL l : Heap).chunks = CS from rfl,
          hflen]
        exact htaddr
      · rw [hg, hgetne t hti]
        exact htfree

/-- Freeing chunk `i` when only the `before` neighbor `i - 1` is free
(coalesce merges the two spans into one free chunk in place of both)
preserves the arena invariant. -/
theorem Inv_dealloc_left (h : Heap) (l li jb i : Nat) (hInv : Inv h)
    (h1i : 1 ≤ i) (hilen : i < h.chunks.length)
    (halloc : (getC h i).free = false)
    (hbfree : (getC h (i - 1)).free = true)
    (hfl : findList h.freeLists (chunkAddr h.chunks (i - 1)) = some jb)
    (hafter : i + 1 = h.chunks.length ∨ (getC h (i + 1)).free = false)
    (hli : li < n_free_list) :
    Inv (Heap.mk h.committed
      (h.chunks.take (i - 1) ++
        (⟨(getC h i).size + (getC h (i - 1)).size + chunk_overhead, true⟩ : Chunk) ::
        h.chunks.drop (i + 1))
      ((h.freeLists.set jb ((flGet h.freeLists jb).erase
          (chunkAddr h.chunks (i - 1)))).set li
        (chunkAddr h.chunks (i - 1) ::
          flGet (h.freeLists.set jb ((flGet h.freeLists jb).erase
            (chunkAddr h.chunks (i - 1)))) li))
      l) := by
  obtain ⟨hlen, htile, hsizes, hadj, hcount, hlisted⟩ := hInv
  obtain ⟨hjlt, hjmem⟩ := findList_some_elim _ _ _ hfl
  have hjlen : jb < h.freeLists.length := by omega
  have hda : data_align = 16 := rfl
  have hco : chunk_overhead = 32 := rfl
  have hcnt1 : listedCount h.freeLists (chunkAddr h.chunks (i - 1)) = 1 :=
    hcount (i - 1) (by omega) hbfree
  obtain ⟨hcj, hnotin⟩ := listed_unique h.freeLists (chunkAddr h.chunks (i - 1))
    jb hcnt1 hjlen hjmem
  have hszal_i := (hsizes i hilen).1
  have hsz16_i := (hsizes i hilen).2
  have hszal_b := (hsizes (i - 1) (by omega)).1
  have hsz16_b := (hsizes (i - 1) (by omega)).2
  rw [hda] at hszal_i hsz16_i hszal_b hsz16_b
  set x : Chunk := ⟨(getC h i).size + (getC h (i - 1)).size + chunk_overhead,
    true⟩ with hx
  set CS := h.chunks.take (i - 1) ++ x :: h.chunks.drop (i + 1) with hCS
  set fl1 := h.freeLists.set jb
    ((flGet h.freeLists jb).erase (chunkAddr h.chunks (i - 1))) with hfl1
  set FL := fl1.set li (chunkAddr h.chunks (i - 1) :: flGet fl1 li) with hFL
  have hlilen : li < fl1.length := by
    rw [hfl1, List.length_set, hlen]
    omega
  have hsucc_b : chunkAddr h.chunks (i - 1 + 1) =
      chunkAddr h.chunks (i - 1) + ((getC h (i - 1)).size + chunk_overhead) :=
    chunkAddr_succ h.chunks (i - 1) (by omega)
  have hsucc_i : chunkAddr h.chunks (i + 1) =
      chunkAddr h.chunks i + ((getC h i).size + chunk_overhead) :=
    chunkAddr_succ h.chunks i hilen
  rw [show i - 1 + 1 = i by omega] at hsucc_b
  have hfullx : chunkAddr h.chunks (i - 1) + x.full_size =
      chunkAddr h.chunks (i + 1) := by
    show chunkAddr h.chunks (i - 1) +
      ((getC h i).size + (getC h (i - 1)).size + chunk_overhead +
        chunk_overhead) = _
    omega
  have hg : ∀ k, getC (Heap.mk h.committed CS FL l) k = CS.getD k ⟨0, false⟩ :=
    fun _ => rfl
  have hlen2 : CS.length = h.chunks.length - 1 := by
    rw [hCS, length_splice h.chunks (i - 1) i x (by omega)]
    omega
  have hget_lt : ∀ k, k < i - 1 → CS.getD k ⟨0, false⟩ = getC h k := by
    intro k hk
    rw [hCS, List.getD_eq_getElem?_getD,
      getElem?_splice_lt h.chunks (i - 1) i k x hk (by omega), getC_eq_getElem?]
  have hget_b0 : CS.getD (i - 1) ⟨0, false⟩ = x := by
    rw [hCS, List.getD_eq_getElem?_getD,
      getElem?_splice_self h.chunks (i - 1) i x (by omega)]
    rfl
  have hget_ge : ∀ k, i ≤ k → CS.getD k ⟨0, false⟩ = getC h (k + 1) := by
    intro k hk
    rw [hCS, List.getD_eq_getElem?_getD,
      getElem?_splice_gt h.chunks (i - 1) i k x (by omega) (by omega),
      show i + 1 + (k - (i - 1) - 1) = k + 1 by omega, getC_eq_getElem?]
  have haddr_le : ∀ k, k ≤ i - 1 → chunkAddr CS k = chunkAddr h.chunks k := by
    intro k hk
    rw [hCS]
    exact chunkAddr_splice h.chunks (i - 1) i k x hk (by omega)
  have haddr_ge : ∀ k, i ≤ k → chunkAddr CS k = chunkAddr h.chunks (k + 1) := by
    intro k hk
    rw [hCS, chunkAddr_splice_shift h.chunks (i - 1) i k x (by omega) (by omega)
      (by omega) hfullx, show i + 1 + (k - (i - 1) - 1) = k + 1 by omega]
  have haddr_ne_b : ∀ k, k < h.chunks.length → k ≠ i - 1 →
      chunkAddr h.chunks k ≠ chunkAddr h.chunks (i - 1) := by
    intro k hk hki heq
    exact hki (chunkAddr_inj h.chunks k (i - 1) (by omega) (by omega) heq)
  have hpush : ∀ b, listedCount FL b =
      listedCount fl1 b + if b = chunkAddr h.chunks (i - 1) then 1 else 0 := by
    intro b
    rw [hFL]
    exact listedCount_push fl1 li b _ hlilen
  refine ⟨?_, ?_, ?_, ?_, ?_, ?_⟩
  · show FL.length = n_free_list
    rw [hFL, hfl1]
    simpa using hlen
  · show chunkAddr CS CS.length = h.committed
    rw [hlen2, haddr_ge (h.chunks.length - 1) (by omega),
      show h.chunks.length - 1 + 1 = h.chunks.length by omega]
    exact htile
  · intro k hk
    rw [show (Heap.mk h.committed CS FL l : Heap).chunks = CS from rfl,
      hlen2] at hk
    rw [hg k]
    rcases Nat.lt_trichotomy k (i - 1) with hki | hki | hki
    · rw [hget_lt k hki]
      exact hsizes k (by omega)
    · rw [hki, hget_b0, hx]
      show ((getC h i).size + (getC h (i - 1)).size + chunk_overhead) %
        data_align = 0 ∧
        data_align ≤ (getC h i).size + (getC h (i - 1)).size + chunk_overhead
      rw [hda, hco]
      omega
    · rw [hget_ge k (by omega)]
      exact hsizes (k + 1) (by omega)
  · intro k hk hk1 hfk
    rw [show (Heap.mk h.committed CS FL l : Heap).chunks = CS from rfl,
      hlen2] at hk hk1
    rw [hg] at hfk ⊢
    rcases Nat.lt_trichotomy (k + 1) (i - 1) with hki | hki | hki
    · rw [hget_lt (k + 1) hki]
      rw [hget_lt k (by omega)] at hfk
      exact hadj k (by omega) (by omega) hfk
    · exfalso
      rw [hget_lt k (by omega)] at hfk
      have h2 := hadj k (by omega) (by omega) hfk
      rw [show k + 1 = i - 1 from hki] at h2
      rw [h2] at hbfree
      exact Bool.noConfusion hbfree
    · by_cases hkb : k = i - 1
      · rw [show k + 1 = i from by omega, hget_ge i (Nat.le_refl _)]
        rcases hafter with hL | haf
        · omega
        · exact haf
      · rw [hget_ge (k + 1) (by omega)]
        rw [hget_ge k (by omega)] at hfk
        exact hadj (k + 1) (by omega) (by omega) hfk
  · intro k hk hfk
    rw [show (Heap.mk h.committed CS FL l : Heap).chunks = CS from rfl,
      hlen2] at hk
    rw [hg] at hfk
    show listedCount FL (chunkAddr CS k) = 1
    rcases Nat.lt_trichotomy k (i - 1) with hki | hki | hki
    · rw [hget_lt k hki] at hfk
      rw [haddr_le k (by omega), hpush,
        if_neg (haddr_ne_b k (by omega) (by omega)), hfl1,
        listedCount_erase_ne h.freeLists jb _ _ hjlen
          (haddr_ne_b k (by omega) (by omega)),
        hcount k (by omega) hfk]
    · rw [hki, haddr_le (i - 1) (Nat.le_refl _), hpush, if_pos rfl, hfl1,
        listedCount_erase_self h.freeLists jb _ hjlen hjmem, hcnt1]
    · rw [hget_ge k (by omega)] at hfk
      rw [haddr_ge k (by omega), hpush,
        if_neg (haddr_ne_b (k + 1) (by omega) (by omega)), hfl1,
        listedCount_erase_ne h.freeLists jb _ _ hjlen
          (haddr_ne_b (k + 1) (by omega) (by omega)),
        hcount (k + 1) (by omega) hfk]
  · intro j' hj' b hbmem
    by_cases hbK : b = chunkAddr h.chunks (i - 1)
    · refine ⟨i - 1, ?_, ?_, ?_⟩
      · rw [List.mem_range,
          show (Heap.mk h.committed CS FL l : Heap).chunks = CS from rfl, hlen2]
        omega
      · rw [show (Heap.mk h.committed CS FL l : Heap).chunks = CS from rfl,
          haddr_le (i - 1) (Nat.le_refl _), hbK]
      · rw [hg, hget_b0, hx]
    · have hbfl1 : b ∈ flGet fl1 j' := by
        by_cases hjli : j' = li
        · rw [show flGet (Heap.mk h.committed CS FL l : Heap).freeLists j' =
            flGet FL j' from rfl, hjli, hFL,
            flGet_set_self fl1 li _ hlilen] at hbmem
          cases hbmem with
          | head => exact absurd rfl hbK
          | tail _ hmem => exact hjli ▸ hmem
        · rw [show flGet (Heap.mk h.committed CS FL l : Heap).freeLists j' =
            flGet FL j' from rfl, hFL,
            flGet_set_ne fl1 li j' _ hjli] at hbmem
          exact hbmem
      have hbold : b ∈ flGet h.freeLists j' := by
        by_cases hjj : j' = jb
        · rw [hjj, hfl1, flGet_set_self h.freeLists jb _ hjlen] at hbfl1
          exact hjj ▸ List.mem_of_mem_erase hbfl1
        · rw [hfl1, flGet_set_ne h.freeLists jb j' _ hjj] at hbfl1
          exact hbfl1
      obtain ⟨t, ht, htaddr, htfree⟩ := hlisted j' hj' b hbold
      have htlen : t < h.chunks.length := List.mem_range.mp ht
      have htb : t ≠ i - 1 := by
        intro hteq
        rw [hteq] at htaddr
        exact hbK htaddr.symm
      have hti : t ≠ i := by
        intro hteq
        rw [hteq, halloc] at htfree
        exact Bool.noConfusion htfree
      by_cases htlt : t < i - 1
      · refine ⟨t, ?_, ?_, ?_⟩
        · rw [List.mem_range,
            show (Heap.mk h.committed CS FL l : Heap).chunks = CS from rfl,
            hlen2]
          omega
        · rw [show (Heap.mk h.committed CS FL l : Heap).chunks = CS from rfl,
            haddr_le t (by omega)]
          exact htaddr
        · rw [hg, hget_lt t htlt]
          exact htfree
      · refine ⟨t - 1, ?_, ?_, ?_⟩
        · rw [List.mem_range,
            show (Heap.mk h.committed CS FL l : Heap).chunks = CS from rfl,
            hlen2]
          omega
        · rw [show (Heap.mk h.committed CS FL l : Heap).chunks = CS from rfl,
            haddr_ge (t - 1) (by omega), show t - 1 + 1 = t by omega]
          exact htaddr
        · rw [hg, hget_ge (t - 1) (by omega), show t - 1 + 1 = t by omega]
          exact htfree

/-- Freeing chunk `i` when only the `after` neighbor `i + 1` is free
(coalesce merges the two spans into one free chunk in place of both)
preserves the arena invariant. -/
theorem Inv_dealloc_right (h : Heap) (l li ja i : Nat) (hInv : Inv h)
    (hi1len : i + 1 < h.chunks.length)
    (halloc : (getC h i).free = false)
    (hafree : (getC h (i + 1)).free = true)
    (hfl : findList h.freeLists (chunkAddr h.chunks (i + 1)) = some ja)
    (hbefore : i = 0 ∨ (getC h (i - 1)).free = false)
    (hli : li < n_free_list) :
    Inv (Heap.mk h.committed
      (h.chunks.take i ++
        (⟨(getC h i).size + (getC h (i + 1)).size + chunk_overhead, true⟩ : Chunk) ::
        h.chunks.drop (i + 2))
      ((h.freeLists.set ja ((flGet h.freeLists ja).erase
          (chunkAddr h.chunks (i + 1)))).set li
        (chunkAddr h.chunks i ::
          flGet (h.freeLists.set ja ((flGet h.freeLists ja).erase
            (chunkAddr h.chunks (i + 1)))) li))
      l) := by
  have hzero := listedCount_zero_of_alloc h i hInv (by omega) halloc
  obtain ⟨hlen, htile, hsizes, hadj, hcount, hlisted⟩ := hInv
  obtain ⟨hjlt, hjmem⟩ := findList_some_elim _ _ _ hfl
  have hjlen : ja < h.freeLists.length := by omega
  have hda : data_align = 16 := rfl
  have hco : chunk_overhead = 32 := rfl
  have hcnt1 : listedCount h.freeLists (chunkAddr h.chunks (i + 1)) = 1 :=
    hcount (i + 1) (by omega) hafree
  obtain ⟨hcj, hnotin⟩ := listed_unique h.freeLists (chunkAddr h.chunks (i + 1))
    ja hcnt1 hjlen hjmem
  have hszal_i := (hsizes i (by omega)).1
  have hsz16_i := (hsizes i (by omega)).2
  have hszal_a := (hsizes (i + 1) (by omega)).1
  have hsz16_a := (hsizes (i + 1) (by omega)).2
  rw [hda] at hszal_i hsz16_i hszal_a hsz16_a
  set x : Chunk := ⟨(getC h i).size + (getC h (i + 1)).size + chunk_overhead,
    true⟩ with hx
  set CS := h.chunks.take i ++ x :: h.chunks.drop (i + 2) with hCS
  set fl1 := h.freeLists.set ja
    ((flGet h.freeLists ja).erase (chunkAddr h.chunks (i + 1))) with hfl1
  set FL := fl1.set li (chunkAddr h.chunks i :: flGet fl1 li) with hFL
  have hlilen : li < fl1.length := by
    rw [hfl1, List.length_set, hlen]
    omega
  have hsucc_i : chunkAddr h.chunks (i + 1) =
      chunkAddr h.chunks i + ((getC h i).size + chunk_overhead) :=
    chunkAddr_succ h.chunks i (by omega)
  have hsucc_a : chunkAddr h.chunks (i + 2) =
      chunkAddr h.chunks (i + 1) + ((getC h (i + 1)).size + chunk_overhead) :=
    chunkAddr_succ h.chunks (i + 1) (by omega)
  have hfullx : chunkAddr h.chunks i + x.full_size =
      chunkAddr h.chunks (i + 2) := by
    show chunkAddr h.chunks i +
      ((getC h i).size + (getC h (i + 1)).size + chunk_overhead +
        chunk_overhead) = _
    omega
  have hg : ∀ k, getC (Heap.mk h.committed CS FL l) k = CS.getD k ⟨0, false⟩ :=
    fun _ => rfl
  have hlen2 : CS.length = h.chunks.length - 1 := by
    rw [hCS, length_splice h.chunks i (i + 1) x (by omega)]
    omega
  have hget_lt : ∀ k, k < i → CS.getD k ⟨0, false⟩ = getC h k := by
    intro k hk
    rw [hCS, List.getD_eq_getElem?_getD,
      getElem?_splice_lt h.chunks i (i + 1) k x hk (by omega), getC_eq_getElem?]
  have hget_i : CS.getD i ⟨0, false⟩ = x := by
    rw [hCS, List.getD_eq_getElem?_getD,
      getElem?_splice_self h.chunks i (i + 1) x (by omega)]
    rfl
  have hget_ge : ∀ k, i + 1 ≤ k → CS.getD k ⟨0, false⟩ = getC h (k + 1) := by
    intro k hk
    rw [hCS, List.getD_eq_getElem?_getD,
      getElem?_splice_gt h.chunks i (i + 1) k x (by omega) (by omega),
      show i + 1 + 1 + (k - i - 1) = k + 1 by omega, getC_eq_getElem?]
  have haddr_le : ∀ k, k ≤ i → chunkAddr CS k = chunkAddr h.chunks k := by
    intro k hk
    rw [hCS]
    exact chunkAddr_splice h.chunks i (i + 1) k x hk (by omega)
  have haddr_ge : ∀ k, i + 1 ≤ k →
      chunkAddr CS k = chunkAddr h.chunks (k + 1) := by
    intro k hk
    rw [hCS, chunkAddr_splice_shift h.chunks i (i + 1) k x (by omega) (by omega)
      (by omega) hfullx, show i + 1 + 1 + (k - i - 1) = k + 1 by omega]
  have haddr_ne_a : ∀ k, k < h.chunks.length → k ≠ i + 1 →
      chunkAddr h.chunks k ≠ chunkAddr h.chunks (i + 1) := by
    intro k hk hki heq
    exact hki (chunkAddr_inj h.chunks k (i + 1) (by omega) (by omega) heq)
  have haddr_ne_i : ∀ k, k < h.chunks.length → k ≠ i →
      chunkAddr h.chunks k ≠ chunkAddr h.chunks i := by
    intro k hk hki heq
    exact hki (chunkAddr_inj h.chunks k i (by omega) (by omega) heq)
  have hpush : ∀ b, listedCount FL b =
      listedCount fl1 b + if b = chunkAddr h.chunks i then 1 else 0 := by
    intro b
    rw [hFL]
    exact listedCount_push fl1 li b _ hlilen
  refine ⟨?_, ?_, ?_, ?_, ?_, ?_⟩
  · show FL.length = n_free_list
    rw [hFL, hfl1]
    simpa using hlen
  · show chunkAddr CS CS.length = h.committed
    rw [hlen2, haddr_ge (h.chunks.length - 1) (by omega),
      show h.chunks.length - 1 + 1 = h.chunks.length by omega]
    exact htile
  · intro k hk
    rw [show (Heap.mk h.committed CS FL l : Heap).chunks = CS from rfl,
      hlen2] at hk
    rw [hg k]
    rcases Nat.lt_trichotomy k i with hki | hki | hki
    · rw [hget_lt k hki]
      exact hsizes k (by omega)
    · rw [hki, hget_i, hx]
      show ((getC h i).size + (getC h (i + 1)).size + chunk_overhead) %
        data_align = 0 ∧
        data_align ≤ (getC h i).size + (getC h (i + 1)).size + chunk_overhead
      rw [hda, hco]
      omega
    · rw [hget_ge k (by omega)]
      exact hsizes (k + 1) (by omega)
  · intro k hk hk1 hfk
    rw [show (Heap.mk h.committed CS FL l : Heap).chunks = CS from rfl,
      hlen2] at hk hk1
    rw [hg] at hfk ⊢
    rcases Nat.lt_trichotomy (k + 1) i with hki | hki | hki
    · rw [hget_lt (k + 1) hki]
      rw [hget_lt k (by omega)] at hfk
      exact hadj k (by omega) (by omega) hfk
    · exfalso
      rw [hget_lt k (by omega)] at hfk
      rcases hbefore with h0 | hbf
      · omega
      · rw [show k = i - 1 by omega, hbf] at hfk
        exact Bool.noConfusion hfk
    · by_cases hkb : k = i
      · rw [show k + 1 = i + 1 by omega, hget_ge (i + 1) (Nat.le_refl _)]
        show (getC h (i + 2)).free = false
        exact hadj (i + 1) (by omega) (by omega) hafree
      · rw [hget_ge (k + 1) (by omega)]
        rw [hget_ge k (by omega)] at hfk
        exact hadj (k + 1) (by omega) (by omega) hfk
  · intro k hk hfk
    rw [show (Heap.mk h.committed CS FL l : Heap).chunks = CS from rfl,
      hlen2] at hk
    rw [hg] at hfk
    show listedCount FL (chunkAddr CS k) = 1
    rcases Nat.lt_trichotomy k i with hki | hki | hki
    · rw [hget_lt k hki] at hfk
      rw [haddr_le k (by omega), hpush,
        if_neg (haddr_ne_i k (by omega) (by omega)), hfl1,
        listedCount_erase_ne h.freeLists ja _ _ hjlen
          (haddr_ne_a k (by omega) (by omega)),
        hcount k (by omega) hfk]
    · rw [hki, haddr_le i (Nat.le_refl _), hpush, if_pos rfl, hfl1,
        listedCount_erase_ne h.freeLists ja _ _ hjlen
          (haddr_ne_a i (by omega) (by omega)), hzero]
    · rw [hget_ge k (by omega)] at hfk
      rw [haddr_ge k (by omega), hpush,
        if_neg (haddr_ne_i (k + 1) (by omega) (by omega)), hfl1,
        listedCount_erase_ne h.freeLists ja _ _ hjlen
          (haddr_ne_a (k + 1) (by omega) (by omega)),
        hcount (k + 1) (by omega) hfk]
  · intro j' hj' b hbmem
    by_cases hbK : b = chunkAddr h.chunks i
    · refine ⟨i, ?_, ?_, ?_⟩
      · rw [List.mem_range,
          show (Heap.mk h.committed CS FL l : Heap).chunks = CS from rfl, hlen2]
        omega
      · rw [show (Heap.mk h.committed CS FL l : Heap).chunks = CS from rfl,
          haddr_le i (Nat.le_refl _), hbK]
      · rw [hg, hget_i, hx]
    · have hbfl1 : b ∈ flGet fl1 j' := by
        by_cases hjli : j' = li
        · rw [show flGet (Heap.mk h.committed CS FL l : Heap).freeLists j' =
            flGet FL j' from rfl, hjli, hFL,
            flGet_set_self fl1 li _ hlilen] at hbmem
          cases hbmem with
          | head => exact absurd rfl hbK
          | tail _ hmem => exact hjli ▸ hmem
        · rw [show flGet (Heap.mk h.committed CS FL l : Heap).freeLists j' =
            flGet FL j' from rfl, hFL,
            flGet_set_ne fl1 li j' _ hjli] at hbmem
          exact hbmem
      have hnotmem_a : chunkAddr h.chunks (i + 1) ∉
          (flGet h.freeLists ja).erase (chunkAddr h.chunks (i + 1)) := by
        intro hmm
        have h0 : ((flGet h.freeLists ja).erase
            (chunkAddr h.chunks (i + 1))).count (chunkAddr h.chunks (i + 1)) =
            (flGet h.freeLists ja).count (chunkAddr h.chunks (i + 1)) - 1 :=
          List.count_erase_self _ _
        have hp : 0 < ((flGet h.freeLists ja).erase
            (chunkAddr h.chunks (i + 1))).count (chunkAddr h.chunks (i + 1)) :=
          List.count_pos_iff.mpr hmm
        omega
      have hbold : b ∈ flGet h.freeLists j' ∧
          b ≠ chunkAddr h.chunks (i + 1) := by
        by_cases hjj : j' = ja
        · rw [hjj, hfl1, flGet_set_self h.freeLists ja _ hjlen] at hbfl1
          exact ⟨hjj ▸ List.mem_of_mem_erase hbfl1,
            fun hba => hnotmem_a (hba ▸ hbfl1)⟩
        · rw [hfl1, flGet_set_ne h.freeLists ja j' _ hjj] at hbfl1
          refine ⟨hbfl1, ?_⟩
          intro hba
          exact hnotin j' (by omega) hjj (hba ▸ hbfl1)
      obtain ⟨t, ht, htaddr, htfree⟩ := hlisted j' hj' b hbold.1
      have htlen : t < h.chunks.length := List.mem_range.mp ht
      have hta : t ≠ i + 1 := by
        intro hteq
        rw [hteq] at htaddr
        exact hbold.2 htaddr.symm
      have hti : t ≠ i := by
        intro hteq
        rw [hteq, halloc] at htfree
        exact Bool.noConfusion htfree
      by_cases htlt : t < i
      · refine ⟨t, ?_, ?_, ?_⟩
        · rw [List.mem_range,
            show (Heap.mk h.committed CS FL l : Heap).chunks = CS from rfl,
            hlen2]
          omega
        · rw [show (Heap.mk h.committed CS FL l : Heap).chunks = CS from rfl,
            haddr_le t (by omega)]
          exact htaddr
        · rw [hg, hget_lt t htlt]
          exact htfree
      · refine ⟨t - 1, ?_, ?_, ?_⟩
        · rw [List.mem_range,
            show (Heap.mk h.committed CS FL l : Heap).chunks = CS from rfl,
            hlen2]
          omega
        · rw [show (Heap.mk h.committed CS FL l : Heap).chunks = CS from rfl,
            haddr_ge (t - 1) (by omega), show t - 1 + 1 = t by omega]
          exact htaddr
        · rw [hg, hget_ge (t - 1) (by omega), show t - 1 + 1 = t by omega]
          exact htfree

/-- Freeing chunk `i` when both neighbors are free (coalesce merges the
three spans into one free chunk) preserves the arena invariant. -/
theorem Inv_dealloc_both (h : Heap) (l li jb ja i : Nat) (hInv : Inv h)
    (h1i : 1 ≤ i) (hi1len : i + 1 < h.chunks.length)
    (halloc : (getC h i).free = false)
    (hbfree : (getC h (i - 1)).free = true)
    (hafree : (getC h (i + 1)).free = true)
    (hflb : findList h.freeLists (chunkAddr h.chunks (i - 1)) = some jb)
    (hfla : findList (h.freeLists.set jb ((flGet h.freeLists jb).erase
      (chunkAddr h.chunks (i - 1)))) (chunkAddr h.chunks (i + 1)) = some ja)
    (hli : li < n_free_list) :
    Inv (Heap.mk h.committed
      (h.chunks.take (i - 1) ++
        (⟨(getC h i).size + (getC h (i - 1)).size + (getC h (i + 1)).size +
          chunk_overhead + chunk_overhead, true⟩ : Chunk) ::
        h.chunks.drop (i + 2))
      (((h.freeLists.set jb ((flGet h.freeLists jb).erase
          (chunkAddr h.chunks (i - 1)))).set ja
          ((flGet (h.freeLists.set jb ((flGet h.freeLists jb).erase
            (chunkAddr h.chunks (i - 1)))) ja).erase
            (chunkAddr h.chunks (i + 1)))).set li
        (chunkAddr h.chunks (i - 1) ::
          flGet ((h.freeLists.set jb ((flGet h.freeLists jb).erase
            (chunkAddr h.chunks (i - 1)))).set ja
            ((flGet (h.freeLists.set jb ((flGet h.freeLists jb).erase
              (chunkAddr h.chunks (i - 1)))) ja).erase
              (chunkAddr h.chunks (i + 1)))) li))
      l) := by
  obtain ⟨hlen, htile, hsizes, hadj, hcount, hlisted⟩ := hInv
  obtain ⟨hjblt, hjbmem⟩ := findList_some_elim _ _ _ hflb
  have hjblen : jb < h.freeLists.length := by omega
  have hda : data_align = 16 := rfl
  have hco : chunk_overhead = 32 := rfl
  have hcntb : listedCount h.freeLists (chunkAddr h.chunks (i - 1)) = 1 :=
    hcount (i - 1) (by omega) hbfree
  have hcnta : listedCount h.freeLists (chunkAddr h.chunks (i + 1)) = 1 :=
    hcount (i + 1) (by omega) hafree
  obtain ⟨hcjb, hnotinb⟩ := listed_unique h.freeLists
    (chunkAddr h.chunks (i - 1)) jb hcntb hjblen hjbmem
  have haddr_ne_ba : chunkAddr h.chunks (i + 1) ≠ chunkAddr h.chunks (i - 1) := by
    intro heq
    have := chunkAddr_inj h.chunks (i + 1) (i - 1) (by omega) (by omega) heq
    omega
  set fl1 := h.freeLists.set jb
    ((flGet h.freeLists jb).erase (chunkAddr h.chunks (i - 1))) with hfl1
  obtain ⟨hjalt, hjamem⟩ := findList_some_elim _ _ _ hfla
  have hjalen : ja < fl1.length := by
    rw [hfl1, List.length_set, hlen]
    omega
  have hcnta1 : listedCount fl1 (chunkAddr h.chunks (i + 1)) = 1 := by
    rw [hfl1, listedCount_erase_ne h.freeLists jb _ _ hjblen haddr_ne_ba]
    exact hcnta
  obtain ⟨hcja, hnotina⟩ := listed_unique fl1 (chunkAddr h.chunks (i + 1)) ja
    hcnta1 hjalen hjamem
  have hszal_i := (hsizes i (by omega)).1
  have hsz16_i := (hsizes i (by omega)).2
  have hszal_b := (hsizes (i - 1) (by omega)).1
  have hsz16_b := (hsizes (i - 1) (by omega)).2
  have hszal_a := (hsizes (i + 1) (by omega)).1
  have hsz16_a := (hsizes (i + 1) (by omega)).2
  rw [hda] at hszal_i hsz16_i hszal_b hsz16_b hszal_a hsz16_a
  set x : Chunk := ⟨(getC h i).size + (getC h (i - 1)).size +
    (getC h (i + 1)).size + chunk_overhead + chunk_overhead, true⟩ with hx
  set CS := h.chunks.take (i - 1) ++ x :: h.chunks.drop (i + 2) with hCS
  set fl2 := fl1.set ja
    ((flGet fl1 ja).erase (chunkAddr h.chunks (i + 1))) with hfl2
  set FL := fl2.set li (chunkAddr h.chunks (i - 1) :: flGet fl2 li) with hFL
  have hlilen : li < fl2.length := by
    rw [hfl2, List.length_set, hfl1, List.length_set, hlen]
    omega
  have hsucc_b : chunkAddr h.chunks i =
      chunkAddr h.chunks (i - 1) + ((getC h (i - 1)).size + chunk_overhead) := by
    have := chunkAddr_succ h.chunks (i - 1) (by omega)
    rw [show i - 1 + 1 = i by omega] at this
    exact this
  have hsucc_i : chunkAddr h.chunks (i + 1) =
      chunkAddr h.chunks i + ((getC h i).size + chunk_overhead) :=
    chunkAddr_succ h.chunks i (by omega)
  have hsucc_a : chunkAddr h.chunks (i + 2) =
      chunkAddr h.chunks (i + 1) + ((getC h (i + 1)).size + chunk_overhead) :=
    chunkAddr_succ h.chunks (i + 1) (by omega)
  have hfullx : chunkAddr h.chunks (i - 1) + x.full_size =
      chunkAddr h.chunks (i + 2) := by
    show chunkAddr h.chunks (i - 1) +
      ((getC h i).size + (getC h (i - 1)).size + (getC h (i + 1)).size +
        chunk_overhead + chunk_overhead + chunk_overhead) = _
    omega
  have hg : ∀ k, getC (Heap.mk h.committed CS FL l) k = CS.getD k ⟨0, false⟩ :=
    fun _ => rfl
  have hlen2 : CS.length = h.chunks.length - 2 := by
    rw [hCS, length_splice h.chunks (i - 1) (i + 1) x (by omega)]
    omega
  have hget_lt : ∀ k, k < i - 1 → CS.getD k ⟨0, false⟩ = getC h k := by
    intro k hk
    rw [hCS, List.getD_eq_getElem?_getD,
      getElem?_splice_lt h.chunks (i - 1) (i + 1) k x hk (by omega),
      getC_eq_getElem?]
  have hget_b0 : CS.getD (i - 1) ⟨0, false⟩ = x := by
    rw [hCS, List.getD_eq_getElem?_getD,
      getElem?_splice_self h.chunks (i - 1) (i + 1) x (by omega)]
    rfl
  have hget_ge : ∀ k, i ≤ k → CS.getD k ⟨0, false⟩ = getC h (k + 2) := by
    intro k hk
    rw [hCS, List.getD_eq_getElem?_getD,
      getElem?_splice_gt h.chunks (i - 1) (i + 1) k x (by omega) (by omega),
      show i + 1 + 1 + (k - (i - 1) - 1) = k + 2 by omega, getC_eq_getElem?]
  have haddr_le : ∀ k, k ≤ i - 1 → chunkAddr CS k = chunkAddr h.chunks k := by
    intro k hk
    rw [hCS]
    exact chunkAddr_splice h.chunks (i - 1) (i + 1) k x hk (by omega)
  have haddr_ge : ∀ k, i ≤ k →
      chunkAddr CS k = chunkAddr h.chunks (k + 2) := by
    intro k hk
    rw [hCS, chunkAddr_splice_shift h.chunks (i - 1) (i + 1) k x (by omega)
      (by omega) (by omega) hfullx,
      show i + 1 + 1 + (k - (i - 1) - 1) = k + 2 by omega]
  have haddr_ne_b : ∀ k, k < h.chunks.length → k ≠ i - 1 →
      chunkAddr h.chunks k ≠ chunkAddr h.chunks (i - 1) := by
    intro k hk hki heq
    exact hki (chunkAddr_inj h.chunks k (i - 1) (by omega) (by omega) heq)
  have haddr_ne_a : ∀ k, k < h.chunks.length → k ≠ i + 1 →
      chunkAddr h.chunks k ≠ chunkAddr h.chunks (i + 1) := by
    intro k hk hki heq
    exact hki (chunkAddr_inj h.chunks k (i + 1) (by omega) (by omega) heq)
  have hpush : ∀ b, listedCount FL b =
      listedCount fl2 b + if b = chunkAddr h.chunks (i - 1) then 1 else 0 := by
    intro b
    rw [hFL]
    exact listedCount_push fl2 li b _ hlilen
  have hcount2 : ∀ b, b ≠ chunkAddr h.chunks (i - 1) →
      b ≠ chunkAddr h.chunks (i + 1) →
      listedCount fl2 b = listedCount h.freeLists b := by
    intro b hb1 hb2
    rw [hfl2, listedCount_erase_ne fl1 ja _ _ hjalen hb2, hfl1,
      listedCount_erase_ne h.freeLists jb _ _ hjblen hb1]
  have hcount_b0 : listedCount fl2 (chunkAddr h.chunks (i - 1)) = 0 := by
    rw [hfl2, listedCount_erase_ne fl1 ja _ _ hjalen (Ne.symm haddr_ne_ba),
      hfl1, listedCount_erase_self h.freeLists jb _ hjblen hjbmem, hcntb]
  refine ⟨?_, ?_, ?_, ?_, ?_, ?_⟩
  · show FL.length = n_free_list
    rw [hFL, hfl2, hfl1]
    simpa using hlen
  · show chunkAddr CS CS.length = h.committed
    rw [hlen2, haddr_ge (h.chunks.length - 2) (by omega),
      show h.chunks.length - 2 + 2 = h.chunks.length by omega]
    exact htile
  · intro k hk
    rw [show (Heap.mk h.committed CS FL l : Heap).chunks = CS from rfl,
      hlen2] at hk
    rw [hg k]
    rcases Nat.lt_trichotomy k (i - 1) with hki | hki | hki
    · rw [hget_lt k hki]
      exact hsizes k (by omega)
    · rw [hki, hget_b0, hx]
      show ((getC h i).size + (getC h (i - 1)).size + (getC h (i + 1)).size +
        chunk_overhead + chunk_overhead) % data_align = 0 ∧
        data_align ≤ (getC h i).size + (getC h (i - 1)).size +
          (getC h (i + 1)).size + chunk_overhead + chunk_overhead
      rw [hda, hco]
      omega
    · rw [hget_ge k (by omega)]
      exact hsizes (k + 2) (by omega)
  · intro k hk hk1 hfk
    rw [show (Heap.mk h.committed CS FL l : Heap).chunks = CS from rfl,
      hlen2] at hk hk1
    rw [hg] at hfk ⊢
    rcases Nat.lt_trichotomy (k + 1) (i - 1) with hki | hki | hki
    · rw [hget_lt (k + 1) hki]
      rw [hget_lt k (by omega)] at hfk
      exact hadj k (by omega) (by omega) hfk
    · exfalso
      rw [hget_lt k (by omega)] at hfk
      have h2 := hadj k (by omega) (by omega) hfk
      rw [show k + 1 = i - 1 from hki] at h2
      rw [h2] at hbfree
      exact Bool.noConfusion hbfree
    · by_cases hkb : k = i - 1
      · rw [show k + 1 = i from by omega, hget_ge i (Nat.le_refl _)]
        show (getC h (i + 2)).free = false
        exact hadj (i + 1) (by omega) (by omega) hafree
      · rw [hget_ge (k + 1) (by omega)]
        rw [hget_ge k (by omega)] at hfk
        exact hadj (k + 2) (by omega) (by omega) hfk
  · intro k hk hfk
    rw [show (Heap.mk h.committed CS FL l : Heap).chunks = CS from rfl,
      hlen2] at hk
    rw [hg] at hfk
    show listedCount FL (chunkAddr CS k) = 1
    rcases Nat.lt_trichotomy k (i - 1) with hki | hki | hki
    · rw [hget_lt k hki] at hfk
      rw [haddr_le k (by omega), hpush,
        if_neg (haddr_ne_b k (by omega) (by omega)),
        hcount2 _ (haddr_ne_b k (by omega) (by omega))
          (haddr_ne_a k (by omega) (by omega)),
        hcount k (by omega) hfk]
    · rw [hki, haddr_le (i - 1) (Nat.le_refl _), hpush, if_pos rfl, hcount_b0]
    · rw [hget_ge k (by omega)] at hfk
      rw [haddr_ge k (by omega), hpush,
        if_neg (haddr_ne_b (k + 2) (by omega) (by omega)),
        hcount2 _ (haddr_ne_b (k + 2) (by omega) (by omega))
          (haddr_ne_a (k + 2) (by omega) (by omega)),
        hcount (k + 2) (by omega) hfk]
  · intro j' hj' b hbmem
    by_cases hbK : b = chunkAddr h.chunks (i - 1)
    · refine ⟨i - 1, ?_, ?_, ?_⟩
      · rw [List.mem_range,
          show (Heap.mk h.committed CS FL l : Heap).chunks = CS from rfl, hlen2]
        omega
      · rw [show (Heap.mk h.committed CS FL l : Heap).chunks = CS from rfl,
          haddr_le (i - 1) (Nat.le_refl _), hbK]
      · rw [hg, hget_b0, hx]
    · have hbfl2 : b ∈ flGet fl2 j' := by
        by_cases hjli : j' = li
        · rw [show flGet (Heap.mk h.committed CS FL l : Heap).freeLists j' =
            flGet FL j' from rfl, hjli, hFL,
            flGet_set_self fl2 li _ hlilen] at hbmem
          cases hbmem with
          | head => exact absurd rfl hbK
          | tail _ hmem => exact hjli ▸ hmem
        · rw [show flGet (Heap.mk h.committed CS FL l : Heap).freeLists j' =
            flGet FL j' from rfl, hFL,
            flGet_set_ne fl2 li j' _ hjli] at hbmem
          exact hbmem
      have hnotmem_a : chunkAddr h.chunks (i + 1) ∉
          (flGet fl1 ja).erase (chunkAddr h.chunks (i + 1)) := by
        intro hmm
        have h0 : ((flGet fl1 ja).erase
            (chunkAddr h.chunks (i + 1))).count (chunkAddr h.chunks (i + 1)) =
            (flGet fl1 ja).count (chunkAddr h.chunks (i + 1)) - 1 :=
          List.count_erase_self _ _
        have hp : 0 < ((flGet fl1 ja).erase
            (chunkAddr h.chunks (i + 1))).count (chunkAddr h.chunks (i + 1)) :=
          List.count_pos_iff.mpr hmm
        omega
      have hbfl1 : b ∈ flGet fl1 j' ∧ b ≠ chunkAddr h.chunks (i + 1) := by
        by_cases hjj : j' = ja
        · rw [hjj, hfl2, flGet_set_self fl1 ja _ hjalen] at hbfl2
          exact ⟨hjj ▸ List.mem_of_mem_erase hbfl2,
            fun hba => hnotmem_a (hba ▸ hbfl2)⟩
        · rw [hfl2, flGet_set_ne fl1 ja j' _ hjj] at hbfl2
          refine ⟨hbfl2, ?_⟩
          intro hba
          exact hnotina j' (by
            rw [hfl1, List.length_set, hlen]
            omega) hjj (hba ▸ hbfl2)
      have hbold : b ∈ flGet h.freeLists j' := by
        by_cases hjj : j' = jb
        · rw [hjj, hfl1, flGet_set_self h.freeLists jb _ hjblen] at hbfl1
          exact hjj ▸ List.mem_of_mem_erase hbfl1.1
        · rw [hfl1, flGet_set_ne h.freeLists jb j' _ hjj] at hbfl1
          exact hbfl1.1
      obtain ⟨t, ht, htaddr, htfree⟩ := hlisted j' hj' b hbold
      have htlen : t < h.chunks.length := List.mem_range.mp ht
      have htb : t ≠ i - 1 := by
        intro hteq
        rw [hteq] at htaddr
        exact hbK htaddr.symm
      have hta : t ≠ i + 1 := by
        intro hteq
        rw [hteq] at htaddr
        exact hbfl1.2 htaddr.symm
      have hti : t ≠ i := by
        intro hteq
        rw [hteq, halloc] at htfree
        exact Bool.noConfusion htfree
      by_cases htlt : t < i - 1
      · refine ⟨t, ?_, ?_, ?_⟩
        · rw [List.mem_range,
            show (Heap.mk h.committed CS FL l : Heap).chunks = CS from rfl,
            hlen2]
          omega
        · rw [show (Heap.mk h.committed CS FL l : Heap).chunks = CS from rfl,
            haddr_le t (by omega)]
          exact htaddr
        · rw [hg, hget_lt t htlt]
          exact htfree
      · refine ⟨t - 2, ?_, ?_, ?_⟩
        · rw [List.mem_range,
            show (Heap.mk h.committed CS FL l : Heap).chunks = CS from rfl,
            hlen2]
          omega
        · rw [show (Heap.mk h.committed CS FL l : Heap).chunks = CS from rfl,
            haddr_ge (t - 2) (by omega), show t - 2 + 2 = t by omega]
          exact htaddr
        · rw [hg, hget_ge (t - 2) (by omega), show t - 2 + 2 = t by omega]
          exact htfree

theorem chunkAddr_clamp (cs : List Chunk) (k : Nat) (hk : cs.length ≤ k) :
    chunkAddr cs k = chunkAddr cs cs.length := by
  rw [chunkAddr, chunkAddr, List.take_of_length_le hk, List.take_length]

theorem drop_set_gt (cs : List Chunk) (i m : Nat) (v : Chunk) (him : i < m) :
    (cs.set i v).drop m = cs.drop m := by
  apply List.ext_getElem?
  intro k
  rw [List.getElem?_drop, List.getElem?_drop, List.getElem?_set_ne (by omega)]

theorem findList_of_free (g : Heap) (t : Nat) (hInv : Inv g)
    (htlen : t < g.chunks.length) (htfree : (getC g t).free = true) :
    ∃ j, findList g.freeLists (chunkAddr g.chunks t) = some j := by
  obtain ⟨hlen, _, _, _, hcount, _⟩ := hInv
  have h1 : listedCount g.freeLists (chunkAddr g.chunks t) = 1 :=
    hcount t htlen htfree
  obtain ⟨j, hj, hmem⟩ := exists_mem_of_listedCount_pos g.freeLists _
    (by rw [h1]; omega)
  obtain ⟨j', hfind, _, _⟩ := findList_some_of_mem g.freeLists j _
    (hlen ▸ hj) hmem
  exact ⟨j', hfind⟩

/-- `chunk::deallocate` on an allocated chunk of a well-formed arena
always succeeds; the resulting arena is well-formed again and the chunk
that the coalescing pass produces is free and sits in exactly one
free-list position. -/
theorem chunk_deallocate_spec (g : Heap) (i : Nat) (hInv : Inv g)
    (hilen : i < g.chunks.length) (halloc : (getC g i).free = false) :
    ∃ ret h', chunk_deallocate g i = .ok ret h' ∧ Inv h' ∧
      ret < h'.chunks.length ∧ (getC h' ret).free = true ∧
      listedCount h'.freeLists (chunkAddr h'.chunks ret) = 1 := by
  have hInv2 := hInv
  obtain ⟨hlen, htile, hsizes, hadj, hcount, hlisted⟩ := hInv2
  have hda : data_align = 16 := rfl
  have hco : chunk_overhead = 32 := rfl
  have hmin48 : min_chunk_size = 48 := by decide
  rw [chunk_deallocate, if_neg (by simp [halloc])]
  dsimp only
  have hCSfull : ∀ k, chunkAddr (g.chunks.set i ⟨(getC g i).size, true⟩) k =
      chunkAddr g.chunks k :=
    fun k => chunkAddr_set_full g.chunks i _ k (fun _ => rfl)
  have hCSlen : (g.chunks.set i (⟨(getC g i).size, true⟩ : Chunk)).length =
      g.chunks.length := List.length_set g.chunks ..
  set H1 : Heap := { g with chunks := g.chunks.set i ⟨(getC g i).size, true⟩ }
    with hH1
  have hH1chunks : H1.chunks = g.chunks.set i ⟨(getC g i).size, true⟩ := rfl
  have hH1get_ne : ∀ k, k ≠ i → getC H1 k = getC g k := by
    intro k hk
    show (g.chunks.set i ⟨(getC g i).size, true⟩).getD k ⟨0, false⟩ = _
    rw [getD_set_ne g.chunks i k _ hk]
    rfl
  have hH1geti : getC H1 i = ⟨(getC g i).size, true⟩ := by
    show (g.chunks.set i ⟨(getC g i).size, true⟩).getD i ⟨0, false⟩ = _
    rw [getD_set_self g.chunks i _ hilen]
  have hH1addr : ∀ k, chunkAddr H1.chunks k = chunkAddr g.chunks k := by
    intro k
    rw [hH1chunks]
    exact hCSfull k
  have hH1tile : chunkAddr H1.chunks H1.chunks.length = H1.committed := by
    rw [hH1chunks, hCSlen, hCSfull]
    exact htile
  have hH1len : H1.chunks.length = g.chunks.length := by
    rw [hH1chunks, hCSlen]
  have hfuel : H1.chunks.length + 1 = g.chunks.length + 1 := by rw [hH1len]
  have hsz16 : ∀ t, t < g.chunks.length → data_align ≤ (getC g t).size :=
    fun t ht => (hsizes t ht).2
  have hH1sz16 : ∀ t, t < H1.chunks.length → data_align ≤ (getC H1 t).size := by
    intro t ht
    rw [hH1len] at ht
    by_cases hti : t = i
    · rw [hti, hH1geti]
      exact hsz16 i hilen
    · rw [hH1get_ne t hti]
      exact hsz16 t ht
  have hbefore_cases : (i = 0 ∨ (getC g (i - 1)).free = false) ∨
      (1 ≤ i ∧ (getC g (i - 1)).free = true) := by
    by_cases h0 : i = 0
    · exact Or.inl (Or.inl h0)
    · by_cases hfb : (getC g (i - 1)).free = true
      · exact Or.inr ⟨by omega, hfb⟩
      · exact Or.inl (Or.inr (by simpa using hfb))
  have hafter_cases : (i + 1 = g.chunks.length ∨
      (i + 1 < g.chunks.length ∧ (getC g (i + 1)).free = false)) ∨
      (i + 1 < g.chunks.length ∧ (getC g (i + 1)).free = true) := by
    by_cases hL : i + 1 = g.chunks.length
    · exact Or.inl (Or.inl hL)
    · by_cases hfa : (getC g (i + 1)).free = true
      · exact Or.inr ⟨by omega, hfa⟩
      · exact Or.inl (Or.inr ⟨by omega, by simpa using hfa⟩)
  have hbnone_of : (i = 0 ∨ (getC g (i - 1)).free = false) →
      chunk_before H1 i = none := by
    intro hcase
    apply chunk_before_none_of
    intro h1 hlt
    rw [hH1get_ne (i - 1) (by omega)]
    rcases hcase with h0 | hf
    · omega
    · exact hf
  have hbsome_of : 1 ≤ i → (getC g (i - 1)).free = true →
      chunk_before H1 i = some (i - 1) := by
    intro h1 hf
    apply chunk_before_free H1 i h1
    · rw [hH1len]
      omega
    · rw [hH1get_ne (i - 1) (by omega)]
      exact hf
  have hanone_of : (i + 1 = g.chunks.length ∨
      (i + 1 < g.chunks.length ∧ (getC g (i + 1)).free = false)) →
      chunk_after H1 i = none := by
    intro hcase
    apply chunk_after_none_of
    intro hlt
    rw [hH1len] at hlt
    rcases hcase with hL | ⟨_, hf⟩
    · omega
    · rw [hH1get_ne (i + 1) (by omega)]
      exact hf
  have hasome_of : i + 1 < g.chunks.length → (getC g (i + 1)).free = true →
      chunk_after H1 i = some (i + 1) := by
    intro hlt hf
    apply chunk_after_some_inv H1 i hH1tile hH1sz16
    · rw [hH1len]
      omega
    · rw [hH1get_ne (i + 1) (by omega)]
      exact hf
  rcases hbefore_cases with hbc | ⟨h1i, hbfree⟩
  · rcases hafter_cases with hac | ⟨hi1len, hafree⟩
    · -- no free neighbor: plain insert
      have heq := coalesce_none_none H1.chunks.length H1 i
        (63 - clzll (getC H1 i).size) (hbnone_of hbc) (hanone_of hac)
        (list_index_ne_zero _ (by
          rw [hH1geti]
          show (getC g i).size ≠ 0
          have := hsz16 i hilen
          rw [hda] at this
          omega))
      have hszeq : (getC H1 i).size = (getC g i).size := by rw [hH1geti]
      rw [heq, hszeq, hH1addr i,
        show H1.freeLists = g.freeLists from rfl,
        show H1.committed = g.committed from rfl,
        show H1.chunks = g.chunks.set i ⟨(getC g i).size, true⟩ from rfl,
        show H1.locks = g.locks from rfl]
      have hI := Inv_dealloc_nn g g.locks (63 - clzll (getC g i).size) i hInv
        hilen halloc hbc (hac.imp (fun x => x) (fun y => y.2))
        (by
          have hnfl : n_free_list = 64 := rfl
          omega)
      refine ⟨i, _, rfl, hI, ?_, ?_, ?_⟩
      · show i < (g.chunks.set i (⟨(getC g i).size, true⟩ : Chunk)).length
        rw [List.length_set]
        exact hilen
      · show ((g.chunks.set i (⟨(getC g i).size, true⟩ : Chunk)).getD i
          ⟨0, false⟩).free = true
        rw [getD_set_self g.chunks i _ hilen]
      · apply hI.2.2.2.2.1 i
        · show i < (g.chunks.set i (⟨(getC g i).size, true⟩ : Chunk)).length
          rw [List.length_set]
          exact hilen
        · show ((g.chunks.set i (⟨(getC g i).size, true⟩ : Chunk)).getD i
            ⟨0, false⟩).free = true
          rw [getD_set_self g.chunks i _ hilen]
    · -- only the after neighbor is free: merge right
      obtain ⟨ja, hja⟩ := findList_of_free g (i + 1) hInv (by omega) hafree
      have hszeq : (getC H1 i).size = (getC g i).size := by rw [hH1geti]
      have hfl1 : findList H1.freeLists (chunkAddr H1.chunks (i + 1)) =
          some ja := by
        rw [show H1.freeLists = g.freeLists from rfl, hH1addr]
        exact hja
      have halign1 : ((getC H1 i).full_size + (getC H1 (i + 1)).full_size) %
          data_align = 0 := by
        rw [hH1geti, hH1get_ne (i + 1) (by omega)]
        show ((getC g i).size + chunk_overhead +
          ((getC g (i + 1)).size + chunk_overhead)) % data_align = 0
        have h1 := (hsizes i hilen).1
        have h2 := (hsizes (i + 1) (by omega)).1
        rw [hda] at h1 h2
        rw [hda, hco]
        omega
      have hstopa : H1.committed < chunkAddr H1.chunks (i + 2) + min_chunk_size ∨
          ∀ c, H1.chunks[i + 2]? = some c → c.free = false := by
        by_cases hL2 : i + 2 = g.chunks.length
        · left
          rw [show H1.committed = g.committed from rfl, hH1addr, hL2, htile,
            hmin48]
          omega
        · right
          intro c hc
          have hgc : getC H1 (i + 2) = c := by
            rw [getC_eq_getElem?, hc]
            rfl
          rw [← hgc, hH1get_ne (i + 2) (by omega)]
          have := hadj (i + 1) (by omega) (by
            have hlen2 : i + 2 ≤ g.chunks.length := by
              have hcc : i + 2 < H1.chunks.length := by
                by_contra hge
                rw [List.getElem?_eq_none (by
                  rw [hH1len] at hge ⊢
                  omega)] at hc
                exact Option.noConfusion hc
              omega
            omega) hafree
          rw [show i + 1 + 1 = i + 2 by omega] at this
          exact this
      have hsum_ne : (getC H1 i).size + (getC H1 (i + 1)).size +
          chunk_overhead ≠ 0 := by
        rw [hco]
        omega
      have heq := coalesce_merge_right (H1.chunks.length - 1) H1 i ja
        (63 - clzll ((getC H1 i).size + (getC H1 (i + 1)).size +
          chunk_overhead))
        (hbnone_of hbc) (hasome_of hi1len hafree) (by rw [hH1len]; omega)
        hfl1 halign1 hstopa (list_index_ne_zero _ hsum_ne)
      rw [show H1.chunks.length + 1 = H1.chunks.length - 1 + 2 from by
        rw [hH1len]
        omega, heq]
      dsimp only
      rw [hszeq, hH1get_ne (i + 1) (by omega), hH1addr (i + 1), hH1addr i,
        show H1.freeLists = g.freeLists from rfl,
        show H1.committed = g.committed from rfl,
        show H1.locks = g.locks from rfl,
        take_set g.chunks i i _ (Nat.le_refl _) hilen,
        drop_set_gt g.chunks i (i + 2) _ (by omega)]
      have hI := Inv_dealloc_right g g.locks
        (63 - clzll ((getC g i).size + (getC g (i + 1)).size + chunk_overhead))
        ja i hInv (by omega) halloc hafree hja hbc
        (by
          have hnfl : n_free_list = 64 := rfl
          omega)
      refine ⟨i, _, rfl, hI, ?_, ?_, ?_⟩
      · show i < (g.chunks.take i ++ (⟨(getC g i).size + (getC g (i + 1)).size +
          chunk_overhead, true⟩ : Chunk) :: g.chunks.drop (i + 2)).length
        rw [length_splice g.chunks i (i + 1) _ (by omega)]
        omega
      · show ((g.chunks.take i ++ (⟨(getC g i).size + (getC g (i + 1)).size +
          chunk_overhead, true⟩ : Chunk) :: g.chunks.drop (i + 2)).getD i
          ⟨0, false⟩).free = true
        rw [List.getD_eq_getElem?_getD,
          getElem?_splice_self g.chunks i (i + 1) _ (by omega)]
        rfl
      · apply hI.2.2.2.2.1 i
        · show i < (g.chunks.take i ++ (⟨(getC g i).size +
            (getC g (i + 1)).size + chunk_overhead, true⟩ : Chunk) ::
            g.chunks.drop (i + 2)).length
          rw [length_splice g.chunks i (i + 1) _ (by omega)]
          omega
        · show ((g.chunks.take i ++ (⟨(getC g i).size + (getC g (i + 1)).size +
            chunk_overhead, true⟩ : Chunk) :: g.chunks.drop (i + 2)).getD i
            ⟨0, false⟩).free = true
          rw [List.getD_eq_getElem?_getD,
            getElem?_splice_self g.chunks i (i + 1) _ (by omega)]
          rfl
  · -- the before neighbor is free
    obtain ⟨jb, hjb⟩ := findList_of_free g (i - 1) hInv (by omega) hbfree
    have hszeq : (getC H1 i).size = (getC g i).size := by rw [hH1geti]
    have hflb1 : findList H1.freeLists (chunkAddr H1.chunks (i - 1)) =
        some jb := by
      rw [show H1.freeLists = g.freeLists from rfl, hH1addr]
      exact hjb
    have hstopb : i - 1 = 0 ∨ (getC H1 (i - 2)).free = false := by
      by_cases h10 : i - 1 = 0
      · exact Or.inl h10
      · right
        rw [hH1get_ne (i - 2) (by omega)]
        by_contra hne
        have hf2 : (getC g (i - 2)).free = true := by simpa using hne
        have h3 := hadj (i - 2) (by omega) (by omega) hf2
        rw [show i - 2 + 1 = i - 1 by omega] at h3
        rw [h3] at hbfree
        exact Bool.noConfusion hbfree
    rcases hafter_cases with hac | ⟨hi1len, hafree⟩
    · -- merge left only
      have halign1 : ((getC H1 i).full_size + (getC H1 (i - 1)).full_size) %
          data_align = 0 := by
        rw [hH1geti, hH1get_ne (i - 1) (by omega)]
        show ((getC g i).size + chunk_overhead +
          ((getC g (i - 1)).size + chunk_overhead)) % data_align = 0
        have h1 := (hsizes i hilen).1
        have h2 := (hsizes (i - 1) (by omega)).1
        rw [hda] at h1 h2
        rw [hda, hco]
        omega
      have hsum_ne : (getC H1 i).size + (getC H1 (i - 1)).size +
          chunk_overhead ≠ 0 := by
        rw [hco]
        omega
      have heq := coalesce_merge_left (H1.chunks.length - 1) H1 i jb
        (63 - clzll ((getC H1 i).size + (getC H1 (i - 1)).size +
          chunk_overhead))
        (hbsome_of h1i hbfree) (hanone_of hac) h1i (by rw [hH1len]; omega)
        hflb1 halign1 hstopb (list_index_ne_zero _ hsum_ne)
      rw [show H1.chunks.length + 1 = H1.chunks.length - 1 + 2 from by
        rw [hH1len]
        omega, heq]
      dsimp only
      rw [hszeq, hH1get_ne (i - 1) (by omega), hH1addr (i - 1),
        show H1.freeLists = g.freeLists from rfl,
        show H1.committed = g.committed from rfl,
        show H1.locks = g.locks from rfl,
        take_set g.chunks i (i - 1) _ (by omega) hilen,
        drop_set_gt g.chunks i (i + 1) _ (by omega)]
      have hI := Inv_dealloc_left g g.locks
        (63 - clzll ((getC g i).size + (getC g (i - 1)).size + chunk_overhead))
        jb i hInv h1i hilen halloc hbfree hjb
        (hac.imp (fun x => x) (fun y => y.2))
        (by
          have hnfl : n_free_list = 64 := rfl
          omega)
      refine ⟨i - 1, _, rfl, hI, ?_, ?_, ?_⟩
      · show i - 1 < (g.chunks.take (i - 1) ++ (⟨(getC g i).size +
          (getC g (i - 1)).size + chunk_overhead, true⟩ : Chunk) ::
          g.chunks.drop (i + 1)).length
        rw [length_splice g.chunks (i - 1) i _ (by omega)]
        omega
      · show ((g.chunks.take (i - 1) ++ (⟨(getC g i).size +
          (getC g (i - 1)).size + chunk_overhead, true⟩ : Chunk) ::
          g.chunks.drop (i + 1)).getD (i - 1) ⟨0, false⟩).free = true
        rw [List.getD_eq_getElem?_getD,
          getElem?_splice_self g.chunks (i - 1) i _ (by omega)]
        rfl
      · apply hI.2.2.2.2.1 (i - 1)
        · show i - 1 < (g.chunks.take (i - 1) ++ (⟨(getC g i).size +
            (getC g (i - 1)).size + chunk_overhead, true⟩ : Chunk) ::
            g.chunks.drop (i + 1)).length
          rw [length_splice g.chunks (i - 1) i _ (by omega)]
          omega
        · show ((g.chunks.take (i - 1) ++ (⟨(getC g i).size +
            (getC g (i - 1)).size + chunk_overhead, true⟩ : Chunk) ::
            g.chunks.drop (i + 1)).getD (i - 1) ⟨0, false⟩).free = true
          rw [List.getD_eq_getElem?_getD,
            getElem?_splice_self g.chunks (i - 1) i _ (by omega)]
          rfl
    · -- both neighbors free: merge both
      have haddr_ne_ba : chunkAddr g.chunks (i + 1) ≠
          chunkAddr g.chunks (i - 1) := by
        intro heq2
        have := chunkAddr_inj g.chunks (i + 1) (i - 1) (by omega) (by omega)
          heq2
        omega
      have hcnta1 : listedCount (g.freeLists.set jb ((flGet g.freeLists jb).erase
          (chunkAddr g.chunks (i - 1)))) (chunkAddr g.chunks (i + 1)) = 1 := by
        obtain ⟨hjblt, hjbmem⟩ := findList_some_elim _ _ _ hjb
        rw [listedCount_erase_ne g.freeLists jb _ _ (by omega) haddr_ne_ba]
        exact hcount (i + 1) (by omega) hafree
      obtain ⟨ja, hja2⟩ : ∃ ja, findList (g.freeLists.set jb
          ((flGet g.freeLists jb).erase (chunkAddr g.chunks (i - 1))))
          (chunkAddr g.chunks (i + 1)) = some ja := by
        obtain ⟨j2, hj2, hmem2⟩ := exists_mem_of_listedCount_pos _ _
          (by rw [hcnta1]; omega)
        obtain ⟨j', hfind, _, _⟩ := findList_some_of_mem _ j2 _
          (by
            rw [List.length_set, hlen] at hj2
            exact hj2) hmem2
        exact ⟨j', hfind⟩
      have hfla1 : findList (H1.freeLists.set jb
          ((flGet H1.freeLists jb).erase (chunkAddr H1.chunks (i - 1))))
          (chunkAddr H1.chunks (i + 1)) = some ja := by
        rw [show H1.freeLists = g.freeLists from rfl, hH1addr, hH1addr]
        exact hja2
      have halign1 : ((getC H1 i).full_size + (getC H1 (i - 1)).full_size +
          (getC H1 (i + 1)).full_size) % data_align = 0 := by
        rw [hH1geti, hH1get_ne (i - 1) (by omega), hH1get_ne (i + 1) (by omega)]
        show ((getC g i).size + chunk_overhead +
          ((getC g (i - 1)).size + chunk_overhead) +
          ((getC g (i + 1)).size + chunk_overhead)) % data_align = 0
        have h1 := (hsizes i hilen).1
        have h2 := (hsizes (i - 1) (by omega)).1
        have h3 := (hsizes (i + 1) (by omega)).1
        rw [hda] at h1 h2 h3
        rw [hda, hco]
        omega
      have hstopa : H1.committed < chunkAddr H1.chunks (i + 2) + min_chunk_size ∨
          ∀ c, H1.chunks[i + 2]? = some c → c.free = false := by
        by_cases hL2 : i + 2 = g.chunks.length
        · left
          rw [show H1.committed = g.committed from rfl, hH1addr, hL2, htile,
            hmin48]
          omega
        · right
          intro c hc
          have hgc : getC H1 (i + 2) = c := by
            rw [getC_eq_getElem?, hc]
            rfl
          rw [← hgc, hH1get_ne (i + 2) (by omega)]
          have hlen2 : i + 2 < g.chunks.length := by
            have hcc : i + 2 < H1.chunks.length := by
              by_contra hge
              rw [List.getElem?_eq_none (by
                rw [hH1len] at hge ⊢
                omega)] at hc
              exact Option.noConfusion hc
            omega
          have := hadj (i + 1) (by omega) (by omega) hafree
          rw [show i + 1 + 1 = i + 2 by omega] at this
          exact this
      have hsum_ne : (getC H1 i).size + (getC H1 (i - 1)).size +
          (getC H1 (i + 1)).size + chunk_overhead + chunk_overhead ≠ 0 := by
        rw [hco]
        omega
      have heq := coalesce_merge_both (H1.chunks.length - 1) H1 i jb ja
        (63 - clzll ((getC H1 i).size + (getC H1 (i - 1)).size +
          (getC H1 (i + 1)).size + chunk_overhead + chunk_overhead))
        (hbsome_of h1i hbfree) (hasome_of hi1len hafree) h1i
        (by rw [hH1len]; omega) hflb1 hfla1 halign1 hstopb hstopa
        (list_index_ne_zero _ hsum_ne)
      rw [show H1.chunks.length + 1 = H1.chunks.length - 1 + 2 from by
        rw [hH1len]
        omega, heq]
      dsimp only
      rw [hszeq, hH1get_ne (i - 1) (by omega), hH1get_ne (i + 1) (by omega),
        hH1addr (i - 1), hH1addr (i + 1),
        show H1.freeLists = g.freeLists from rfl,
        show H1.committed = g.committed from rfl,
        show H1.locks = g.locks from rfl,
        take_set g.chunks i (i - 1) _ (by omega) hilen,
        drop_set_gt g.chunks i (i + 2) _ (by omega)]
      have hI := Inv_dealloc_both g g.locks
        (63 - clzll ((getC g i).size + (getC g (i - 1)).size +
          (getC g (i + 1)).size + chunk_overhead + chunk_overhead))
        jb ja i hInv h1i (by omega) halloc hbfree hafree hjb hja2
        (by
          have hnfl : n_free_list = 64 := rfl
          omega)
      refine ⟨i - 1, _, rfl, hI, ?_, ?_, ?_⟩
      · show i - 1 < (g.chunks.take (i - 1) ++ (⟨(getC g i).size +
          (getC g (i - 1)).size + (getC g (i + 1)).size + chunk_overhead +
          chunk_overhead, true⟩ : Chunk) :: g.chunks.drop (i + 2)).length
        rw [length_splice g.chunks (i - 1) (i + 1) _ (by omega)]
        omega
      · show ((g.chunks.take (i - 1) ++ (⟨(getC g i).size +
          (getC g (i - 1)).size + (getC g (i + 1)).size + chunk_overhead +
          chunk_overhead, true⟩ : Chunk) :: g.chunks.drop (i + 2)).getD (i - 1)
          ⟨0, false⟩).free = true
        rw [List.getD_eq_getElem?_getD,
          getElem?_splice_self g.chunks (i - 1) (i + 1) _ (by omega)]
        rfl
      · apply hI.2.2.2.2.1 (i - 1)
        · show i - 1 < (g.chunks.take (i - 1) ++ (⟨(getC g i).size +
            (getC g (i - 1)).size + (getC g (i + 1)).size + chunk_overhead +
            chunk_overhead, true⟩ : Chunk) :: g.chunks.drop (i + 2)).length
          rw [length_splice g.chunks (i - 1) (i + 1) _ (by omega)]
          omega
        · show ((g.chunks.take (i - 1) ++ (⟨(getC g i).size +
            (getC g (i - 1)).size + (getC g (i + 1)).size + chunk_overhead +
            chunk_overhead, true⟩ : Chunk) :: g.chunks.drop (i + 2)).getD
            (i - 1) ⟨0, false⟩).free = true
          rw [List.getD_eq_getElem?_getD,
            getElem?_splice_self g.chunks (i - 1) (i + 1) _ (by omega)]
          rfl

theorem round_up_align (n : Nat) : round_up n % data_align = 0 := by
  rw [round_up, data_align]
  exact Nat.mul_mod_left _ 16

theorem round_up_ge_align (n : Nat) (h : round_up n ≠ 0) :
    data_align ≤ round_up n := by
  have h1 := round_up_align n
  rw [data_align] at h1 ⊢
  omega

theorem mem_search_order (fls : List (List Nat)) (i0 a : Nat)
    (hmem : a ∈ (fls.drop i0).flatten) :
    ∃ j, j < fls.length ∧ a ∈ flGet fls j := by
  obtain ⟨L, hL, haL⟩ := List.mem_flatten.mp hmem
  obtain ⟨k, hk, hLk⟩ := List.getElem_of_mem hL
  rw [List.length_drop] at hk
  refine ⟨i0 + k, by omega, ?_⟩
  have h1 : fls[i0 + k]? = some L := by
    rw [← hLk, ← List.getElem?_drop]
    exact List.getElem?_eq_getElem (by rw [List.length_drop]; omega)
  rw [flGet, List.getD_eq_getElem?_getD, h1]
  exact haL

theorem size_lt_committed (g : Heap) (t : Nat)
    (htile : chunkAddr g.chunks g.chunks.length = g.committed)
    (ht : t < g.chunks.length) : (getC g t).size < g.committed := by
  have h1 : chunkAddr g.chunks (t + 1) =
      chunkAddr g.chunks t + ((getC g t).size + chunk_overhead) :=
    chunkAddr_succ g.chunks t ht
  have h2 := chunkAddr_mono g.chunks (t + 1) g.chunks.length (by omega)
    (Nat.le_refl _)
  have h3 := chunkAddr_ge_driver g.chunks t (by omega)
  rw [htile] at h2
  rw [show chunk_overhead = 32 from rfl] at h1
  have h4 : 2096 ≤ chunkAddr g.chunks t := h3
  omega

/-- A completed `driver::deallocate` preserves the arena invariant, and
for a non-null pointer it runs `chunk::deallocate` on the resolved chunk
of the locked arena. -/
theorem driver_deallocate_ok_spec (h : Heap) (p : Option Nat) (m : Nat)
    (h' : Heap) (hInv : Inv h)
    (hok : driver_deallocate h p m = .ok () h') :
    Inv h' ∧
    (∀ a, p = some a →
      ∃ i ret, idxOfAddr h.chunks (a - header_size) = some i ∧
        chunk_deallocate (lock h) i = .ok ret h' ∧
        ret < h'.chunks.length ∧ (getC h' ret).free = true ∧
        listedCount h'.freeLists (chunkAddr h'.chunks ret) = 1) := by
  cases p with
  | none =>
    rw [driver_deallocate] at hok
    have hh : h = h' := by
      injection hok
    refine ⟨hh ▸ hInv, ?_⟩
    intro a ha
    exact Option.noConfusion ha
  | some a =>
    rw [driver_deallocate] at hok
    by_cases hal : a % data_align ≠ 0
    · rw [if_pos hal] at hok
      exact absurd hok (by simp)
    · rw [if_neg hal] at hok
      cases hidx : idxOfAddr (lock h).chunks (a - header_size) with
      | none =>
        rw [hidx] at hok
        exact absurd hok (by simp)
      | some i =>
        rw [hidx] at hok
        dsimp only at hok
        have hInvL : Inv (lock h) := hInv
        have hilen : i < (lock h).chunks.length :=
          (idxOfAddr_eq_some _ _ _ hidx).1
        by_cases hfree : (getC (lock h) i).free = true
        · rw [chunk_deallocate, if_pos hfree] at hok
          exact absurd hok (by simp)
        · have hfree' : (getC (lock h) i).free = false := by
            cases hx : (getC (lock h) i).free
            · rfl
            · exact absurd hx hfree
          obtain ⟨ret, h2, heq, hI, hlt, hfr, hcnt⟩ :=
            chunk_deallocate_spec (lock h) i hInvL hilen hfree'
          rw [heq] at hok
          dsimp only at hok
          have hh : h2 = h' := by
            injection hok
          refine ⟨hh ▸ hI, ?_⟩
          intro a' ha'
          have haa : a = a' := by injection ha'
          refine ⟨i, ret, ?_, hh ▸ heq, hh ▸ hlt, hh ▸ hfr, hh ▸ hcnt⟩
          rw [← haa]
          exact hidx

/-- A successful `chunk::allocate` of an aligned, at-least-one-alignment
request from a free chunk whose right neighbor is allocated preserves
the arena invariant (covering both the split and the no-split form). -/
theorem chunk_allocate_ok_inv (g : Heap) (i r : Nat) (h' : Heap)
    (hInv : Inv g) (hilen : i < g.chunks.length)
    (hfree : (getC g i).free = true)
    (hral : r % data_align = 0) (hr16 : data_align ≤ r)
    (hafter : i + 1 < g.chunks.length → (getC g (i + 1)).free = false)
    (hok : chunk_allocate g i r = .ok () h') : Inv h' := by
  obtain ⟨j, hfl⟩ := findList_of_free g i hInv hilen hfree
  have hszal := (hInv.2.2.1 i hilen).1
  have hnfl : n_free_list = 64 := rfl
  by_cases hsz : r ≤ (getC g i).size
  · by_cases hrem : min_chunk_size ≤ (getC g i).size - r
    · rw [chunk_allocate_split g i r j hral hilen hszal hrem hfl hafter] at hok
      injection hok with h1 h2
      rw [← h2]
      exact Inv_split g g.locks i j
        (63 - clzll ((getC g i).size - r - chunk_overhead)) r hInv hilen hfree
        hfl hral hr16 hrem (by omega)
    · rw [chunk_allocate_nosplit g i r j hral hilen hsz (by omega) hfl] at hok
      injection hok with h1 h2
      rw [← h2]
      exact Inv_nosplit g g.locks i j hInv hilen hfree hfl
  · rw [chunk_allocate, if_neg (by simp [hral]), if_pos (by omega)] at hok
    exact absurd hok (by simp)

/-- A successful `driver::extend` preserves the arena invariant, and the
chunk index it returns names the last chunk of the grown tiling, which
is free. -/
theorem driver_extend_ok_inv (h : Heap) (size ci : Nat) (h2 : Heap)
    (hInv : Inv h) (hc1 : 1 ≤ h.committed)
    (hext : driver_extend h size = .ok ci h2) :
    Inv h2 ∧ ci + 1 = h2.chunks.length ∧ (getC h2 ci).free = true := by
  have hnfl : n_free_list = 64 := rfl
  have hmin48 : min_chunk_size = 48 := by decide
  have hda : data_align = 16 := rfl
  have hco : chunk_overhead = 32 := rfl
  obtain ⟨hlen, htile, hsizes, hadj, hcount, hlisted⟩ := hInv
  have hInv2 : Inv h := ⟨hlen, htile, hsizes, hadj, hcount, hlisted⟩
  have hal : h.committed % data_align = 0 := by
    rw [← htile]
    exact chunkAddr_align h.chunks (fun t ht => (hsizes t ht).1)
      h.chunks.length (Nat.le_refl _)
  obtain ⟨⟨k, hk, hkstop, hkall⟩, herr, hok3⟩ := extend_spec h size hc1 hal htile
  set s := extend_loop 64 h.committed h.committed size with hs
  by_cases hshort : s - h.committed < size
  · rw [herr hshort] at hext
    exact absurd hext (by simp)
  · have hlong : size ≤ s - h.committed := by omega
    have hge : h.committed ≤ s := by
      rw [hs]
      exact extend_loop_ge 64 h.committed h.committed size
    have hal16 : h.committed % 16 = 0 := hal
    have hsal : s % data_align = 0 := by
      rw [hk, hda]
      obtain ⟨m, hm⟩ := Nat.dvd_of_mod_eq_zero hal16
      rw [hm, Nat.mul_assoc]
      exact Nat.mul_mod_right 16 _
    by_cases hd48 : min_chunk_size ≤ s - h.committed
    · obtain ⟨happ, hmerge⟩ := hok3 s rfl hlong hd48
      by_cases htail : h.chunks = [] ∨ (getC h (h.chunks.length - 1)).free = false
      · rw [happ htail] at hext
        injection hext with h1 h2eq
        rw [← h2eq, ← h1]
        refine ⟨?_, ?_, ?_⟩
        · exact Inv_extend_append h h.locks
            (63 - clzll (s - h.committed - chunk_overhead)) s hInv2 hge hsal
            hd48 htail (by omega)
        · show h.chunks.length + 1 =
            (h.chunks ++ [(⟨s - h.committed - chunk_overhead, true⟩ : Chunk)]).length
          rw [List.length_append]
          rfl
        · show ((h.chunks ++
              [(⟨s - h.committed - chunk_overhead, true⟩ : Chunk)]).getD
              h.chunks.length ⟨0, false⟩).free = true
          rw [List.getD_eq_getElem?_getD,
            List.getElem?_append_right (Nat.le_refl _), Nat.sub_self]
          rfl
      · push_neg at htail
        obtain ⟨hne, htfree0⟩ := htail
        have hL1 : 1 ≤ h.chunks.length := by
          cases hc : h.chunks with
          | nil => exact absurd hc hne
          | cons x xs => simp [hc]
        have htfree : (getC h (h.chunks.length - 1)).free = true := by
          cases hb : (getC h (h.chunks.length - 1)).free
          · exact absurd hb htfree0
          · rfl
        obtain ⟨jb, hfl⟩ := findList_of_free h (h.chunks.length - 1) hInv2
          (by omega) htfree
        have hszlast := (hsizes (h.chunks.length - 1) (by omega)).1
        have hbefore : h.chunks.length - 1 = 0 ∨
            (getC h (h.chunks.length - 2)).free = false := by
          by_cases hL2 : h.chunks.length - 1 = 0
          · exact Or.inl hL2
          · right
            cases hb : (getC h (h.chunks.length - 2)).free
            · rfl
            · exfalso
              have hx := hadj (h.chunks.length - 2) (by omega) (by omega) hb
              rw [show h.chunks.length - 2 + 1 = h.chunks.length - 1 from
                by omega, htfree] at hx
              exact Bool.noConfusion hx
        rw [hmerge jb hL1 htfree hfl hszlast hbefore] at hext
        injection hext with h1 h2eq
        rw [← h2eq, ← h1]
        refine ⟨?_, ?_, ?_⟩
        · exact Inv_extend_merge h h.locks
            (63 - clzll ((getC h (h.chunks.length - 1)).size +
              (s - h.committed))) jb s hInv2 hL1 hge hsal hd48 htfree hfl
            (by omega)
        · show h.chunks.length - 1 + 1 =
            (h.chunks.take (h.chunks.length - 1) ++
              [(⟨(getC h (h.chunks.length - 1)).size + (s - h.committed),
                true⟩ : Chunk)]).length
          rw [List.length_append, List.length_take]
          show h.chunks.length - 1 + 1 =
            min (h.chunks.length - 1) h.chunks.length + 1
          omega
        · show ((h.chunks.take (h.chunks.length - 1) ++
              [(⟨(getC h (h.chunks.length - 1)).size + (s - h.committed),
                true⟩ : Chunk)]).getD (h.chunks.length - 1) ⟨0, false⟩).free =
              true
          rw [List.getD_eq_getElem?_getD,
            List.getElem?_append_right (by rw [List.length_take]; omega),
            List.length_take,
            show h.chunks.length - 1 -
              min (h.chunks.length - 1) h.chunks.length = 0 from by omega]
          rfl
    · exfalso
      simp only [driver_extend] at hext
      rw [← hs] at hext
      rw [if_neg hshort] at hext
      rw [add_chunk] at hext
      by_cases hdal : (s - h.committed) % data_align ≠ 0
      · rw [if_pos hdal] at hext
        exact absurd hext (by simp)
      · rw [if_neg hdal, if_pos (by omega)] at hext
        exact absurd hext (by simp)

/-- A completed `driver::allocate` call preserves the arena invariant,
whichever of its paths (nil request, first-fit hit with or without
split, or extension) produced the result. -/
theorem driver_allocate_ok_inv (h : Heap) (n : Nat) (p : Option Nat)
    (h' : Heap) (hInv : Inv h)
    (hok : driver_allocate h n = .ok p h') : Inv h' := by
  have hnfl : n_free_list = 64 := rfl
  obtain ⟨hlen, htile, hsizes, hadj, hcount, hlisted⟩ := hInv
  have hInv2 : Inv h := ⟨hlen, htile, hsizes, hadj, hcount, hlisted⟩
  have hc1 : 1 ≤ h.committed := by
    have hgd := chunkAddr_ge_driver h.chunks h.chunks.length (Nat.le_refl _)
    rw [htile] at hgd
    have hds : driver_size = 2096 := rfl
    omega
  by_cases hn : n = 0
  · rw [driver_allocate, if_pos hn] at hok
    injection hok with h1 h2
    rw [← h2]
    exact hInv2
  · simp only [driver_allocate] at hok
    rw [if_neg hn] at hok
    cases hli : list_index (round_up n) with
    | error e =>
      rw [hli] at hok
      exact absurd hok (by simp)
    | ok i0 =>
      rw [hli] at hok
      dsimp only at hok
      have hr0 : round_up n ≠ 0 := by
        intro hz
        rw [list_index, if_pos hz] at hli
        exact Except.noConfusion hli
      have hres : ∀ a ∈ search_order (lock h) i0,
          (idxOfAddr (lock h).chunks a).isSome := by
        intro a ha
        obtain ⟨j, hjlt, hjmem⟩ := mem_search_order h.freeLists i0 a ha
        obtain ⟨i, hirange, hia, hifree⟩ :=
          hlisted j (by omega) a hjmem
        have hilt : i < h.chunks.length := List.mem_range.mp hirange
        have hx : idxOfAddr h.chunks (chunkAddr h.chunks i) = some i :=
          idxOfAddr_chunkAddr h.chunks i hilt
        rw [hia] at hx
        rw [show idxOfAddr (lock h).chunks a = idxOfAddr h.chunks a from rfl,
          hx]
        rfl
      have hwalk := walk_classes_eq (lock h) (round_up n) hlen i0 hres
      rw [hwalk] at hok
      cases hfind : (search_order (lock h) i0).find?
          (fits (lock h) (round_up n)) with
      | some a =>
        rw [hfind] at hok
        have hfa : fits (lock h) (round_up n) a = true := List.find?_some hfind
        cases hidx : idxOfAddr (lock h).chunks a with
        | none =>
          rw [fits, hidx] at hfa
          simp at hfa
        | some i =>
          simp only [hidx, Option.some_bind] at hok
          rw [fits, hidx] at hfa
          obtain ⟨hilen, hia⟩ := idxOfAddr_eq_some _ a i hidx
          have hia2 : chunkAddr h.chunks i = a := hia
          have hilen2 : i < h.chunks.length := hilen
          have hmem : a ∈ search_order (lock h) i0 :=
            List.mem_of_find?_eq_some hfind
          obtain ⟨j, hjlt, hjmem⟩ := mem_search_order h.freeLists i0 a hmem
          obtain ⟨i2, hi2r, hi2a, hi2free⟩ := hlisted j (by omega) a hjmem
          have hi2lt : i2 < h.chunks.length := List.mem_range.mp hi2r
          have hieq : i2 = i := chunkAddr_inj h.chunks i2 i
            (Nat.le_of_lt hi2lt) (Nat.le_of_lt hilen2)
            (hi2a.trans hia2.symm)
          have hfree : (getC h i).free = true := hieq ▸ hi2free
          have hafter2 : i + 1 < (lock h).chunks.length →
              (getC (lock h) (i + 1)).free = false :=
            fun hcon => hadj i hilen2 hcon hfree
          cases hca : chunk_allocate (lock h) i (round_up n) with
          | error e h2 =>
            rw [hca] at hok
            exact absurd hok (by simp)
          | ok u h2 =>
            rw [hca] at hok
            dsimp only at hok
            injection hok with h1 h2eq
            rw [← h2eq]
            exact chunk_allocate_ok_inv (lock h) i (round_up n) h2 hInv2
              hilen hfree (round_up_align n) (round_up_ge_align n hr0)
              hafter2 hca
      | none =>
        rw [hfind] at hok
        simp only [Option.none_bind] at hok
        cases hext : driver_extend (lock h)
            ((round_up n + chunk_overhead) % U64) with
        | error e h2 =>
          rw [hext] at hok
          exact absurd hok (by simp)
        | ok ci h2 =>
          rw [hext] at hok
          dsimp only at hok
          obtain ⟨hI2, hci1, hcifree⟩ := driver_extend_ok_inv (lock h)
            ((round_up n + chunk_overhead) % U64) ci h2 hInv2 hc1 hext
          cases hca : chunk_allocate h2 ci (round_up n) with
          | error e h3 =>
            rw [hca] at hok
            exact absurd hok (by simp)
          | ok u h3 =>
            rw [hca] at hok
            dsimp only at hok
            injection hok with h1 h3eq
            rw [← h3eq]
            exact chunk_allocate_ok_inv h2 ci (round_up n) h3 hI2
              (by omega) hcifree (round_up_align n)
              (round_up_ge_align n hr0) (fun hcon => absurd hcon (by omega))
              hca


/-- Every reachable arena state satisfies the structural invariant. -/
theorem Reach_Inv (g : Heap) (hg : Reach g) : Inv g := by
  induction hg with
  | init => exact Inv_fresh
  | alloc h n p h2 hr hok ih => exact driver_allocate_ok_inv h n p h2 ih hok
  | dealloc h p m h2 hr hok ih =>
    exact (driver_deallocate_ok_spec h p m h2 ih hok).1

/-- The arena after the fresh arena serves a 20-byte allocation at
payload address 2112 (an allocated 32-byte front and a free 1904-byte
remainder listed in class 10). -/
def H1w : Heap :=
  Heap.mk 4096 [Chunk.mk 32 false, Chunk.mk 1904 true]
    ((List.replicate n_free_list ([] : List Nat)).set 10 [2160]) 1

/-- The arena after that allocation is returned: the coalescing pass
merges the two chunks back into the single free chunk of the fresh
layout. -/
def Gw : Heap :=
  Heap.mk 4096 [Chunk.mk 1968 true]
    ((List.replicate n_free_list ([] : List Nat)).set 10 [2096]) 2

/-- C5.  In every heap state reachable from the freshly initialized
arena by any sequence of completed `allocate` and `deallocate`
operations, no two chunks adjacent in the address space are both free;
and whenever a deallocation of a non-null pointer completes from such a
state, the chunk that its coalescing pass produces is free and occurs
in exactly one free-list position. -/
theorem C5_invariant (h' : Heap) (hreach : Reach h') :
    (∀ i, i + 1 < h'.chunks.length → (getC h' i).free = true →
      (getC h' (i + 1)).free = false) ∧
    (∀ p m g, driver_deallocate h' (some p) m = .ok () g →
      ∃ i ret, idxOfAddr h'.chunks (p - header_size) = some i ∧
        chunk_deallocate (lock h') i = .ok ret g ∧
        ret < g.chunks.length ∧ (getC g ret).free = true ∧
        listedCount g.freeLists (chunkAddr g.chunks ret) = 1) := by
  have hInv := Reach_Inv h' hreach
  obtain ⟨hlen, htile, hsizes, hadj, hcount, hlisted⟩ := hInv
  have hInv2 : Inv h' := ⟨hlen, htile, hsizes, hadj, hcount, hlisted⟩
  refine ⟨fun i hi hf => hadj i (by omega) hi hf, ?_⟩
  intro p m g hok
  exact (driver_deallocate_ok_spec h' (some p) m g hInv2 hok).2 p rfl

/-- `driver::allocate` on the walk-hit path, assembled from the values
of its three stages. -/
theorem driver_allocate_ok_of_walk (h : Heap) (n i0 i : Nat) (h2 : Heap)
    (hn : n ≠ 0) (hli : list_index (round_up n) = .ok i0)
    (hw : walk_classes (lock h) (round_up n) i0 = .ok (some i))
    (hca : chunk_allocate (lock h) i (round_up n) = .ok () h2) :
    driver_allocate h n =
      .ok (some (chunkAddr (lock h).chunks i + header_size)) h2 := by
  rw [driver_allocate, if_neg hn]
  simp only [hli, hw, hca]

/-- The fresh arena serves a 20-byte request at payload address 2112
and becomes `H1w`. -/
theorem alloc_fresh_20 : driver_allocate fresh_heap 20 = .ok (some 2112) H1w := by
  have hw : walk_classes (lock fresh_heap) (round_up 20) 5 = .ok (some 0) := by
    rw [walk_classes_eq (lock fresh_heap) (round_up 20) (by decide) 5 (by decide)]
    rfl
  exact driver_allocate_ok_of_walk fresh_heap 20 5 0 H1w (by decide)
    (by rfl) hw (by decide)

/-- Witness for C5: the state reached by allocating 20 bytes from the
fresh arena (payload address 2112), then deallocating that pointer; the
deallocation coalesces the arena back into one free chunk at offset
2096 that sits exactly once in free list 10. -/
theorem C5_witness :
    ∃ i ret, idxOfAddr H1w.chunks (2112 - header_size) = some i ∧
      chunk_deallocate (lock H1w) i = .ok ret Gw ∧
      ret < Gw.chunks.length ∧ (getC Gw ret).free = true ∧
      listedCount Gw.freeLists (chunkAddr Gw.chunks ret) = 1 :=
  (C5_invariant H1w
    (Reach.alloc fresh_heap 20 (some 2112) H1w Reach.init alloc_fresh_20)).2
    2112 20 Gw (by decide)


/-- The chunk-level fragmentation bounds behind C10: a successful
`chunk::allocate` of the aligned rounded request from a free chunk of a
well-formed arena leaves the served chunk at its tiling position and
start offset, allocated, with payload `r ≤ size < r + min_chunk_size_`,
and with `size = r` exactly whenever the slack reached
`min_chunk_size_` (the split case). -/
theorem chunk_allocate_ok_bounds (g : Heap) (i r : Nat) (h' : Heap)
    (hInv : Inv g) (hilen : i < g.chunks.length)
    (hfree : (getC g i).free = true)
    (hral : r % data_align = 0)
    (hafter : i + 1 < g.chunks.length → (getC g (i + 1)).free = false)
    (hok : chunk_allocate g i r = .ok () h') :
    chunkAddr h'.chunks i = chunkAddr g.chunks i ∧
    i < h'.chunks.length ∧
    r ≤ (getC h' i).size ∧
    (getC h' i).size < r + min_chunk_size ∧
    (getC h' i).free = false ∧
    (min_chunk_size ≤ (getC g i).size - r → (getC h' i).size = r) := by
  obtain ⟨j, hfl⟩ := findList_of_free g i hInv hilen hfree
  have hszal := (hInv.2.2.1 i hilen).1
  have hmin48 : min_chunk_size = 48 := by decide
  by_cases hsz : r ≤ (getC g i).size
  · by_cases hrem : min_chunk_size ≤ (getC g i).size - r
    · rw [chunk_allocate_split g i r j hral hilen hszal hrem hfl hafter] at hok
      injection hok with h1 h2
      set fl1 := g.freeLists.set j
        ((flGet g.freeLists j).erase (chunkAddr g.chunks i)) with hfl1
      set rem := (getC g i).size - r - chunk_overhead with hrem2
      have h2x : Heap.mk g.committed
          (g.chunks.take i ++ (⟨r, false⟩ : Chunk) :: (⟨rem, true⟩ : Chunk) ::
            g.chunks.drop (i + 1))
          (fl1.set (63 - clzll rem)
            ((chunkAddr g.chunks i + r + chunk_overhead) ::
              flGet fl1 (63 - clzll rem)))
          g.locks = h' := h2
      rw [← h2x]
      have hg : getC (Heap.mk g.committed
          (g.chunks.take i ++ (⟨r, false⟩ : Chunk) :: (⟨rem, true⟩ : Chunk) ::
            g.chunks.drop (i + 1))
          (fl1.set (63 - clzll rem)
            ((chunkAddr g.chunks i + r + chunk_overhead) ::
              flGet fl1 (63 - clzll rem)))
          g.locks) i = (⟨r, false⟩ : Chunk) := by
        rw [getC_eq_getElem?]
        show ((g.chunks.take i ++ (⟨r, false⟩ : Chunk) ::
          (⟨rem, true⟩ : Chunk) :: g.chunks.drop (i + 1))[i]?).getD ⟨0, false⟩ = _
        rw [getElem?_splice2_fst g.chunks i _ _ (by omega)]
        rfl
      refine ⟨?_, ?_, ?_, ?_, ?_, ?_⟩
      · show chunkAddr (g.chunks.take i ++ (⟨r, false⟩ : Chunk) ::
          (⟨rem, true⟩ : Chunk) :: g.chunks.drop (i + 1)) i = _
        exact chunkAddr_splice2 g.chunks i i _ _ (Nat.le_refl _) (by omega)
      · show i < (g.chunks.take i ++ (⟨r, false⟩ : Chunk) ::
          (⟨rem, true⟩ : Chunk) :: g.chunks.drop (i + 1)).length
        rw [length_splice2 g.chunks i _ _ hilen]
        omega
      · rw [hg]
      · rw [hg]
        show r < r + min_chunk_size
        omega
      · rw [hg]
      · intro _
        rw [hg]
    · rw [chunk_allocate_nosplit g i r j hral hilen hsz (by omega) hfl] at hok
      injection hok with h1 h2
      rw [← h2]
      have hg : getC (Heap.mk g.committed
          (g.chunks.set i (⟨(getC g i).size, false⟩ : Chunk))
          (g.freeLists.set j
            ((flGet g.freeLists j).erase (chunkAddr g.chunks i)))
          g.locks) i = (⟨(getC g i).size, false⟩ : Chunk) := by
        show (g.chunks.set i (⟨(getC g i).size, false⟩ : Chunk)).getD i
          ⟨0, false⟩ = _
        exact getD_set_self g.chunks i _ hilen
      refine ⟨?_, ?_, ?_, ?_, ?_, ?_⟩
      · show chunkAddr (g.chunks.set i (⟨(getC g i).size, false⟩ : Chunk)) i = _
        exact chunkAddr_set_le g.chunks i i _ (Nat.le_refl _) hilen
      · show i < (g.chunks.set i (⟨(getC g i).size, false⟩ : Chunk)).length
        rw [List.length_set]
        omega
      · rw [hg]
        exact hsz
      · rw [hg]
        show (getC g i).size < r + min_chunk_size
        omega
      · rw [hg]
      · intro hcontra
        exact absurd hcontra hrem
  · rw [chunk_allocate, if_neg (by simp [hral]), if_pos (by omega)] at hok
    exact absurd hok (by simp)

/-- C10.  Every successful allocation that returns a payload address
from a well-formed arena is served by one `chunk::allocate` on a chunk
of a base arena `g` — the locked arena when the first-fit walk hits, or
the arena `driver::extend` produced when the walk found no fit — and in
the resulting arena the served chunk keeps its start offset (whose
payload address is returned), is marked allocated, and its recorded
payload size satisfies `round_up n ≤ size < round_up n +
min_chunk_size_`; whenever the slack reached `min_chunk_size_` a split
occurred and `size = round_up n` exactly, so internal fragmentation per
allocation is bounded by `min_chunk_size_`. -/
theorem C10_bounds (h : Heap) (n a : Nat) (h' : Heap) (hInv : Inv h)
    (hok : driver_allocate h n = .ok (some a) h') :
    ∃ g i,
      (g = lock h ∨
        driver_extend (lock h) ((round_up n + chunk_overhead) % U64) =
          .ok i g) ∧
      chunk_allocate g i (round_up n) = .ok () h' ∧
      a = chunkAddr g.chunks i + header_size ∧
      chunkAddr h'.chunks i = chunkAddr g.chunks i ∧
      i < h'.chunks.length ∧
      round_up n ≤ (getC h' i).size ∧
      (getC h' i).size < round_up n + min_chunk_size ∧
      (getC h' i).free = false ∧
      (min_chunk_size ≤ (getC g i).size - round_up n →
        (getC h' i).size = round_up n) := by
  have hnfl : n_free_list = 64 := rfl
  obtain ⟨hlen, htile, hsizes, hadj, hcount, hlisted⟩ := hInv
  have hInv2 : Inv h := ⟨hlen, htile, hsizes, hadj, hcount, hlisted⟩
  have hc1 : 1 ≤ h.committed := by
    have hgd := chunkAddr_ge_driver h.chunks h.chunks.length (Nat.le_refl _)
    rw [htile] at hgd
    have hds : driver_size = 2096 := rfl
    omega
  by_cases hn : n = 0
  · rw [driver_allocate, if_pos hn] at hok
    injection hok with h1 h2
    exact Option.noConfusion h1
  · simp only [driver_allocate] at hok
    rw [if_neg hn] at hok
    cases hli : list_index (round_up n) with
    | error e =>
      rw [hli] at hok
      exact absurd hok (by simp)
    | ok i0 =>
      rw [hli] at hok
      dsimp only at hok
      have hr0 : round_up n ≠ 0 := by
        intro hz
        rw [list_index, if_pos hz] at hli
        exact Except.noConfusion hli
      have hres : ∀ b ∈ search_order (lock h) i0,
          (idxOfAddr (lock h).chunks b).isSome := by
        intro b hb
        obtain ⟨j, hjlt, hjmem⟩ := mem_search_order h.freeLists i0 b hb
        obtain ⟨i, hirange, hib, hifree⟩ :=
          hlisted j (by omega) b hjmem
        have hilt : i < h.chunks.length := List.mem_range.mp hirange
        have hx : idxOfAddr h.chunks (chunkAddr h.chunks i) = some i :=
          idxOfAddr_chunkAddr h.chunks i hilt
        rw [hib] at hx
        rw [show idxOfAddr (lock h).chunks b = idxOfAddr h.chunks b from rfl,
          hx]
        rfl
      have hwalk := walk_classes_eq (lock h) (round_up n) hlen i0 hres
      rw [hwalk] at hok
      cases hfind : (search_order (lock h) i0).find?
          (fits (lock h) (round_up n)) with
      | some b =>
        rw [hfind] at hok
        have hfb : fits (lock h) (round_up n) b = true := List.find?_some hfind
        cases hidx : idxOfAddr (lock h).chunks b with
        | none =>
          rw [fits, hidx] at hfb
          simp at hfb
        | some i =>
          simp only [hidx, Option.some_bind] at hok
          rw [fits, hidx] at hfb
          obtain ⟨hilen, hib⟩ := idxOfAddr_eq_some _ b i hidx
          have hib2 : chunkAddr h.chunks i = b := hib
          have hilen2 : i < h.chunks.length := hilen
          have hmem : b ∈ search_order (lock h) i0 :=
            List.mem_of_find?_eq_some hfind
          obtain ⟨j, hjlt, hjmem⟩ := mem_search_order h.freeLists i0 b hmem
          obtain ⟨i2, hi2r, hi2b, hi2free⟩ := hlisted j (by omega) b hjmem
          have hi2lt : i2 < h.chunks.length := List.mem_range.mp hi2r
          have hieq : i2 = i := chunkAddr_inj h.chunks i2 i
            (Nat.le_of_lt hi2lt) (Nat.le_of_lt hilen2)
            (hi2b.trans hib2.symm)
          have hfree : (getC h i).free = true := hieq ▸ hi2free
          have hafter2 : i + 1 < (lock h).chunks.length →
              (getC (lock h) (i + 1)).free = false :=
            fun hcon => hadj i hilen2 hcon hfree
          cases hca : chunk_allocate (lock h) i (round_up n) with
          | error e h2 =>
            rw [hca] at hok
            exact absurd hok (by simp)
          | ok u h2 =>
            rw [hca] at hok
            dsimp only at hok
            injection hok with h1 h2eq
            injection h1 with h1a
            cases u
            rw [h2eq] at hca
            obtain ⟨hA, hB, hC, hD, hE, hF⟩ := chunk_allocate_ok_bounds
              (lock h) i (round_up n) h' hInv2 hilen hfree
              (round_up_align n) hafter2 hca
            exact ⟨lock h, i, Or.inl rfl, hca, h1a.symm, hA, hB, hC, hD, hE,
              hF⟩
      | none =>
        rw [hfind] at hok
        simp only [Option.none_bind] at hok
        cases hext : driver_extend (lock h)
            ((round_up n + chunk_overhead) % U64) with
        | error e h2 =>
          rw [hext] at hok
          exact absurd hok (by simp)
        | ok ci h2 =>
          rw [hext] at hok
          dsimp only at hok
          obtain ⟨hI2, hci1, hcifree⟩ := driver_extend_ok_inv (lock h)
            ((round_up n + chunk_overhead) % U64) ci h2 hInv2 hc1 hext
          cases hca : chunk_allocate h2 ci (round_up n) with
          | error e h3 =>
            rw [hca] at hok
            exact absurd hok (by simp)
          | ok u h3 =>
            rw [hca] at hok
            dsimp only at hok
            injection hok with h1 h3eq
            injection h1 with h1a
            cases u
            rw [h3eq] at hca
            obtain ⟨hA, hB, hC, hD, hE, hF⟩ := chunk_allocate_ok_bounds
              h2 ci (round_up n) h' hI2 (by omega) hcifree
              (round_up_align n) (fun hcon => absurd hcon (by omega)) hca
            exact ⟨h2, ci, Or.inr rfl, hca, h1a.symm, hA, hB, hC, hD, hE, hF⟩

/-- `driver::allocate` on the extension path, assembled from the values
of its stages. -/
theorem driver_allocate_ok_of_extend (h : Heap) (n i0 ci : Nat) (g h3 : Heap)
    (hn : n ≠ 0) (hli : list_index (round_up n) = .ok i0)
    (hw : walk_classes (lock h) (round_up n) i0 = .ok none)
    (hext : driver_extend (lock h) ((round_up n + chunk_overhead) % U64) =
      .ok ci g)
    (hca : chunk_allocate g ci (round_up n) = .ok () h3) :
    driver_allocate h n =
      .ok (some (chunkAddr g.chunks ci + header_size)) h3 := by
  rw [driver_allocate, if_neg hn]
  simp only [hli, hw, hext, hca]

/-- The arena `driver::extend` produces when the fresh arena must grow
for a 3000-byte request: the segment doubles to 8192 bytes and the new
span coalesces with the old free chunk into one 6064-byte chunk at
offset 2096, listed in class 12. -/
def Gext : Heap :=
  Heap.mk 8192 [Chunk.mk 6064 true]
    ((((List.replicate n_free_list ([] : List Nat)).set 10 [2096]).set 10
      []).set 12 [2096]) 1

/-- The arena after the fresh arena serves a 3000-byte request through
extension: the 6064-byte extension chunk is split into an allocated
3008-byte front at offset 2096 and a free 3024-byte remainder listed in
class 11. -/
def H3w : Heap :=
  Heap.mk 8192 [Chunk.mk 3008 false, Chunk.mk 3024 true]
    ((List.replicate n_free_list ([] : List Nat)).set 11 [5136]) 1

/-- The fresh arena serves a 3000-byte request at payload address 2112
through the extension path and becomes `H3w`. -/
theorem alloc_fresh_3000 :
    driver_allocate fresh_heap 3000 = .ok (some 2112) H3w := by
  have hw : walk_classes (lock fresh_heap) (round_up 3000) 11 = .ok none := by
    rw [walk_classes_eq (lock fresh_heap) (round_up 3000) (by decide) 11
      (by decide)]
    rfl
  exact driver_allocate_ok_of_extend fresh_heap 3000 11 0 Gext H3w (by decide)
    (by rfl) hw (by decide) (by decide)

/-- Witness for C10 on the extension path: a 3000-byte request from the
fresh arena finds no fit, the segment doubles to 8192 bytes, and the
request is served by splitting the coalesced 6064-byte extension chunk,
leaving the served chunk at offset 2096 with exactly `round_up 3000 =
3008` payload bytes. -/
theorem C10_witness :
    ∃ g i,
      (g = lock fresh_heap ∨
        driver_extend (lock fresh_heap)
          ((round_up 3000 + chunk_overhead) % U64) = .ok i g) ∧
      chunk_allocate g i (round_up 3000) = .ok () H3w ∧
      2112 = chunkAddr g.chunks i + header_size ∧
      chunkAddr H3w.chunks i = chunkAddr g.chunks i ∧
      i < H3w.chunks.length ∧
      round_up 3000 ≤ (getC H3w i).size ∧
      (getC H3w i).size < round_up 3000 + min_chunk_size ∧
      (getC H3w i).free = false ∧
      (min_chunk_size ≤ (getC g i).size - round_up 3000 →
        (getC H3w i).size = round_up 3000) :=
  C10_bounds fresh_heap 3000 2112 H3w Inv_fresh alloc_fresh_3000

end SharedAlloc